import Mathlib

/-!
A verification development for the jsorm JSON:API object-relational mapper core:
the record data model, the dirty-state tracker, the deserializer
(`fromJsonapi`), the graph serializer (`buildPayload`) and the query-string
helper (`parameterize`).  The deserializer, serializer and dirty tracker are
modelled from the specification (their implementation file is absent from the
source tree; only their tests are present), while `parameterize` is embedded
directly from `src/util/parameterize.ts`.
-/

namespace Jsorm

/-! ## Association-list helpers (JS object semantics: first key occurrence wins) -/

/-- Lookup of the first binding of key `k`. -/
def aget [DecidableEq κ] (k : κ) : List (κ × α) → Option α
  | [] => none
  | (k2, v) :: t => if k2 = k then some v else aget k t

/-- Replace the first binding of `k` (keeping its position), or append one. -/
def aset [DecidableEq κ] (k : κ) (v : α) : List (κ × α) → List (κ × α)
  | [] => [(k, v)]
  | (k2, w) :: t => if k2 = k then (k2, v) :: t else (k2, w) :: aset k v t

/-! ## Wire-name normalization (camelize / underscore) -/

/-- `underscore` on one character: an upper-case letter becomes `_` + lower case. -/
def underscoreChar (c : Char) : List Char :=
  if c.isUpper then ['_', c.toLower] else [c]

/-- snake_case a camelCase name, as the serializer does for wire keys. -/
def underscore (s : String) : String :=
  ⟨(s.data.map underscoreChar).flatten⟩

/-- camelCase worker over a character list. -/
def camelizeGo : List Char → List Char
  | [] => []
  | '_' :: c :: t => c.toUpper :: camelizeGo t
  | c :: t => c :: camelizeGo t

/-- camelCase a snake_case wire name; names already camelCased are unchanged. -/
def camelize (s : String) : String :=
  ⟨camelizeGo s.data⟩

/-! ## Values -/

/-- JSON scalar values stored in attributes, metadata and identifiers. -/
inductive Value where
  | vStr (s : String)
  | vInt (n : Int)
  | vBool (b : Bool)
  | vNull
deriving DecidableEq, Repr

/-! ## Attribute/relationship schema

Modelled from the spec: the per-type schema registry ("Attribute/Relationship
Schema", §4.2 of the system overview) and the fixture model classes
(`Author`, `Book`, `Genre`, `Bio`) that the tests in the source tree use; the
fixture file itself is absent from the source tree. -/

/-- Relationship cardinality, per schema declaration. -/
inductive Cardinality where
  | toOne
  | toMany
deriving DecidableEq, Repr

/-- One declared relationship: in-memory name, cardinality, target wire type. -/
structure RelDef where
  name : String
  card : Cardinality
  target : String
deriving DecidableEq, Repr

/-- Declared schema of one record type. -/
structure ModelDef where
  jsonapiType : String
  attrNames : List String
  relDefs : List RelDef
deriving DecidableEq, Repr

/-- Modelled from the spec: the `Author` fixture model. -/
def authorDef : ModelDef :=
  ⟨"authors", ["firstName", "lastName", "nilly"],
   [⟨"multiWords", .toMany, "multi_words"⟩,
    ⟨"tags", .toMany, "tags"⟩,
    ⟨"genre", .toOne, "genres"⟩,
    ⟨"books", .toMany, "books"⟩,
    ⟨"specialBooks", .toMany, "books"⟩,
    ⟨"bio", .toOne, "bios"⟩]⟩

/-- Modelled from the spec: the `Book` fixture model. -/
def bookDef : ModelDef :=
  ⟨"books", ["title"],
   [⟨"genre", .toOne, "genres"⟩, ⟨"author", .toOne, "authors"⟩]⟩

/-- Modelled from the spec: the `Genre` fixture model. -/
def genreDef : ModelDef :=
  ⟨"genres", ["name"], [⟨"authors", .toMany, "authors"⟩]⟩

/-- Modelled from the spec: the `Bio` fixture model. -/
def bioDef : ModelDef :=
  ⟨"bios", ["description"], []⟩

/-- Modelled from the spec: the `MultiWord` fixture model. -/
def multiWordDef : ModelDef :=
  ⟨"multi_words", [], []⟩

/-- Modelled from the spec: the `Tag` fixture model. -/
def tagDef : ModelDef :=
  ⟨"tags", [], []⟩

/-- Modelled from the spec: the type registry ("explicit registry mapping
type-tag to a constructor capability, populated at schema-setup time"). -/
def registry : List ModelDef :=
  [authorDef, bookDef, genreDef, bioDef, multiWordDef, tagDef]

/-- Dynamic type dispatch by wire `type` string. -/
def modelFor (t : String) : Option ModelDef :=
  registry.find? (fun m => m.jsonapiType = t)

/-- Declared attribute names of a type (empty for unknown types). -/
def declaredAttrs (t : String) : List String :=
  (modelFor t).elim [] (fun m => m.attrNames)

/-- Declared relationships of a type (empty for unknown types). -/
def declaredRels (t : String) : List RelDef :=
  (modelFor t).elim [] (fun m => m.relDefs)

/-! ## Records and the heap

Records are mutable JS objects; we model object identity with a heap of
records addressed by `RecordId`. -/

abbrev RecordId := Nat

/-- A relationship slot value: a to-one target or an ordered to-many list. -/
inductive RelValue where
  | one (target : Option RecordId)
  | many (targets : List RecordId)
deriving DecidableEq, Repr

/-- A `(type, id)` resource identifier as read from or written to the wire. -/
structure ResourceIdentifier where
  rtype : String
  id : Value
deriving DecidableEq, Repr

/-- Modelled from the spec: the Record data model (§3): type tag, optional id,
attributes, relationships, persisted / marked flags, metadata bag, the
caller-attached ad-hoc fields, and the persisted snapshot (attribute values and
relationship resource-identifiers captured when persisted-state last became
true; all nulls on construction). -/
structure Record where
  rtype : String
  id : Option Value
  attrs : List (String × Value)
  rels : List (String × RelValue)
  persisted : Bool
  markedForDestruction : Bool
  markedForDisassociation : Bool
  meta : List (String × Value)
  extra : List (String × Value)
  snapshotAttrs : List (String × Value)
  snapshotRels : List (String × List ResourceIdentifier)
deriving DecidableEq, Repr

/-- A bare record of a registered class, as the Identity Resolver constructs. -/
def Record.fresh (t : String) : Record :=
  ⟨t, none, [], [], false, false, false, [], [], [], []⟩

abbrev Heap := List (RecordId × Record)

/-- Read a record from the heap (a dangling id reads as an empty record). -/
def hGet (h : Heap) (r : RecordId) : Record :=
  (aget r h).getD (Record.fresh "")

/-- Write a record back to the heap. -/
def hSet (h : Heap) (r : RecordId) (rc : Record) : Heap :=
  aset r rc h

/-- An address not used by the heap yet. -/
def freshRid (h : Heap) : RecordId :=
  (h.map Prod.fst).foldr (fun a b => max a b) 0 + 1

/-- The member list of a relationship slot. -/
def relMembers : RelValue → List RecordId
  | .one none => []
  | .one (some m) => [m]
  | .many ms => ms

/-- Resource identifiers of the given records; records without an id are
omitted rather than represented with a placeholder. -/
def identifiersOf (h : Heap) (ms : List RecordId) : List ResourceIdentifier :=
  ms.filterMap (fun m => ((hGet h m).id).map (fun i => ⟨(hGet h m).rtype, i⟩))

/-- Modelled from the spec: `relationshipResourceIdentifiers` of the Model
class (absent from the source tree; its tests constrain it): for each listed
relationship that is set, the identifiers of its members that have an id, the
entry being created only when at least one identifier exists. -/
def relationshipResourceIdentifiers (h : Heap) (r : RecordId) (names : List String) :
    List (String × List ResourceIdentifier) :=
  names.filterMap (fun n =>
    match aget n (hGet h r).rels with
    | none => none
    | some rv =>
      if identifiersOf h (relMembers rv) = [] then none
      else some (n, identifiersOf h (relMembers rv)))

/-! ## Dirty-state tracker -/

/-- Modelled from the spec: `changes(record)` (§4.2): if unpersisted, every
non-null current attribute is reported as `[null, current]`; if persisted,
current values are compared against the persisted snapshot and only attributes
that differ are reported as `[snapshot, current]`. -/
def changes (rc : Record) : List (String × (Value × Value)) :=
  if rc.persisted then
    rc.attrs.filterMap (fun kv =>
      let prev := (aget kv.1 rc.snapshotAttrs).getD Value.vNull
      if kv.2 = prev then none else some (kv.1, (prev, kv.2)))
  else
    rc.attrs.filterMap (fun kv =>
      if kv.2 = Value.vNull then none else some (kv.1, (Value.vNull, kv.2)))

/-- Record-local dirtiness: non-empty `changes` or either marked flag. -/
def localDirty (rc : Record) : Bool :=
  !(changes rc).isEmpty || rc.markedForDestruction || rc.markedForDisassociation

/-- Modelled from the spec: re-asserting persisted-state. Asserting true
overwrites the persisted snapshot (attributes and relationship
resource-identifiers); asserting false only clears the flag. -/
def setPersisted (h : Heap) (r : RecordId) (b : Bool) : Heap :=
  let rc := hGet h r
  if b then
    hSet h r { rc with
      persisted := true,
      snapshotAttrs := rc.attrs,
      snapshotRels := relationshipResourceIdentifiers h r (rc.rels.map Prod.fst) }
  else
    hSet h r { rc with persisted := false }

/-! ## Include directives -/

/-- The canonical nested form of an include directive: relationship name to
nested directive, an empty node being a leaf. -/
inductive Directive where
  | node (entries : List (String × Directive))

/-- The entries of a directive node. -/
def Directive.entries : Directive → List (String × Directive)
  | .node es => es

/-- The empty directive. -/
def Directive.empty : Directive := .node []

/-- Accepted shorthand forms of an include directive: a bare name, an ordered
sequence, or a mapping. -/
inductive IncludeArg where
  | str (s : String)
  | list (args : List IncludeArg)
  | obj (entries : List (String × IncludeArg))

mutual

/-- Modelled from the spec: normalization of include-directive shorthand into
the canonical nested form (a bare name becomes a leaf entry, a sequence is
flattened, a mapping recurses). -/
def normalizeInclude : IncludeArg → Directive
  | .str s => .node [(s, .node [])]
  | .list args => .node (normalizeIncludeList args)
  | .obj es => .node (normalizeIncludeObj es)

/-- Normalization worker for sequence shorthand. -/
def normalizeIncludeList : List IncludeArg → List (String × Directive)
  | [] => []
  | a :: rest => (normalizeInclude a).entries ++ normalizeIncludeList rest

/-- Normalization worker for mapping shorthand. -/
def normalizeIncludeObj : List (String × IncludeArg) → List (String × Directive)
  | [] => []
  | (k, v) :: rest => (k, normalizeInclude v) :: normalizeIncludeObj rest

end

mutual

/-- Modelled from the spec: `isDirty(record, relationshipScope)` (§4.2): true
if `changes` is non-empty, or a marked flag is set, or — only when the scope
names that relationship — a referenced record within scope is itself dirty
under the nested scope, or the relationship's referenced identifier set
differs from the persisted snapshot. -/
def isDirty (h : Heap) (r : RecordId) : Directive → Bool
  | .node es => localDirty (hGet h r) || anyDirtyEntry h (hGet h r) es

/-- Scope-entry worker for `isDirty`. -/
def anyDirtyEntry (h : Heap) (rc : Record) : List (String × Directive) → Bool
  | [] => false
  | (n, nested) :: rest =>
    (match aget n rc.rels with
     | none => false
     | some rv =>
       anyDirtyMember h (relMembers rv) nested ||
       decide (identifiersOf h (relMembers rv) ≠ (aget n rc.snapshotRels).getD []))
    || anyDirtyEntry h rc rest

/-- Member worker for `isDirty`. -/
def anyDirtyMember (h : Heap) : List RecordId → Directive → Bool
  | [], _ => false
  | m :: ms, nested => isDirty h m nested || anyDirtyMember h ms nested

end

/-! ## Wire documents (JSON:API subset, read side) -/

/-- The `data` of a relationship object: one resource identifier (or null), or
an ordered list of identifiers. -/
inductive RelData where
  | one (ri : Option ResourceIdentifier)
  | many (ris : List ResourceIdentifier)
deriving DecidableEq, Repr

/-- A relationship object; `dat` is its optional `data` key. -/
structure RelationshipObj where
  dat : Option RelData
deriving DecidableEq, Repr

/-- A wire resource object: `{ id?, type, attributes?, relationships?, meta? }`. -/
structure Resource where
  rtype : String
  id : Option Value
  attributes : List (String × Value)
  relationships : List (String × RelationshipObj)
  meta : List (String × Value)
deriving DecidableEq, Repr

/-- A compound document: optional primary resource plus flat `included`. -/
structure Document where
  data? : Option Resource
  included : List Resource
deriving DecidableEq, Repr

/-- The identity key of a resource identifier. -/
def rkey (ri : ResourceIdentifier) : String × Value :=
  (ri.rtype, ri.id)

/-- The identity key of a wire resource (a missing id keys as null). -/
def resourceKey (res : Resource) : String × Value :=
  (res.rtype, res.id.getD Value.vNull)

/-- Modelled from the spec: resource-payload lookup for a referenced
identifier — the matching `included` entry, or the identifier itself as a
minimal resource when no entry matches. -/
def findResource (doc : Document) (ri : ResourceIdentifier) : Resource :=
  (doc.included.find? (fun r => decide (r.rtype = ri.rtype ∧ r.id = some ri.id))).getD
    ⟨ri.rtype, some ri.id, [], [], []⟩

/-! ## Deserializer -/

/-- State of one deserialization pass: the heap, the identity pool
(`(type, id)` to record instance) and the set of resource identities already
applied in this pass. -/
structure DeserState where
  heap : Heap
  pool : List ((String × Value) × RecordId)
  processed : List ((String × Value) × RecordId)
deriving DecidableEq, Repr

/-- Write one relationship slot of a heap record. -/
def writeRelH (h : Heap) (r : RecordId) (n : String) (rv : RelValue) : Heap :=
  let rc := hGet h r
  hSet h r { rc with rels := aset n rv rc.rels }

/-- Write one relationship slot through the deserialization state. -/
def writeRel (st : DeserState) (r : RecordId) (n : String) (rv : RelValue) : DeserState :=
  { st with heap := writeRelH st.heap r n rv }

/-- Assign the declared (name-normalized) attributes present in the wire
payload; attributes not declared in the schema are dropped. -/
def assignAttrs (declared : List String) (wire : List (String × Value)) (rc : Record) : Record :=
  declared.foldl (fun r a =>
    match wire.find? (fun kv => decide (camelize kv.1 = a)) with
    | some kv => { r with attrs := aset a kv.2 r.attrs }
    | none => r) rc

/-- Total relationship-member count of the heap, used to bound seeding. -/
def totalRelSize (h : Heap) : Nat :=
  (h.map (fun p => (p.2.rels.map (fun kv => (relMembers kv.2).length + 1)).sum + 1)).sum

/-- Depth-first worker seeding the identity pool from the records reachable
from the supplied record (first identity occurrence wins). -/
def seedVisit (h : Heap) : Nat → List RecordId → List RecordId →
    List ((String × Value) × RecordId) → List ((String × Value) × RecordId)
  | 0, _, _, pool => pool
  | _ + 1, [], _, pool => pool
  | fuel + 1, r :: work, seen, pool =>
    if r ∈ seen then seedVisit h fuel work seen pool
    else
      let rc := hGet h r
      let pool2 :=
        match rc.id with
        | some i =>
          if (aget (rc.rtype, i) pool).isSome then pool else aset (rc.rtype, i) r pool
        | none => pool
      let children := (rc.rels.map (fun kv => relMembers kv.2)).flatten
      seedVisit h fuel (children ++ work) (r :: seen) pool2

/-- Modelled from the spec: the identity pool is seeded from the supplied
record — every record reachable from it, keyed by `(type, id)`. -/
def seedPool (h : Heap) (r : RecordId) : List ((String × Value) × RecordId) :=
  seedVisit h ((h.length + 1) * (totalRelSize h + 2) + 2) [r] [] []

/-- Modelled from the spec: the Identity Resolver (§4.1) combined with the
recursive apply: a pool miss constructs a bare record of the registered class
and registers it in the pool under the identity key. -/
def freshState (st : DeserState) (ri : ResourceIdentifier) : DeserState :=
  { st with heap := hSet st.heap (freshRid st.heap) (Record.fresh ri.rtype),
            pool := aset (rkey ri) (freshRid st.heap) st.pool }

/-- Modelled from the spec: the Identity Resolver (§4.1) combined with the
recursive apply: a pool hit returns the pooled instance unchanged; a pool miss
constructs a bare record of the registered class (an unknown type fails this
branch only, resolving to none) and registers it in the pool; either way the
resolved record is recursively applied (through `applyFn`) with the matching
resource payload. -/
def attachOne (doc : Document)
    (applyFn : DeserState → RecordId → Resource → DeserState × RecordId)
    (st : DeserState) (ri : ResourceIdentifier) : DeserState × Option RecordId :=
  match aget (rkey ri) st.pool with
  | some m =>
    match applyFn st m (findResource doc ri) with
    | (st2, r) => (st2, some r)
  | none =>
    match modelFor ri.rtype with
    | none => (st, none)
    | some _ =>
      match applyFn (freshState st ri) (freshRid st.heap) (findResource doc ri) with
      | (st2, r) => (st2, some r)

/-- To-many worker of the deserializer: attaches each referenced identifier
in order; unresolvable references are omitted. -/
def attachList (doc : Document)
    (applyFn : DeserState → RecordId → Resource → DeserState × RecordId)
    (st : DeserState) : List ResourceIdentifier → DeserState × List RecordId
  | [] => (st, [])
  | ri :: rest =>
    match attachOne doc applyFn st ri with
    | (st1, m?) =>
      match attachList doc applyFn st1 rest with
      | (st2, ms) => (st2, match m? with | some m => m :: ms | none => ms)

/-- Wire relationship data of one declared relationship: missing `data`
resolves to an empty sequence for to-many and leaves to-one unchanged; a null
to-one clears the slot; otherwise each referenced identifier is attached. -/
def processRelData (doc : Document)
    (applyFn : DeserState → RecordId → Resource → DeserState × RecordId)
    (st : DeserState) (target : RecordId) (rd : RelDef) : Option RelData → DeserState
  | none =>
    match rd.card with
    | .toMany => writeRel st target rd.name (.many [])
    | .toOne => st
  | some (.one none) => writeRel st target rd.name (.one none)
  | some (.one (some ri)) =>
    match attachOne doc applyFn st ri with
    | (st2, some m) => writeRel st2 target rd.name (.one (some m))
    | (st2, none) => writeRel st2 target rd.name (.one none)
  | some (.many ris) =>
    match attachList doc applyFn st ris with
    | (st2, ms) => writeRel st2 target rd.name (.many ms)

/-- One declared relationship of the deserializer: looked up in the wire
payload by normalized name; an absent wire entry leaves the record unchanged. -/
def processOneRel (doc : Document)
    (applyFn : DeserState → RecordId → Resource → DeserState × RecordId)
    (st : DeserState) (target : RecordId) (rd : RelDef) (res : Resource) : DeserState :=
  match res.relationships.find? (fun kv => decide (camelize kv.1 = rd.name)) with
  | none => st
  | some kv => processRelData doc applyFn st target rd kv.2.dat

/-- Relationship worker of the deserializer: walks the declared relationships
of the target, looking each up in the wire payload by normalized name. -/
def processRelDefs (doc : Document)
    (applyFn : DeserState → RecordId → Resource → DeserState × RecordId)
    (st : DeserState) (target : RecordId) : List RelDef → Resource → DeserState
  | [], _ => st
  | rd :: rest, res =>
    processRelDefs doc applyFn (processOneRel doc applyFn st target rd res) target rest res

/-- Modelled from the spec: the deserializer core (§4.3).  Applies a wire
resource to the target record: a resource identity already applied in this
pass resolves to the record that consumed it (identity-map semantics);
otherwise the identity is registered and the record is hydrated — id and meta
are set, declared attributes are assigned, each declared relationship with a
`data` key is resolved through the identity pool and recursively applied, a
declared to-many relationship lacking `data` resolves to an empty sequence,
and finally persisted-state is asserted true (overwriting the snapshot). -/
def applyCore (doc : Document) : Nat → DeserState → RecordId → Resource → DeserState × RecordId
  | fuel, st, target, res =>
    match aget (resourceKey res) st.processed with
    | some r => (st, r)
    | none =>
      let st1 := { st with processed := aset (resourceKey res) target st.processed }
      match fuel with
      | 0 => (st1, target)
      | fuel + 1 =>
        let rc0 := hGet st1.heap target
        let rc1 := { rc0 with id := res.id, meta := res.meta }
        let rc2 := assignAttrs (declaredAttrs rc0.rtype) res.attributes rc1
        let st2 := { st1 with heap := hSet st1.heap target rc2 }
        let st3 := processRelDefs doc
          (fun st t r2 => applyCore doc fuel st t r2) st2 target (declaredRels rc0.rtype) res
        ({ st3 with heap := setPersisted st3.heap target true }, target)

/-- The identity-registration step of the apply pass. -/
def registerProcessed (st : DeserState) (res : Resource) (target : RecordId) : DeserState :=
  { st with processed := aset (resourceKey res) target st.processed }

/-- The hydration step of the apply pass: id, meta and declared attributes. -/
def hydrate (st : DeserState) (target : RecordId) (res : Resource) : DeserState :=
  { st with heap := hSet st.heap target (assignAttrs (declaredAttrs (hGet st.heap target).rtype) res.attributes { hGet st.heap target with id := res.id, meta := res.meta }) }

/-- Register, hydrate and process the declared relationships (the body of the
apply pass short of the final persisted-state assertion). -/
def applyBody (doc : Document) (fuel : Nat) (st : DeserState) (target : RecordId)
    (res : Resource) : DeserState :=
  processRelDefs doc (fun s t r2 => applyCore doc fuel s t r2)
    (hydrate (registerProcessed st res target) target res)
    target (declaredRels (hGet st.heap target).rtype) res

/-- The record as hydrated by one application: id, meta and declared
attributes assigned over the prior state. -/
def assignedRecord (h : Heap) (r : RecordId) (res : Resource) : Record :=
  assignAttrs (declaredAttrs (hGet h r).rtype) res.attributes
    { hGet h r with id := res.id, meta := res.meta }

/-- The record as left by one application after the final persisted-state
assertion (snapshots captured over the hydrated heap). -/
def persistedRecord (h : Heap) (r : RecordId) (res : Resource) : Record :=
  { assignedRecord h r res with persisted := true, snapshotAttrs := (assignedRecord h r res).attrs, snapshotRels := relationshipResourceIdentifiers (hSet h r (assignedRecord h r res)) r ((assignedRecord h r res).rels.map Prod.fst) }

/-- True when the record is marked for destruction or disassociation. -/
def markedFor (h : Heap) (m : RecordId) : Bool :=
  (hGet h m).markedForDestruction || (hGet h m).markedForDisassociation

mutual

/-- Structural size of a directive, used as an ample traversal depth bound. -/
def dsize : Directive → Nat
  | .node es => dsizeEntries es + 1

/-- Structural size of directive entries. -/
def dsizeEntries : List (String × Directive) → Nat
  | [] => 0
  | (_, d) :: rest => dsize d + dsizeEntries rest + 1

end

/-- Kept-member worker for pruning. -/
def pruneMembers (recFn : Heap → RecordId → Directive → Heap) (h : Heap) :
    List RecordId → Directive → Heap
  | [], _ => h
  | m :: ms, nested => pruneMembers recFn (recFn h m nested) ms nested

/-- One scope entry of the pruning pass: a marked member of a to-many
collection is removed (a marked to-one target is replaced with null); kept
members recurse into the nested scope, and a removed parent short-circuits —
its children are not separately processed. -/
def pruneEntry (recFn : Heap → RecordId → Directive → Heap) (h : Heap) (r : RecordId)
    (n : String) (nested : Directive) : Heap :=
  match aget n (hGet h r).rels with
  | some (.many ms) =>
    pruneMembers recFn (writeRelH h r n (.many (ms.filter (fun m => !(markedFor h m)))))
      (ms.filter (fun m => !(markedFor h m))) nested
  | some (.one (some m)) =>
    if markedFor h m then writeRelH h r n (.one none) else recFn h m nested
  | _ => h

/-- Scope-entry list worker for pruning. -/
def pruneEntries (recFn : Heap → RecordId → Directive → Heap) (h : Heap) (r : RecordId) :
    List (String × Directive) → Heap
  | [] => h
  | (n, nested) :: rest => pruneEntries recFn (pruneEntry recFn h r n nested) r rest

/-- Depth-indexed driver of the pruning pass; the bound is ample for the
finite destruction scope, so it never truncates in use. -/
def pruneDepth : Nat → Heap → RecordId → Directive → Heap
  | 0, h, _, _ => h
  | d + 1, h, r, .node es => pruneEntries (pruneDepth d) h r es

mutual

/-- Whether a directive keys the given relationship name anywhere, at any
nesting depth. -/
def mentionsName : Directive → String → Bool
  | .node es, n => mentionsEntries es n

/-- Entry-list worker for `mentionsName`. -/
def mentionsEntries : List (String × Directive) → String → Bool
  | [], _ => false
  | (k, nested) :: rest, n => decide (k = n) || mentionsName nested n || mentionsEntries rest n

end

/-- Modelled from the spec: destroy/disassociate pruning (§4.3): driven by the
destruction scope, a marked member of a to-many collection is removed (a
marked to-one target is replaced with null) only for relationship names keyed
in the scope; pruning recurses into nested scopes, and a removed parent
short-circuits — its children are not separately processed. -/
def prune (h : Heap) (r : RecordId) (scope : Directive) : Heap :=
  pruneDepth (dsize scope) h r scope

/-- Deserialization failure taxonomy relevant to `apply`. -/
inductive DeserError where
  | malformedDocument
deriving DecidableEq, Repr

/-- Reference count of a resource, used for the recursion bound. -/
def resourceRefCount (res : Resource) : Nat :=
  (res.relationships.map (fun kv =>
    match kv.2.dat with
    | some (.many ris) => ris.length + 1
    | _ => 1)).sum + 1

/-- A recursion bound ample for one pass over the document. -/
def docFuel (doc : Document) : Nat :=
  doc.included.length + (doc.included.map resourceRefCount).sum +
    (doc.data?.elim 0 resourceRefCount) + 2

/-- Modelled from the spec: `fromJsonapi` / `apply` (§4.3): a document missing
top-level `data` fails with `MalformedDocument`; otherwise the identity pool
is seeded from the supplied record, the primary resource is applied to it, and
the destroy/disassociate pruning pass runs under the destruction scope. -/
def fromJsonapi (h : Heap) (r : RecordId) (doc : Document) (scope : Directive) :
    Except DeserError DeserState :=
  match doc.data? with
  | none => .error .malformedDocument
  | some res =>
    let st0 : DeserState := ⟨h, seedPool h r, []⟩
    let (st1, _) := applyCore doc (docFuel doc) st0 r res
    .ok { st1 with heap := prune st1.heap r scope }

/-! ## Graph serializer (write payloads) -/

/-- A write-side resource identifier: `{ id | temp-id, type, method }`. -/
structure WriteRef where
  rtype : String
  id : Option Value
  tempId : Option String
  method : String
deriving DecidableEq, Repr

/-- The `data` of an emitted relationship object. -/
inductive WriteRelData where
  | one (ref : WriteRef)
  | many (refs : List WriteRef)
deriving DecidableEq, Repr

/-- An emitted resource: root `data` or an `included` entry.  An empty
`attributes` or `relationships` list models the key being absent; `method`
models an optional method tag on the resource object itself. -/
structure WriteResource where
  rtype : String
  id : Option Value
  tempId : Option String
  method : Option String
  attributes : List (String × Value)
  relationships : List (String × WriteRelData)
deriving DecidableEq, Repr

/-- An emitted write document: root `data` plus flattened `included`. -/
structure WriteDocument where
  data : WriteResource
  included : List WriteResource
deriving DecidableEq, Repr

/-- Serializer traversal state: visited set (by instance identity), minted
correlation identifiers, and the mint counter. -/
structure SerState where
  visited : List RecordId
  tempIds : List (RecordId × String)
  counter : Nat
deriving DecidableEq, Repr

/-- Modelled from the spec: the correlation-identifier generator, a
process-unique string mint (sequential here, as in the test stub). -/
def tempIdGenerate (n : Nat) : String :=
  "abc" ++ toString n

/-- Mint (or re-use) the correlation identifier of an unpersisted record. -/
def mintTempId (st : SerState) (r : RecordId) : SerState × String :=
  match aget r st.tempIds with
  | some t => (st, t)
  | none =>
    let t := tempIdGenerate (st.counter + 1)
    ({ st with counter := st.counter + 1, tempIds := aset r t st.tempIds }, t)

/-- Modelled from the spec: the per-resource write method — `create` if
unpersisted, else `destroy`, `disassociate` or `update` by the marked flags. -/
def methodFor (rc : Record) : String :=
  if !rc.persisted then "create"
  else if rc.markedForDestruction then "destroy"
  else if rc.markedForDisassociation then "disassociate"
  else "update"

/-- Attributes emitted for a resource: the current values of its `changes`,
under wire (snake_case) names. -/
def writeAttributes (rc : Record) : List (String × Value) :=
  (changes rc).map (fun kv => (underscore kv.1, kv.2.2))

/-- Modelled from the spec: emission of one related resource (§4.4): the
reference carries id (persisted) or a minted correlation identifier
(unpersisted) plus the write method; a record not yet visited in this
traversal is emitted into `included` in depth-first pre-order — the resource
itself before its descendants — carrying its own locally-set attributes and
its nested relationships (serialized through `entriesFn`); an already-visited
record is only referenced. -/
def processRelated (h : Heap)
    (entriesFn : RecordId → SerState → List (String × Directive) →
      SerState × List (String × WriteRelData) × List WriteResource)
    (st : SerState) (m : RecordId) (nested : Directive) :
    SerState × WriteRef × List WriteResource :=
  match nested with
  | .node es =>
    match (if (hGet h m).persisted then (st, (hGet h m).id, (none : Option String))
           else
             match mintTempId st m with
             | (st2, t) => (st2, none, some t)) with
    | (st1, idPart, tidPart) =>
      if m ∈ st1.visited then (st1, ⟨(hGet h m).rtype, idPart, tidPart, methodFor (hGet h m)⟩, [])
      else
        match entriesFn m { st1 with visited := m :: st1.visited } es with
        | (st3, rels, inc) =>
          (st3, ⟨(hGet h m).rtype, idPart, tidPart, methodFor (hGet h m)⟩,
           ⟨(hGet h m).rtype, idPart, tidPart, none, writeAttributes (hGet h m), rels⟩ :: inc)

/-- Member worker for the serializer. -/
def processMembers (h : Heap)
    (entriesFn : RecordId → SerState → List (String × Directive) →
      SerState × List (String × WriteRelData) × List WriteResource)
    (st : SerState) : List RecordId → Directive → SerState × List WriteRef × List WriteResource
  | [], _ => (st, [], [])
  | m :: ms, nested =>
    match processRelated h entriesFn st m nested with
    | (st1, ref, inc1) =>
      match processMembers h entriesFn st1 ms nested with
      | (st2, refs, inc2) => (st2, ref :: refs, inc1 ++ inc2)

/-- One directive entry of the serializer: an unset (or null to-one)
relationship emits nothing; a to-one target is emitted only when dirty under
the nested scope; a to-many relationship keeps only its dirty members and is
omitted entirely when none remain. -/
def serializeEntry (h : Heap)
    (entriesFn : RecordId → SerState → List (String × Directive) →
      SerState × List (String × WriteRelData) × List WriteResource)
    (r : RecordId) (st : SerState) (n : String) (nested : Directive) :
    SerState × List (String × WriteRelData) × List WriteResource :=
  match aget n (hGet h r).rels with
  | none => (st, [], [])
  | some (.one none) => (st, [], [])
  | some (.one (some m)) =>
    if isDirty h m nested then
      match processRelated h entriesFn st m nested with
      | (st2, ref, inc) => (st2, [(underscore n, WriteRelData.one ref)], inc)
    else (st, [], [])
  | some (.many ms) =>
    if ms.filter (fun m => isDirty h m nested) = [] then (st, [], [])
    else
      match processMembers h entriesFn st (ms.filter (fun m => isDirty h m nested)) nested with
      | (st2, refs, inc) => (st2, [(underscore n, WriteRelData.many refs)], inc)

/-- Modelled from the spec: the serializer relationship walk (§4.4) over a
list of directive entries. -/
def serializeEntries (h : Heap)
    (entriesFn : RecordId → SerState → List (String × Directive) →
      SerState × List (String × WriteRelData) × List WriteResource)
    (r : RecordId) (st : SerState) :
    List (String × Directive) → SerState × List (String × WriteRelData) × List WriteResource
  | [] => (st, [], [])
  | (n, nested) :: rest =>
    match serializeEntry h entriesFn r st n nested with
    | (st1, rels1, inc1) =>
      match serializeEntries h entriesFn r st1 rest with
      | (st3, rels2, inc2) => (st3, rels1 ++ rels2, inc1 ++ inc2)

/-- Depth-indexed driver of the serializer traversal; the depth bound is
ample for the finite include directive, so it never truncates in use. -/
def serializeDepth (h : Heap) : Nat → RecordId → SerState → List (String × Directive) →
    SerState × List (String × WriteRelData) × List WriteResource
  | 0, _, st, _ => (st, [], [])
  | d + 1, r, st, es =>
    serializeEntries h (fun m st2 es2 => serializeDepth h d m st2 es2) r st es

/-- Modelled from the spec: `buildPayload(record, includeDirective)` (§4.4):
the root resource carries its id and attributes but never a method tag or
correlation identifier key of its own; its relationships come from the
directive-driven traversal, and `included` is the flattened pre-order list of
emitted related resources. -/
def buildPayload (h : Heap) (r : RecordId) (directive : Directive) : WriteDocument :=
  match serializeDepth h (dsize directive) r ⟨[r], [], 0⟩ directive.entries with
  | (_, rels, inc) =>
    ⟨⟨(hGet h r).rtype, (hGet h r).id, none, none, writeAttributes (hGet h r), rels⟩, inc⟩

/-! ## parameterize (embedded from `src/util/parameterize.ts`) -/

/-- A JavaScript value as `parameterize` receives it. -/
inductive JVal where
  | undef
  | null
  | str (s : String)
  | num (n : Int)
  | arr (xs : List JVal)
  | obj (fields : List (String × JVal))

mutual

/-- JavaScript string conversion as used by `Array.prototype.join`. -/
def jvalToString : JVal → String
  | .undef => ""
  | .null => ""
  | .str s => s
  | .num n => toString n
  | .arr xs => String.intercalate "," (jvalListToString xs)
  | .obj _ => "[object Object]"

/-- List worker for `jvalToString`. -/
def jvalListToString : List JVal → List String
  | [] => []
  | x :: t => jvalToString x :: jvalListToString t

end

/-- The falsy-for-parameterize test: `undefined`, `null` or the empty string. -/
def isBlankVal : JVal → Bool
  | .undef => true
  | .null => true
  | .str s => decide (s = "")
  | _ => false

/-- The bracketed key under an optional prefix: `pre[key]` or `key`. -/
def prefixedKey (pre : Option String) (k : String) : String :=
  match pre with
  | some p => p ++ "[" ++ k ++ "]"
  | none => k

mutual

/-- `parameterize(obj, prefix?)` from `src/util/parameterize.ts`: keys with
undefined, null or empty-string values are skipped; arrays join their values
with commas (empty arrays emit nothing); nested objects recurse with a
bracketed prefix; the emitted pairs are joined with `&` after blanks are
removed. -/
def parameterize (v : JVal) (pre : Option String) : String :=
  match v with
  | .obj fields => String.intercalate "&" ((parameterizePairs fields pre).filter (fun p => p ≠ ""))
  | _ => ""

/-- Field worker for `parameterize`, producing the raw `str` list. -/
def parameterizePairs : List (String × JVal) → Option String → List String
  | [], _ => []
  | (k, value) :: rest, pre =>
    (if isBlankVal value then []
     else
       match value with
       | .arr xs =>
         if xs.length > 0 then
           [prefixedKey pre k ++ "=" ++ String.intercalate "," (jvalListToString xs)]
         else []
       | .obj fields => [parameterize (.obj fields) (some (prefixedKey pre k))]
       | other => [prefixedKey pre k ++ "=" ++ jvalToString other]) ++
    parameterizePairs rest pre

end

/-! ## Concrete scenarios from the test suite -/

/-- A persisted book marked for destruction (test fixture). -/
def markedBook : Record :=
  { Record.fresh "books" with id := some (Value.vStr "1"), persisted := true, markedForDestruction := true }

/-- An author holding the marked book in `books` (test fixture). -/
def authorWithMarkedBook : Record :=
  { Record.fresh "authors" with rels := [("books", RelValue.many [1])] }

/-- Heap with the author at 0 and the marked book at 1. -/
def markedBookHeap : Heap :=
  [(0, authorWithMarkedBook), (1, markedBook)]

/-- A primary resource that rewrites `books` to the single marked book. -/
def rewritePrimary : Resource :=
  { rtype := "authors", id := some (Value.vStr "1"), attributes := [],
    relationships := [("books", ⟨some (.many [⟨"books", Value.vStr "1"⟩])⟩)], meta := [] }

/-- Document whose primary re-references the marked book, with a matching
included entry. -/
def rewriteDoc : Document :=
  { data? := some rewritePrimary,
    included := [{ rtype := "books", id := some (Value.vStr "1"),
                   attributes := [("title", Value.vStr "t")], relationships := [], meta := [] }] }

/-- A primary resource that rewrites `books` with an empty data array. -/
def emptyBooksPrimary : Resource :=
  { rtype := "authors", id := some (Value.vStr "1"), attributes := [],
    relationships := [("books", ⟨some (.many [])⟩)], meta := [] }

/-- Document rewriting `books` to empty. -/
def emptyBooksDoc : Document :=
  { data? := some emptyBooksPrimary, included := [] }

/-- A document whose primary resource carries no relationships. -/
def bareAuthorDoc : Document :=
  { data? := some { rtype := "authors", id := some (Value.vStr "1"), attributes := [],
                    relationships := [], meta := [] },
    included := [] }

/-- An unpersisted book with a set attribute (internally dirty member). -/
def dirtyBook : Record :=
  { Record.fresh "books" with attrs := [("title", Value.vStr "x")] }

/-- A clean persisted genre with an id. -/
def cleanGenre : Record :=
  { Record.fresh "genres" with id := some (Value.vStr "1"), persisted := true }

/-- A clean persisted author whose `books` member is internally dirty and
whose `genre` matches its persisted snapshot. -/
def dirtyBooksAuthor : Record :=
  { Record.fresh "authors" with persisted := true, rels := [("books", RelValue.many [1]), ("genre", RelValue.one (some 2))], snapshotRels := [("genre", [⟨"genres", Value.vStr "1"⟩])] }

/-- Heap for the scope-gating test: dirty `books` member, clean `genre`. -/
def dirtyBookHeap : Heap :=
  [(0, dirtyBooksAuthor), (1, dirtyBook), (2, cleanGenre)]

/-- A primary resource whose every relationship object lacks `data`. -/
def nodataPrimary : Resource :=
  { rtype := "authors", id := some (Value.vStr "1"), attributes := [],
    relationships := [("books", ⟨none⟩)], meta := [] }

/-- Document whose primary carries a data-less `books` relationship object. -/
def nodataBooksDoc : Document :=
  { data? := some nodataPrimary, included := [] }

/-- An author holding one referenced book, for mixed-document scenarios. -/
def mixedAuthor : Record :=
  { Record.fresh "authors" with id := some (Value.vStr "1"), rels := [("books", RelValue.many [1])] }

/-- Heap with the mixed author at 0 and the marked book at 1. -/
def mixedHeap : Heap :=
  [(0, mixedAuthor), (1, markedBook)]

/-- A primary resource whose `tags` relationship object lacks `data` while its
`books` relationship object carries data (mixed document). -/
def mixedPrimary : Resource :=
  { rtype := "authors", id := some (Value.vStr "1"), attributes := [],
    relationships := [("tags", ⟨none⟩), ("books", ⟨some (.many [⟨"books", Value.vStr "1"⟩])⟩)],
    meta := [] }

/-- Document with the mixed primary. -/
def mixedDoc : Document := { data? := some mixedPrimary, included := [] }

/-- The `books` destruction scope. -/
def booksScope : Directive := .node [("books", .node [])]

/-- The state after one `fromJsonapi` pass, for concrete scenarios. -/
def applyOnce (h : Heap) (r : RecordId) (doc : Document) (scope : Directive) : DeserState :=
  (fromJsonapi h r doc scope).toOption.getD ⟨[], [], []⟩

/-- Nested-create scenario: unpersisted author, two books, one genre. -/
def createAuthor : Record :=
  ⟨"authors", none, [("firstName", Value.vStr "Stephen")],
   [("books", RelValue.many [1]), ("specialBooks", RelValue.many [2])],
   false, false, false, [], [], [], []⟩

/-- The Shining, holding the genre. -/
def createBook1 : Record :=
  ⟨"books", none, [("title", Value.vStr "The Shining")],
   [("genre", RelValue.one (some 3))], false, false, false, [], [], [], []⟩

/-- The Stand. -/
def createBook2 : Record :=
  { Record.fresh "books" with attrs := [("title", Value.vStr "The Stand")] }

/-- Horror. -/
def createGenre : Record :=
  { Record.fresh "genres" with attrs := [("name", Value.vStr "Horror")] }

/-- The nested-create heap. -/
def createHeap : Heap :=
  [(0, createAuthor), (1, createBook1), (2, createBook2), (3, createGenre)]

/-- The directive of the nested-create scenario, from its shorthand form. -/
def createDirective : Directive :=
  normalizeInclude (.obj [("books", .str "genre"), ("specialBooks", .obj [])])

/-- The write payload the nested-create test expects
(`expectedCreatePayload` in the source tree): method tags sit on the
relationship references, not on the included entries. -/
def expectedCreatePayload : WriteDocument :=
  { data :=
      { rtype := "authors", id := none, tempId := none, method := none,
        attributes := [("first_name", Value.vStr "Stephen")],
        relationships :=
          [("books", .many [⟨"books", none, some "abc1", "create"⟩]),
           ("special_books", .many [⟨"books", none, some "abc3", "create"⟩])] },
    included :=
      [{ rtype := "books", id := none, tempId := some "abc1", method := none,
         attributes := [("title", Value.vStr "The Shining")],
         relationships := [("genre", .one ⟨"genres", none, some "abc2", "create"⟩)] },
       { rtype := "genres", id := none, tempId := some "abc2", method := none,
         attributes := [("name", Value.vStr "Horror")], relationships := [] },
       { rtype := "books", id := none, tempId := some "abc3", method := none,
         attributes := [("title", Value.vStr "The Stand")], relationships := [] }] }

/-- A persisted, untouched book (no attribute diffs, no mark flags). -/
def cleanBook : Record :=
  ⟨"books", some (Value.vStr "10"), [("title", Value.vStr "t")], [],
   true, false, false, [], [], [("title", Value.vStr "t")], []⟩

/-- A persisted author whose sole `books` member is the clean book. -/
def cleanAuthor : Record :=
  ⟨"authors", some (Value.vStr "1"), [], [("books", RelValue.many [1])],
   true, false, false, [], [], [], [("books", [⟨"books", Value.vStr "10"⟩])]⟩

/-- Heap for the selective-omission scenario. -/
def cleanBookHeap : Heap :=
  [(0, cleanAuthor), (1, cleanBook)]

/-- Schema conformance of a record: every attribute key is a declared
attribute of its type and every relationship key a declared relationship. -/
def WfRecord (rc : Record) : Prop :=
  (∀ k ∈ rc.attrs.map Prod.fst, k ∈ declaredAttrs rc.rtype) ∧
  (∀ k ∈ rc.rels.map Prod.fst, k ∈ (declaredRels rc.rtype).map RelDef.name)

instance (rc : Record) : Decidable (WfRecord rc) := by
  rw [WfRecord]
  infer_instance

/-- Schema conformance of every record in the heap: no undeclared attribute
or relationship name appears on any record. -/
def WfHeap (h : Heap) : Prop :=
  ∀ p ∈ h, WfRecord p.2

instance (h : Heap) : Decidable (WfHeap h) := by
  rw [WfHeap]
  infer_instance

/-- Domain-and-type stability of a deserialization state relative to a
reference heap: every record present keeps its address and type tag. -/
def DomRt (h0 : Heap) (st : DeserState) : Prop :=
  ∀ x, (aget x h0).isSome → (aget x st.heap).isSome ∧
    (hGet st.heap x).rtype = (hGet h0 x).rtype

/-- Sequential first-binding updates, the update trace of `assignAttrs`. -/
def asetList [DecidableEq κ] (ps : List (κ × α)) (l : List (κ × α)) : List (κ × α) :=
  ps.foldl (fun l p => aset p.1 p.2 l) l

/-- The (declared name, wire value) pairs `assignAttrs` actually assigns. -/
def assignPairs (declared : List String) (wire : List (String × Value)) : List (String × Value) :=
  declared.filterMap (fun a =>
    (wire.find? (fun kv => decide (camelize kv.1 = a))).map (fun kv => (a, kv.2)))

/-- Root-stability frame for the recursive apply pass: the supplied record is
pooled (if at all) only under the primary resource's own identity key, is
present on the heap, and has consumed the primary's identity in `processed`. -/
def RootFrame (res : Resource) (r : RecordId) (st : DeserState) : Prop :=
  (∀ p ∈ st.pool, p.2 = r → p.1 = resourceKey res) ∧
  (aget r st.heap).isSome = true ∧
  aget (resourceKey res) st.processed = some r

/-! # Theorems -/

unseal isDirty anyDirtyEntry anyDirtyMember

/-! ## Association-list lemmas -/

theorem aget_aset_self [DecidableEq κ] (k : κ) (v : α) (l : List (κ × α)) :
    aget k (aset k v l) = some v := by
  induction l with
  | nil => simp [aget, aset]
  | cons p t ih =>
    obtain ⟨k2, w⟩ := p
    by_cases hk : k2 = k
    · simp [aget, aset, hk]
    · simp [aget, aset, hk, ih]

theorem aget_aset_ne [DecidableEq κ] {k k2 : κ} (h : k2 ≠ k) (v : α) (l : List (κ × α)) :
    aget k (aset k2 v l) = aget k l := by
  induction l with
  | nil => simp [aget, aset, h]
  | cons p t ih =>
    obtain ⟨k3, w⟩ := p
    by_cases hk : k3 = k2
    · subst hk
      have hk3 : k3 ≠ k := h
      simp [aget, aset, hk3]
    · by_cases hk2 : k3 = k
      · subst hk2
        simp [aget, aset, hk]
      · simp [aget, aset, hk, hk2, ih]

theorem aset_eq_self [DecidableEq κ] {k : κ} {v : α} {l : List (κ × α)}
    (h : aget k l = some v) : aset k v l = l := by
  induction l with
  | nil => simp [aget] at h
  | cons p t ih =>
    obtain ⟨k2, w⟩ := p
    by_cases hk : k2 = k
    · subst hk
      simp [aget] at h
      simp [aset, h]
    · simp [aget, hk] at h
      simp [aset, hk, ih h]

theorem aget_mem [DecidableEq κ] {k : κ} {v : α} {l : List (κ × α)}
    (h : aget k l = some v) : (k, v) ∈ l := by
  induction l with
  | nil => simp [aget] at h
  | cons p t ih =>
    obtain ⟨k2, w⟩ := p
    by_cases hk : k2 = k
    · subst hk
      simp [aget] at h
      simp [h]
    · simp [aget, hk] at h
      exact List.mem_cons_of_mem _ (ih h)

theorem aget_eq_none_of_not_mem [DecidableEq κ] {k : κ} {l : List (κ × α)}
    (h : k ∉ l.map Prod.fst) : aget k l = none := by
  cases haget : aget k l with
  | none => rfl
  | some v => exact absurd (List.mem_map_of_mem Prod.fst (aget_mem haget)) h

theorem aget_isSome_of_mem [DecidableEq κ] {k : κ} {v : α} {l : List (κ × α)}
    (h : (k, v) ∈ l) : (aget k l).isSome := by
  induction l with
  | nil => simp at h
  | cons p t ih =>
    obtain ⟨k2, w⟩ := p
    rcases List.mem_cons.mp h with h1 | h2
    · cases h1
      simp [aget]
    · by_cases hk : k2 = k <;> simp [aget, hk, ih h2]

theorem aget_of_mem_nodup [DecidableEq κ] {k : κ} {v : α} {l : List (κ × α)}
    (hn : (l.map Prod.fst).Nodup) (h : (k, v) ∈ l) : aget k l = some v := by
  induction l with
  | nil => simp at h
  | cons p t ih =>
    obtain ⟨k2, w⟩ := p
    rw [List.map_cons] at hn
    obtain ⟨hn1, hn2⟩ := List.nodup_cons.mp hn
    rcases List.mem_cons.mp h with h1 | h2
    · injection h1 with h1a h1b
      subst h1a
      subst h1b
      simp [aget]
    · have hk : k2 ≠ k := by
        intro hkk
        subst hkk
        have hmem := List.mem_map_of_mem Prod.fst h2
        exact hn1 hmem
      simp [aget, hk, ih hn2 h2]

theorem mem_keys_of_mem_keys_aset [DecidableEq κ] {x k : κ} {v : α} {l : List (κ × α)}
    (h : x ∈ (aset k v l).map Prod.fst) : x = k ∨ x ∈ l.map Prod.fst := by
  induction l with
  | nil =>
    simp [aset] at h
    exact Or.inl h
  | cons p t ih =>
    obtain ⟨k2, w⟩ := p
    by_cases hk : k2 = k
    · rw [show aset k v ((k2, w) :: t) = (k2, v) :: t by simp [aset, hk]] at h
      rw [List.map_cons] at h ⊢
      rcases List.mem_cons.mp h with h1 | h2
      · exact Or.inl (h1.trans hk)
      · exact Or.inr (List.mem_cons.mpr (Or.inr h2))
    · rw [show aset k v ((k2, w) :: t) = (k2, w) :: aset k v t by simp [aset, hk]] at h
      rw [List.map_cons] at h ⊢
      rcases List.mem_cons.mp h with h1 | h2
      · exact Or.inr (List.mem_cons.mpr (Or.inl h1))
      · rcases ih h2 with h3 | h4
        · exact Or.inl h3
        · exact Or.inr (List.mem_cons.mpr (Or.inr h4))

/-! ## Heap lemmas -/

theorem hGet_hSet_self (h : Heap) (r : RecordId) (rc : Record) :
    hGet (hSet h r rc) r = rc := by
  simp [hGet, hSet, aget_aset_self]

theorem hGet_hSet_ne (h : Heap) {r r2 : RecordId} (hne : r2 ≠ r) (rc : Record) :
    hGet (hSet h r2 rc) r = hGet h r := by
  simp [hGet, hSet, aget_aset_ne hne]

theorem append_key_ne_empty (a b : String) : a ++ "=" ++ b ≠ "" := by
  intro hc
  have hlen := congrArg String.length hc
  simp [String.length_append] at hlen
  exact absurd hlen.1.2 (by decide)

theorem parameterize_obj (fields : List (String × JVal)) (pre : Option String) :
    parameterize (.obj fields) pre =
      String.intercalate "&" ((parameterizePairs fields pre).filter (fun p => p ≠ "")) := by
  simp [parameterize]

theorem intercalate_single (sep s : String) : String.intercalate sep [s] = s := rfl

theorem intercalate_pair (sep a b : String) : String.intercalate sep [a, b] = a ++ sep ++ b := rfl

theorem filter_single_pos {s : String} (h : s ≠ "") :
    List.filter (fun p => decide (p ≠ "")) [s] = [s] := by
  simp [h]

/-- C10: `parameterize` omits keys whose value is undefined, null or the empty
string; omits empty arrays; joins array values with commas as `key=v1,v2`;
renders nested objects recursively with bracketed prefixes `prefix[key]`;
joins the emitted pairs with `&`; and returns the empty string when nothing is
emittable. -/
theorem parameterize_spec :
    (∀ (pre : Option String) (k : String) (v : JVal) (fields : List (String × JVal)),
       isBlankVal v = true →
       parameterize (.obj ((k, v) :: fields)) pre = parameterize (.obj fields) pre) ∧
    (∀ (pre : Option String) (k : String) (fields : List (String × JVal)),
       parameterize (.obj ((k, JVal.arr []) :: fields)) pre = parameterize (.obj fields) pre) ∧
    (∀ (k : String) (x : JVal) (xs : List JVal),
       parameterize (.obj [(k, JVal.arr (x :: xs))]) none =
         k ++ "=" ++ String.intercalate "," (jvalListToString (x :: xs))) ∧
    (∀ (pre : Option String) (k : String) (inner : List (String × JVal)),
       parameterize (.obj [(k, JVal.obj inner)]) pre =
         parameterize (.obj inner) (some (prefixedKey pre k))) ∧
    (∀ (pre : Option String) (k1 k2 v1 v2 : String), v1 ≠ "" → v2 ≠ "" →
       parameterize (.obj [(k1, JVal.str v1), (k2, JVal.str v2)]) pre =
         prefixedKey pre k1 ++ "=" ++ v1 ++ "&" ++ (prefixedKey pre k2 ++ "=" ++ v2)) ∧
    (∀ pre : Option String, parameterize (.obj []) pre = "") := by
  refine ⟨?_, ?_, ?_, ?_, ?_, ?_⟩
  · intro pre k v fields hblank
    have hconv : parameterizePairs ((k, v) :: fields) pre = parameterizePairs fields pre := by
      rw [parameterizePairs, if_pos hblank, List.nil_append] <;>
        intro _ hx <;> subst hx <;> simp [isBlankVal] at hblank
    rw [parameterize_obj, parameterize_obj, hconv]
  · intro pre k fields
    rw [parameterize_obj, parameterize_obj]
    simp [parameterizePairs, isBlankVal]
  · intro k x xs
    rw [parameterize_obj]
    have hconv : parameterizePairs [(k, JVal.arr (x :: xs))] none =
        [k ++ "=" ++ String.intercalate "," (jvalListToString (x :: xs))] := by
      simp [parameterizePairs, isBlankVal, prefixedKey]
    rw [hconv, filter_single_pos (append_key_ne_empty _ _), intercalate_single]
  · intro pre k inner
    rw [parameterize_obj]
    have hconv : parameterizePairs [(k, JVal.obj inner)] pre =
        [parameterize (.obj inner) (some (prefixedKey pre k))] := by
      simp [parameterizePairs, isBlankVal]
    rw [hconv]
    by_cases hempty : parameterize (.obj inner) (some (prefixedKey pre k)) = ""
    · rw [hempty]
      rw [show List.filter (fun p => decide (p ≠ "")) [""] = [] from by simp]
      rfl
    · rw [filter_single_pos hempty, intercalate_single]
  · intro pre k1 k2 v1 v2 h1 h2
    rw [parameterize_obj]
    have hconv : parameterizePairs [(k1, JVal.str v1), (k2, JVal.str v2)] pre =
        [prefixedKey pre k1 ++ "=" ++ v1, prefixedKey pre k2 ++ "=" ++ v2] := by
      simp [parameterizePairs, isBlankVal, jvalToString, h1, h2]
    rw [hconv]
    rw [show List.filter (fun p => decide (p ≠ ""))
          [prefixedKey pre k1 ++ "=" ++ v1, prefixedKey pre k2 ++ "=" ++ v2] =
          [prefixedKey pre k1 ++ "=" ++ v1, prefixedKey pre k2 ++ "=" ++ v2] from by
        simp [append_key_ne_empty]]
    rw [intercalate_pair]
  · intro pre
    rfl

/-- Witness for `parameterize_spec` at concrete inputs. -/
theorem parameterize_spec_witness :
    parameterize (.obj [("a", JVal.null), ("b", JVal.str "x")]) none =
      parameterize (.obj [("b", JVal.str "x")]) none ∧
    parameterize (.obj [("k1", JVal.str "v1"), ("k2", JVal.str "v2")]) none =
      prefixedKey none "k1" ++ "=" ++ "v1" ++ "&" ++ (prefixedKey none "k2" ++ "=" ++ "v2") :=
  ⟨parameterize_spec.1 none "a" JVal.null [("b", JVal.str "x")] rfl,
   parameterize_spec.2.2.2.2.1 none "k1" "k2" "v1" "v2" (by decide) (by decide)⟩

/-! ## relationshipResourceIdentifiers (C9) -/

/-- C9: `relationshipResourceIdentifiers` returns an entry only for
relationships that have a set value (the entry being the identifiers of that
relationship's members), and identifiers exist exactly for related records
with a non-null id — records without an id are omitted from the result rather
than represented with a placeholder. -/
theorem relationshipResourceIdentifiers_spec :
    (∀ (h : Heap) (r : RecordId) (names : List String) (n : String)
       (ids : List ResourceIdentifier),
       (n, ids) ∈ relationshipResourceIdentifiers h r names →
       ∃ rv, aget n (hGet h r).rels = some rv ∧
         ids = identifiersOf h (relMembers rv) ∧ ids ≠ []) ∧
    (∀ (h : Heap) (ms : List RecordId),
       identifiersOf h ms =
         (ms.filter (fun m => ((hGet h m).id).isSome)).map
           (fun m => ⟨(hGet h m).rtype, ((hGet h m).id).getD Value.vNull⟩)) := by
  constructor
  · intro h r names n ids hmem
    rw [relationshipResourceIdentifiers] at hmem
    obtain ⟨n2, hn2, hf⟩ := List.mem_filterMap.mp hmem
    revert hf
    cases haget : aget n2 (hGet h r).rels with
    | none => simp
    | some rv =>
      intro hf
      simp only [] at hf
      by_cases hids : identifiersOf h (relMembers rv) = []
      · rw [if_pos hids] at hf
        exact absurd hf (by simp)
      · rw [if_neg hids] at hf
        injection hf with hpair
        injection hpair with hfn hfids
        subst hfn
        exact ⟨rv, haget, hfids.symm, by rw [← hfids]; exact hids⟩
  · intro h ms
    induction ms with
    | nil => simp [identifiersOf]
    | cons m t ih =>
      cases hid : (hGet h m).id with
      | none => simp [identifiersOf, hid] at ih ⊢; exact ih
      | some i => simp [identifiersOf, hid] at ih ⊢; exact ih

/-- Witness for `relationshipResourceIdentifiers_spec` at a concrete heap. -/
theorem relationshipResourceIdentifiers_spec_witness :
    ∃ rv, aget "books"
        (hGet [(0, { Record.fresh "authors" with rels := [("books", RelValue.many [1])] }),
               (1, { Record.fresh "books" with id := some (Value.vInt 1) })] 0).rels = some rv ∧
      [ResourceIdentifier.mk "books" (Value.vInt 1)] =
        identifiersOf [(0, { Record.fresh "authors" with rels := [("books", RelValue.many [1])] }),
               (1, { Record.fresh "books" with id := some (Value.vInt 1) })] (relMembers rv) ∧
      [ResourceIdentifier.mk "books" (Value.vInt 1)] ≠ [] :=
  relationshipResourceIdentifiers_spec.1 _ 0 ["books"] "books" _ (by decide)

/-! ## changes (C5) -/

/-- C5: for an unpersisted record `changes` is exactly the mapping of every
non-null current attribute to `[null, current]`; for a persisted record it is
exactly the attributes whose current value differs from the persisted
snapshot, mapped to `[snapshot, current]`; and re-asserting persisted-state
true overwrites the snapshot so that `changes` becomes empty immediately. -/
theorem changes_spec :
    (∀ (rc : Record) (k : String) (b a : Value), rc.persisted = false →
       ((k, (b, a)) ∈ changes rc ↔ (k, a) ∈ rc.attrs ∧ a ≠ Value.vNull ∧ b = Value.vNull)) ∧
    (∀ (rc : Record) (k : String) (b a : Value), rc.persisted = true →
       ((k, (b, a)) ∈ changes rc ↔
         (k, a) ∈ rc.attrs ∧ b = (aget k rc.snapshotAttrs).getD Value.vNull ∧ a ≠ b)) ∧
    (∀ (h : Heap) (r : RecordId), (((hGet h r).attrs.map Prod.fst).Nodup) →
       changes (hGet (setPersisted h r true) r) = []) := by
  refine ⟨?_, ?_, ?_⟩
  · intro rc k b a hper
    rw [changes, if_neg (by simp [hper])]
    constructor
    · intro hmem
      obtain ⟨⟨k2, v2⟩, hin, hf⟩ := List.mem_filterMap.mp hmem
      by_cases hnull : v2 = Value.vNull
      · simp [hnull] at hf
      · simp [hnull] at hf
        obtain ⟨rfl, rfl, rfl⟩ := hf
        exact ⟨hin, hnull, rfl⟩
    · rintro ⟨hin, hnull, rfl⟩
      exact List.mem_filterMap.mpr ⟨(k, a), hin, by simp [hnull]⟩
  · intro rc k b a hper
    rw [changes, if_pos hper]
    constructor
    · intro hmem
      obtain ⟨⟨k2, v2⟩, hin, hf⟩ := List.mem_filterMap.mp hmem
      by_cases heq : v2 = (aget k2 rc.snapshotAttrs).getD Value.vNull
      · simp [heq] at hf
      · simp [heq] at hf
        obtain ⟨rfl, rfl, rfl⟩ := hf
        exact ⟨hin, rfl, heq⟩
    · rintro ⟨hin, rfl, hne⟩
      exact List.mem_filterMap.mpr ⟨(k, a), hin, by simp [hne]⟩
  · intro h r hnodup
    rw [setPersisted]
    rw [if_pos rfl]
    rw [hGet_hSet_self]
    rw [changes]
    rw [if_pos rfl]
    rw [List.filterMap_eq_nil_iff]
    intro kv hkv
    obtain ⟨k, v⟩ := kv
    have hag : aget k (hGet h r).attrs = some v := aget_of_mem_nodup hnodup hkv
    simp [hag]

/-! ## isDirty (C4) -/

theorem isDirty_node (h : Heap) (r : RecordId) (es : List (String × Directive)) :
    isDirty h r (.node es) = (localDirty (hGet h r) || anyDirtyEntry h (hGet h r) es) := by
  rw [isDirty]

theorem anyDirtyMember_of_mem {h : Heap} {ms : List RecordId} {m : RecordId} {nested : Directive}
    (hm : m ∈ ms) (hd : isDirty h m nested = true) : anyDirtyMember h ms nested = true := by
  induction ms with
  | nil => simp at hm
  | cons a t ih =>
    rw [anyDirtyMember]
    rcases List.mem_cons.mp hm with h1 | h2
    · subst h1
      rw [hd]
      simp
    · rw [ih h2]
      simp

theorem anyDirtyEntry_of_entry {h : Heap} {rc : Record} {name : String} {nested : Directive}
    {es : List (String × Directive)} {rv : RelValue}
    (hmem : (name, nested) ∈ es) (haget : aget name rc.rels = some rv)
    (hdirty : (anyDirtyMember h (relMembers rv) nested ||
      decide (identifiersOf h (relMembers rv) ≠ (aget name rc.snapshotRels).getD [])) = true) :
    anyDirtyEntry h rc es = true := by
  induction es with
  | nil => simp at hmem
  | cons p rest ih =>
    rcases List.mem_cons.mp hmem with h1 | h2
    · subst h1
      rw [anyDirtyEntry, haget]
      have hred : (match some rv with
          | none => false
          | some rv =>
            anyDirtyMember h (relMembers rv) nested ||
              decide (identifiersOf h (relMembers rv) ≠ (aget name rc.snapshotRels).getD [])) =
          (anyDirtyMember h (relMembers rv) nested ||
            decide (identifiersOf h (relMembers rv) ≠ (aget name rc.snapshotRels).getD [])) := rfl
      rw [hred, hdirty]
      simp
    · obtain ⟨n2, d2⟩ := p
      rw [anyDirtyEntry, ih h2]
      simp

theorem isDirty_of_marked {h : Heap} {m : RecordId} (d : Directive)
    (hm : markedFor h m = true) : isDirty h m d = true := by
  cases d with
  | node es =>
    rw [isDirty_node]
    rcases Bool.or_eq_true_iff.mp hm with h1 | h2
    · simp [localDirty, h1]
    · simp [localDirty, h2]

theorem anyDirtyEntry_clean {h : Heap} {rc : Record} : ∀ {es : List (String × Directive)},
    (∀ name nested, (name, nested) ∈ es → ∀ rv, aget name rc.rels = some rv →
      anyDirtyMember h (relMembers rv) nested = false ∧
      identifiersOf h (relMembers rv) = (aget name rc.snapshotRels).getD []) →
    anyDirtyEntry h rc es = false := by
  intro es
  induction es with
  | nil =>
    intro _
    rw [anyDirtyEntry]
  | cons p rest ih =>
    intro hclean
    obtain ⟨n0, nested0⟩ := p
    rw [anyDirtyEntry]
    cases hag : aget n0 rc.rels with
    | none =>
      show (false || anyDirtyEntry h rc rest) = false
      rw [ih (fun nm nd hmem rv hrv => hclean nm nd (List.mem_cons_of_mem _ hmem) rv hrv)]
      rfl
    | some rv =>
      have hc := hclean n0 nested0 (List.mem_cons_self _ _) rv hag
      show ((anyDirtyMember h (relMembers rv) nested0 ||
        decide (identifiersOf h (relMembers rv) ≠ (aget n0 rc.snapshotRels).getD [])) ||
        anyDirtyEntry h rc rest) = false
      rw [hc.1, ih (fun nm nd hmem rv2 hrv => hclean nm nd (List.mem_cons_of_mem _ hmem) rv2 hrv)]
      simp [hc.2]

/-- C4: dirty-checking is scope-gated.  With an empty relationship scope,
`isDirty` depends only on the record itself and equals its local dirtiness.
For every (arbitrary, non-empty) scope, an unscoped relationship never
contributes: if the record itself is clean and every relationship the scope
does name evaluates clean, `isDirty` is false — regardless of the internal
dirtiness of relationships the scope excludes (the dirty-`books` /
clean-`genre` fixture of the source tests is the witness).  When the scope
names a relationship, `isDirty` is true whenever a referenced record in scope
is dirty under the nested scope, whenever a scoped to-many member is merely
marked for destruction or disassociation, and whenever the scoped relationship
identifier set differs from the persisted snapshot. -/
theorem isDirty_scope_gated :
    (∀ (h h2 : Heap) (r : RecordId), hGet h r = hGet h2 r →
       isDirty h r Directive.empty = isDirty h2 r Directive.empty) ∧
    (∀ (h : Heap) (r : RecordId), isDirty h r Directive.empty = localDirty (hGet h r)) ∧
    (∀ (h : Heap) (r : RecordId) (name : String) (nested : Directive)
       (es : List (String × Directive)) (rv : RelValue) (m : RecordId),
       (name, nested) ∈ es → aget name (hGet h r).rels = some rv → m ∈ relMembers rv →
       isDirty h m nested = true → isDirty h r (.node es) = true) ∧
    (∀ (h : Heap) (r : RecordId) (name : String) (nested : Directive)
       (es : List (String × Directive)) (rv : RelValue),
       (name, nested) ∈ es → aget name (hGet h r).rels = some rv →
       identifiersOf h (relMembers rv) ≠ (aget name (hGet h r).snapshotRels).getD [] →
       isDirty h r (.node es) = true) ∧
    (∀ (h : Heap) (r : RecordId) (name : String) (nested : Directive)
       (es : List (String × Directive)) (rv : RelValue) (m : RecordId),
       (name, nested) ∈ es → aget name (hGet h r).rels = some rv → m ∈ relMembers rv →
       markedFor h m = true → isDirty h r (.node es) = true) ∧
    (∀ (h : Heap) (r : RecordId) (es : List (String × Directive)),
       localDirty (hGet h r) = false →
       (∀ name nested, (name, nested) ∈ es → ∀ rv, aget name (hGet h r).rels = some rv →
         anyDirtyMember h (relMembers rv) nested = false ∧
         identifiersOf h (relMembers rv) = (aget name (hGet h r).snapshotRels).getD []) →
       isDirty h r (.node es) = false) := by
  have hlocal : ∀ (h : Heap) (r : RecordId), isDirty h r Directive.empty = localDirty (hGet h r) := by
    intro h r
    rw [show Directive.empty = Directive.node [] from rfl, isDirty_node]
    rw [anyDirtyEntry]
    simp
  refine ⟨?_, hlocal, ?_, ?_, ?_, ?_⟩
  · intro h h2 r hagree
    rw [hlocal, hlocal, hagree]
  · intro h r name nested es rv m hmem haget hin hd
    rw [isDirty_node]
    rw [anyDirtyEntry_of_entry hmem haget (by rw [anyDirtyMember_of_mem hin hd]; simp)]
    simp
  · intro h r name nested es rv hmem haget hne
    rw [isDirty_node]
    rw [anyDirtyEntry_of_entry hmem haget (by simp [hne])]
    simp
  · intro h r name nested es rv m hmem haget hin hmarked
    rw [isDirty_node]
    rw [anyDirtyEntry_of_entry hmem haget
      (by rw [anyDirtyMember_of_mem hin (isDirty_of_marked nested hmarked)]; simp)]
    simp
  · intro h r es hlocal2 hclean
    rw [isDirty_node, hlocal2, anyDirtyEntry_clean hclean]
    rfl

/-- Witness for `isDirty_scope_gated` at concrete heaps: a marked to-many
member makes the parent dirty when `books` is in scope, the empty scope sees
only the parent itself, and — replicating the source test — the record with an
internally dirty `books` member is not dirty under the `genre` scope, while
the `books` scope sees the dirt. -/
theorem isDirty_scope_gated_witness :
    isDirty markedBookHeap 0 booksScope = true ∧
    isDirty markedBookHeap 0 Directive.empty = localDirty (hGet markedBookHeap 0) ∧
    isDirty dirtyBookHeap 0 (.node [("genre", .node [])]) = false ∧
    isDirty dirtyBookHeap 0 (.node [("books", .node [])]) = true :=
  ⟨isDirty_scope_gated.2.2.2.2.1 markedBookHeap 0 "books" (.node []) [("books", .node [])]
      (RelValue.many [1]) 1 (List.mem_cons_self _ _) (by decide) (by decide) (by decide),
   isDirty_scope_gated.2.1 markedBookHeap 0,
   isDirty_scope_gated.2.2.2.2.2 dirtyBookHeap 0 [("genre", .node [])] (by decide)
     (by
       intro name nested hmem rv hag
       rw [List.mem_singleton] at hmem
       rw [show name = "genre" from congrArg Prod.fst hmem,
         show aget "genre" (hGet dirtyBookHeap 0).rels = some (RelValue.one (some 2)) from
           by decide] at hag
       injection hag with h2
       rw [← h2, show nested = Directive.node [] from congrArg Prod.snd hmem]
       rw [show name = "genre" from congrArg Prod.fst hmem]
       exact (by decide)),
   isDirty_scope_gated.2.2.1 dirtyBookHeap 0 "books" (.node []) [("books", .node [])]
     (RelValue.many [1]) 1 (List.mem_cons_self _ _) (by decide) (by decide) (by decide)⟩

/-! ## Deserializer infrastructure -/

theorem foldr_max_bound {l : List Nat} {k : Nat} (hk : k ∈ l) :
    k ≤ l.foldr (fun a b => max a b) 0 := by
  induction l with
  | nil => simp at hk
  | cons a t ih =>
    rcases List.mem_cons.mp hk with h1 | h2
    · subst h1
      exact Nat.le_max_left _ _
    · exact Nat.le_trans (ih h2) (Nat.le_max_right _ _)

theorem freshRid_aget_none (h : Heap) : aget (freshRid h) h = none := by
  apply aget_eq_none_of_not_mem
  intro hmem
  have h2 := foldr_max_bound hmem
  rw [freshRid] at h2
  exact Nat.not_succ_le_self _ h2

theorem freshRid_ne_of_isSome {h : Heap} {x : RecordId} (hx : (aget x h).isSome) :
    freshRid h ≠ x := by
  intro hcon
  subst hcon
  rw [freshRid_aget_none] at hx
  simp at hx

theorem hGet_writeRelH_ne (h : Heap) {r x : RecordId} (hne : x ≠ r) (n : String) (rv : RelValue) :
    hGet (writeRelH h r n rv) x = hGet h x :=
  hGet_hSet_ne h (Ne.symm hne) _

theorem hGet_writeRelH_self (h : Heap) (r : RecordId) (n : String) (rv : RelValue) :
    hGet (writeRelH h r n rv) r = { hGet h r with rels := aset n rv (hGet h r).rels } :=
  hGet_hSet_self h r _

theorem hGet_setPersisted_true (h : Heap) (r : RecordId) :
    hGet (setPersisted h r true) r = { hGet h r with persisted := true, snapshotAttrs := (hGet h r).attrs, snapshotRels := relationshipResourceIdentifiers h r ((hGet h r).rels.map Prod.fst) } :=
  hGet_hSet_self h r _

theorem hGet_setPersisted_ne (h : Heap) {r x : RecordId} (hne : x ≠ r) (b : Bool) :
    hGet (setPersisted h r b) x = hGet h x := by
  cases b with
  | true => exact hGet_hSet_ne h (Ne.symm hne) _
  | false => exact hGet_hSet_ne h (Ne.symm hne) _

theorem aget_writeRelH_ne (h : Heap) {r x : RecordId} (hne : x ≠ r) (n : String) (rv : RelValue) :
    aget x (writeRelH h r n rv) = aget x h := by
  rw [writeRelH]
  exact aget_aset_ne (Ne.symm hne) _ _

theorem aget_setPersisted_ne (h : Heap) {r x : RecordId} (hne : x ≠ r) (b : Bool) :
    aget x (setPersisted h r b) = aget x h := by
  cases b with
  | true => exact aget_aset_ne (Ne.symm hne) _ _
  | false => exact aget_aset_ne (Ne.symm hne) _ _

theorem assignAttrs_nil (wire : List (String × Value)) (rc : Record) :
    assignAttrs [] wire rc = rc := rfl

theorem assignAttrs_cons (a : String) (rest : List String) (wire : List (String × Value))
    (rc : Record) :
    assignAttrs (a :: rest) wire rc = assignAttrs rest wire
      (match wire.find? (fun kv => decide (camelize kv.1 = a)) with
        | some kv => { rc with attrs := aset a kv.2 rc.attrs }
        | none => rc) := rfl

theorem assignAttrs_fields (declared : List String) (wire : List (String × Value)) (rc : Record) :
    (assignAttrs declared wire rc).rtype = rc.rtype ∧
    (assignAttrs declared wire rc).id = rc.id ∧
    (assignAttrs declared wire rc).rels = rc.rels ∧
    (assignAttrs declared wire rc).persisted = rc.persisted ∧
    (assignAttrs declared wire rc).markedForDestruction = rc.markedForDestruction ∧
    (assignAttrs declared wire rc).markedForDisassociation = rc.markedForDisassociation ∧
    (assignAttrs declared wire rc).meta = rc.meta ∧
    (assignAttrs declared wire rc).extra = rc.extra ∧
    (assignAttrs declared wire rc).snapshotAttrs = rc.snapshotAttrs ∧
    (assignAttrs declared wire rc).snapshotRels = rc.snapshotRels := by
  induction declared generalizing rc with
  | nil => exact ⟨rfl, rfl, rfl, rfl, rfl, rfl, rfl, rfl, rfl, rfl⟩
  | cons a rest ih =>
    rw [assignAttrs_cons]
    cases wire.find? (fun kv => decide (camelize kv.1 = a)) with
    | none => exact ih rc
    | some kv => exact ih { rc with attrs := aset a kv.2 rc.attrs }

theorem assignAttrs_keys {declared : List String} {wire : List (String × Value)} {rc : Record}
    {k : String} (hk : k ∈ (assignAttrs declared wire rc).attrs.map Prod.fst) :
    k ∈ rc.attrs.map Prod.fst ∨ k ∈ declared := by
  induction declared generalizing rc with
  | nil => exact Or.inl hk
  | cons a rest ih =>
    rw [assignAttrs_cons] at hk
    rcases hfind : wire.find? (fun kv => decide (camelize kv.1 = a)) with _ | kv
    · rw [hfind] at hk
      have hk2 : k ∈ (assignAttrs rest wire rc).attrs.map Prod.fst := hk
      rcases ih hk2 with h1 | h2
      · exact Or.inl h1
      · exact Or.inr (List.mem_cons_of_mem _ h2)
    · rw [hfind] at hk
      have hk2 : k ∈ (assignAttrs rest wire { rc with attrs := aset a kv.2 rc.attrs }).attrs.map Prod.fst := hk
      rcases ih hk2 with h1 | h2
      · rcases mem_keys_of_mem_keys_aset h1 with h3 | h4
        · exact Or.inr (by rw [h3]; exact List.mem_cons_self _ _)
        · exact Or.inl h4
      · exact Or.inr (List.mem_cons_of_mem _ h2)

/-! Re-assignment idempotence: replaying the same attribute-update trace. -/

theorem aset_aset_same [DecidableEq κ] (k : κ) (v w : α) (l : List (κ × α)) :
    aset k w (aset k v l) = aset k w l := by
  induction l with
  | nil => simp [aset]
  | cons p t ih =>
    obtain ⟨k2, u⟩ := p
    by_cases hk : k2 = k
    · simp [aset, hk]
    · simp [aset, hk, ih]

theorem aget_aset_isSome_of [DecidableEq κ] {k x : κ} {v : α} {l : List (κ × α)}
    (h : (aget x l).isSome) : (aget x (aset k v l)).isSome := by
  by_cases hk : k = x
  · subst hk
    rw [aget_aset_self]
    simp
  · rw [aget_aset_ne hk]
    exact h

theorem aset_comm_of_isSome [DecidableEq κ] {k q : κ} (hne : q ≠ k) (v w : α) :
    ∀ {l : List (κ × α)}, (aget k l).isSome →
      aset q w (aset k v l) = aset k v (aset q w l) := by
  intro l
  induction l with
  | nil =>
    intro h
    simp [aget] at h
  | cons p t ih =>
    intro h
    obtain ⟨a, b⟩ := p
    by_cases hak : a = k
    · subst hak
      have h1 : a ≠ q := Ne.symm hne
      simp [aset, h1]
    · by_cases haq : a = q
      · subst haq
        simp [aset, hak, hne]
      · have hkt : (aget k t).isSome := by
          rw [aget] at h
          simp [hak] at h
          exact h
        simp [aset, hak, haq, ih hkt]

theorem asetList_nil [DecidableEq κ] (l : List (κ × α)) : asetList [] l = l := rfl

theorem asetList_cons [DecidableEq κ] (p : κ × α) (ps : List (κ × α)) (l : List (κ × α)) :
    asetList (p :: ps) l = asetList ps (aset p.1 p.2 l) := rfl

theorem aget_asetList_not_mem [DecidableEq κ] {k : κ} {ps : List (κ × α)}
    (h : k ∉ ps.map Prod.fst) : ∀ l, aget k (asetList ps l) = aget k l := by
  induction ps with
  | nil =>
    intro l
    rfl
  | cons p t ih =>
    intro l
    rw [asetList_cons]
    have hk : p.1 ≠ k := by
      intro hc
      exact h (by rw [List.map_cons]; exact List.mem_cons.mpr (Or.inl hc.symm))
    have ht : k ∉ t.map Prod.fst := fun hc =>
      h (by rw [List.map_cons]; exact List.mem_cons.mpr (Or.inr hc))
    rw [ih ht, aget_aset_ne hk]

theorem aget_asetList_isSome [DecidableEq κ] {k : κ} (ps : List (κ × α))
    {l : List (κ × α)} (h : (aget k l).isSome) : (aget k (asetList ps l)).isSome := by
  induction ps generalizing l with
  | nil => exact h
  | cons p t ih =>
    rw [asetList_cons]
    exact ih (aget_aset_isSome_of h)

theorem asetList_aset_mem [DecidableEq κ] {k : κ} {v : α} {ps : List (κ × α)}
    (hmem : k ∈ ps.map Prod.fst) :
    ∀ {l : List (κ × α)}, (aget k l).isSome → asetList ps (aset k v l) = asetList ps l := by
  induction ps with
  | nil => simp at hmem
  | cons q t ih =>
    intro l hl
    rw [asetList_cons, asetList_cons]
    by_cases hqk : q.1 = k
    · rw [hqk, aset_aset_same]
    · have hmem2 : k ∈ t.map Prod.fst := by
        rw [List.map_cons] at hmem
        rcases List.mem_cons.mp hmem with h1 | h2
        · exact absurd h1.symm hqk
        · exact h2
      rw [aset_comm_of_isSome hqk v q.2 hl]
      exact ih hmem2 (aget_aset_isSome_of hl)

theorem asetList_idem [DecidableEq κ] (ps : List (κ × α)) (l : List (κ × α)) :
    asetList ps (asetList ps l) = asetList ps l := by
  induction ps generalizing l with
  | nil => rfl
  | cons p t ih =>
    rw [asetList_cons, asetList_cons]
    by_cases hp : p.1 ∈ t.map Prod.fst
    · have hsome : (aget p.1 (asetList t (aset p.1 p.2 l))).isSome :=
        aget_asetList_isSome t (by rw [aget_aset_self]; simp)
      rw [asetList_aset_mem hp hsome, ih]
    · have hsome : aget p.1 (asetList t (aset p.1 p.2 l)) = some p.2 := by
        rw [aget_asetList_not_mem hp, aget_aset_self]
      rw [show aset p.1 p.2 (asetList t (aset p.1 p.2 l)) = asetList t (aset p.1 p.2 l) from
        aset_eq_self hsome]
      exact ih _

theorem assignAttrs_eq_asetList (d : List String) (w : List (String × Value)) (rc : Record) :
    assignAttrs d w rc = { rc with attrs := asetList (assignPairs d w) rc.attrs } := by
  induction d generalizing rc with
  | nil => rfl
  | cons a rest ih =>
    rw [assignAttrs_cons]
    cases hfind : w.find? (fun kv => decide (camelize kv.1 = a)) with
    | none =>
      have hpairs : assignPairs (a :: rest) w = assignPairs rest w := by
        simp [assignPairs, List.filterMap_cons, hfind]
      rw [hpairs]
      show assignAttrs rest w rc = { rc with attrs := asetList (assignPairs rest w) rc.attrs }
      exact ih rc
    | some kv =>
      have hpairs : assignPairs (a :: rest) w = (a, kv.2) :: assignPairs rest w := by
        simp [assignPairs, List.filterMap_cons, hfind]
      rw [hpairs, asetList_cons]
      show assignAttrs rest w { rc with attrs := aset a kv.2 rc.attrs }
        = { rc with attrs := asetList (assignPairs rest w) (aset a kv.2 rc.attrs) }
      exact ih { rc with attrs := aset a kv.2 rc.attrs }

theorem assignAttrs_idem (d : List String) (w : List (String × Value)) (rc : Record) :
    assignAttrs d w (assignAttrs d w rc) = assignAttrs d w rc := by
  rw [assignAttrs_eq_asetList d w rc,
    assignAttrs_eq_asetList d w { rc with attrs := asetList (assignPairs d w) rc.attrs }]
  show { rc with attrs := asetList (assignPairs d w) (asetList (assignPairs d w) rc.attrs) }
    = { rc with attrs := asetList (assignPairs d w) rc.attrs }
  rw [asetList_idem]

/-! Branch characterizations of the deserializer workers. -/

theorem attachOne_pool_hit (doc : Document)
    (applyFn : DeserState → RecordId → Resource → DeserState × RecordId)
    (st : DeserState) (ri : ResourceIdentifier) (m : RecordId)
    (hpool : aget (rkey ri) st.pool = some m) :
    attachOne doc applyFn st ri =
      ((applyFn st m (findResource doc ri)).1, some (applyFn st m (findResource doc ri)).2) := by
  rw [attachOne, hpool]

theorem attachOne_miss_unknown (doc : Document)
    (applyFn : DeserState → RecordId → Resource → DeserState × RecordId)
    (st : DeserState) (ri : ResourceIdentifier)
    (hpool : aget (rkey ri) st.pool = none) (hmf : modelFor ri.rtype = none) :
    attachOne doc applyFn st ri = (st, none) := by
  rw [attachOne, hpool, hmf]

theorem attachOne_miss_known (doc : Document)
    (applyFn : DeserState → RecordId → Resource → DeserState × RecordId)
    (st : DeserState) (ri : ResourceIdentifier) (md : ModelDef)
    (hpool : aget (rkey ri) st.pool = none) (hmf : modelFor ri.rtype = some md) :
    attachOne doc applyFn st ri =
      ((applyFn (freshState st ri) (freshRid st.heap) (findResource doc ri)).1,
       some (applyFn (freshState st ri) (freshRid st.heap) (findResource doc ri)).2) := by
  rw [attachOne, hpool, hmf]

theorem attachList_nil (doc : Document)
    (applyFn : DeserState → RecordId → Resource → DeserState × RecordId)
    (st : DeserState) : attachList doc applyFn st [] = (st, []) := rfl

theorem attachList_cons (doc : Document)
    (applyFn : DeserState → RecordId → Resource → DeserState × RecordId)
    (st : DeserState) (ri : ResourceIdentifier) (rest : List ResourceIdentifier) :
    attachList doc applyFn st (ri :: rest) =
      ((attachList doc applyFn (attachOne doc applyFn st ri).1 rest).1,
        match (attachOne doc applyFn st ri).2 with
        | some m => m :: (attachList doc applyFn (attachOne doc applyFn st ri).1 rest).2
        | none => (attachList doc applyFn (attachOne doc applyFn st ri).1 rest).2) := rfl

theorem processRelDefs_nil (doc : Document)
    (applyFn : DeserState → RecordId → Resource → DeserState × RecordId)
    (st : DeserState) (target : RecordId) (res : Resource) :
    processRelDefs doc applyFn st target [] res = st := rfl

theorem processRelDefs_cons (doc : Document)
    (applyFn : DeserState → RecordId → Resource → DeserState × RecordId)
    (st : DeserState) (target : RecordId) (rd : RelDef) (rest : List RelDef) (res : Resource) :
    processRelDefs doc applyFn st target (rd :: rest) res =
      processRelDefs doc applyFn (processOneRel doc applyFn st target rd res) target rest res := rfl

theorem applyCore_hit (doc : Document) (fuel : Nat) (st : DeserState) (target r : RecordId)
    (res : Resource) (hhit : aget (resourceKey res) st.processed = some r) :
    applyCore doc fuel st target res = (st, r) := by
  rw [applyCore, hhit]

theorem applyCore_zero_miss (doc : Document) (st : DeserState) (target : RecordId)
    (res : Resource) (hmiss : aget (resourceKey res) st.processed = none) :
    applyCore doc 0 st target res = (registerProcessed st res target, target) := by
  rw [applyCore, hmiss]
  rfl

theorem applyCore_succ_miss (doc : Document) (fuel : Nat) (st : DeserState) (target : RecordId)
    (res : Resource) (hmiss : aget (resourceKey res) st.processed = none) :
    applyCore doc (fuel + 1) st target res =
      ({ applyBody doc fuel st target res with
          heap := setPersisted (applyBody doc fuel st target res).heap target true }, target) := by
  rw [applyCore, hmiss]
  rfl

theorem pruneMembers_nil (recFn : Heap → RecordId → Directive → Heap) (h : Heap)
    (nested : Directive) : pruneMembers recFn h [] nested = h := rfl

theorem pruneMembers_cons (recFn : Heap → RecordId → Directive → Heap) (h : Heap)
    (m : RecordId) (ms : List RecordId) (nested : Directive) :
    pruneMembers recFn h (m :: ms) nested = pruneMembers recFn (recFn h m nested) ms nested := rfl

theorem pruneEntries_nil (recFn : Heap → RecordId → Directive → Heap) (h : Heap)
    (r : RecordId) : pruneEntries recFn h r [] = h := rfl

theorem pruneEntries_cons (recFn : Heap → RecordId → Directive → Heap) (h : Heap)
    (r : RecordId) (n : String) (nested : Directive) (rest : List (String × Directive)) :
    pruneEntries recFn h r ((n, nested) :: rest) =
      pruneEntries recFn (pruneEntry recFn h r n nested) r rest := rfl

theorem pruneDepth_zero (h : Heap) (r : RecordId) (scope : Directive) :
    pruneDepth 0 h r scope = h := rfl

theorem pruneDepth_succ (d : Nat) (h : Heap) (r : RecordId) (es : List (String × Directive)) :
    pruneDepth (d + 1) h r (.node es) = pruneEntries (pruneDepth d) h r es := rfl

/-! Generic invariant preservation through the deserializer workers.  The
conditions mirror exactly the state changes the workers can make. -/

theorem attachOne_inv (doc : Document) (P : DeserState → Prop)
    (applyFn : DeserState → RecordId → Resource → DeserState × RecordId)
    (hf : ∀ (st : DeserState) (t : RecordId) (r : Resource), P st → P (applyFn st t r).1)
    (hFresh : ∀ (st : DeserState) (ri : ResourceIdentifier),
      aget (rkey ri) st.pool = none → P st → P (freshState st ri))
    (st : DeserState) (ri : ResourceIdentifier) (hp : P st) :
    P (attachOne doc applyFn st ri).1 := by
  cases hpool : aget (rkey ri) st.pool with
  | some m =>
    rw [attachOne_pool_hit doc applyFn st ri m hpool]
    exact hf st m (findResource doc ri) hp
  | none =>
    cases hmf : modelFor ri.rtype with
    | none =>
      rw [attachOne_miss_unknown doc applyFn st ri hpool hmf]
      exact hp
    | some md =>
      rw [attachOne_miss_known doc applyFn st ri md hpool hmf]
      exact hf (freshState st ri) (freshRid st.heap) (findResource doc ri)
        (hFresh st ri hpool hp)

theorem attachList_inv (doc : Document) (P : DeserState → Prop)
    (applyFn : DeserState → RecordId → Resource → DeserState × RecordId)
    (hf : ∀ (st : DeserState) (t : RecordId) (r : Resource), P st → P (applyFn st t r).1)
    (hFresh : ∀ (st : DeserState) (ri : ResourceIdentifier),
      aget (rkey ri) st.pool = none → P st → P (freshState st ri)) :
    ∀ (ris : List ResourceIdentifier) (st : DeserState), P st →
      P (attachList doc applyFn st ris).1 := by
  intro ris
  induction ris with
  | nil =>
    intro st hp
    rw [attachList_nil]
    exact hp
  | cons ri rest ih =>
    intro st hp
    rw [attachList_cons]
    exact ih (attachOne doc applyFn st ri).1 (attachOne_inv doc P applyFn hf hFresh st ri hp)

theorem processRelData_inv (doc : Document) (P : DeserState → Prop)
    (applyFn : DeserState → RecordId → Resource → DeserState × RecordId)
    (hf : ∀ (st : DeserState) (t : RecordId) (r : Resource), P st → P (applyFn st t r).1)
    (hFresh : ∀ (st : DeserState) (ri : ResourceIdentifier),
      aget (rkey ri) st.pool = none → P st → P (freshState st ri))
    (hWrite : ∀ (st : DeserState) (target : RecordId) (n : String) (rv : RelValue), P st →
      P (writeRel st target n rv))
    (st : DeserState) (target : RecordId) (rd : RelDef) (dat? : Option RelData) (hp : P st) :
    P (processRelData doc applyFn st target rd dat?) := by
  cases dat? with
  | none =>
    rw [show processRelData doc applyFn st target rd none =
      (match rd.card with
        | .toMany => writeRel st target rd.name (.many [])
        | .toOne => st) from rfl]
    split
    · exact hWrite _ _ _ _ hp
    · exact hp
  | some rdta =>
    cases rdta with
    | one ri? =>
      cases ri? with
      | none => exact hWrite st target rd.name (.one none) hp
      | some ri =>
        rw [show processRelData doc applyFn st target rd (some (.one (some ri))) =
          (match attachOne doc applyFn st ri with
            | (st2, some m) => writeRel st2 target rd.name (.one (some m))
            | (st2, none) => writeRel st2 target rd.name (.one none)) from rfl]
        split
        next st2 m heq =>
          refine hWrite st2 target rd.name (.one (some m)) ?_
          have h2 := attachOne_inv doc P applyFn hf hFresh st ri hp
          rw [heq] at h2
          exact h2
        next st2 heq =>
          refine hWrite st2 target rd.name (.one none) ?_
          have h2 := attachOne_inv doc P applyFn hf hFresh st ri hp
          rw [heq] at h2
          exact h2
    | many ris =>
      rw [show processRelData doc applyFn st target rd (some (.many ris)) =
        (match attachList doc applyFn st ris with
          | (st2, ms) => writeRel st2 target rd.name (.many ms)) from rfl]
      split
      next st2 ms heq =>
        refine hWrite st2 target rd.name (.many ms) ?_
        have h2 := attachList_inv doc P applyFn hf hFresh ris st hp
        rw [heq] at h2
        exact h2

theorem processOneRel_inv (doc : Document) (P : DeserState → Prop)
    (applyFn : DeserState → RecordId → Resource → DeserState × RecordId)
    (hf : ∀ (st : DeserState) (t : RecordId) (r : Resource), P st → P (applyFn st t r).1)
    (hFresh : ∀ (st : DeserState) (ri : ResourceIdentifier),
      aget (rkey ri) st.pool = none → P st → P (freshState st ri))
    (hWrite : ∀ (st : DeserState) (target : RecordId) (n : String) (rv : RelValue), P st →
      P (writeRel st target n rv))
    (st : DeserState) (target : RecordId) (rd : RelDef) (res : Resource) (hp : P st) :
    P (processOneRel doc applyFn st target rd res) := by
  rw [processOneRel]
  split
  · exact hp
  · exact processRelData_inv doc P applyFn hf hFresh hWrite st target rd _ hp

theorem processRelDefs_inv (doc : Document) (P : DeserState → Prop)
    (applyFn : DeserState → RecordId → Resource → DeserState × RecordId)
    (hf : ∀ (st : DeserState) (t : RecordId) (r : Resource), P st → P (applyFn st t r).1)
    (hFresh : ∀ (st : DeserState) (ri : ResourceIdentifier),
      aget (rkey ri) st.pool = none → P st → P (freshState st ri))
    (hWrite : ∀ (st : DeserState) (target : RecordId) (n : String) (rv : RelValue), P st →
      P (writeRel st target n rv)) :
    ∀ (rds : List RelDef) (st : DeserState) (target : RecordId) (res : Resource), P st →
      P (processRelDefs doc applyFn st target rds res) := by
  intro rds
  induction rds with
  | nil =>
    intro st target res hp
    rw [processRelDefs_nil]
    exact hp
  | cons rd rest ih =>
    intro st target res hp
    rw [processRelDefs_cons]
    exact ih _ target res (processOneRel_inv doc P applyFn hf hFresh hWrite st target rd res hp)

theorem applyCore_inv (doc : Document) (P : DeserState → Prop)
    (hProc : ∀ (st : DeserState) (res : Resource) (target : RecordId),
      aget (resourceKey res) st.processed = none → P st →
      P (registerProcessed st res target))
    (hHydrate : ∀ (st : DeserState) (target : RecordId) (res : Resource), P st →
      P (hydrate st target res))
    (hPersist : ∀ (st : DeserState) (target : RecordId), P st →
      P { st with heap := setPersisted st.heap target true })
    (hWrite : ∀ (st : DeserState) (target : RecordId) (n : String) (rv : RelValue), P st →
      P (writeRel st target n rv))
    (hFresh : ∀ (st : DeserState) (ri : ResourceIdentifier),
      aget (rkey ri) st.pool = none → P st → P (freshState st ri)) :
    ∀ (fuel : Nat) (st : DeserState) (target : RecordId) (res : Resource),
      P st → P (applyCore doc fuel st target res).1 := by
  intro fuel
  induction fuel with
  | zero =>
    intro st target res hp
    cases hproc : aget (resourceKey res) st.processed with
    | some r =>
      rw [applyCore_hit doc 0 st target r res hproc]
      exact hp
    | none =>
      rw [applyCore_zero_miss doc st target res hproc]
      exact hProc st res target hproc hp
  | succ fuel ih =>
    intro st target res hp
    cases hproc : aget (resourceKey res) st.processed with
    | some r =>
      rw [applyCore_hit doc (fuel + 1) st target r res hproc]
      exact hp
    | none =>
      rw [applyCore_succ_miss doc fuel st target res hproc]
      refine hPersist (applyBody doc fuel st target res) target ?_
      rw [applyBody]
      refine processRelDefs_inv doc P _ (fun s t r2 hs => ih s t r2 hs) hFresh hWrite _ _ target res ?_
      exact hHydrate (registerProcessed st res target) target res (hProc st res target hproc hp)

/-- Generic invariant preservation through the pruning pass.  The conditions
mirror exactly the heap writes `pruneDepth` can make. -/
theorem pruneDepth_inv (P : Heap → Prop)
    (hwMany : ∀ (h : Heap) (r : RecordId) (n : String) (ms : List RecordId), P h →
      aget n (hGet h r).rels = some (.many ms) →
      P (writeRelH h r n (.many (ms.filter (fun m => !(markedFor h m))))))
    (hwOne : ∀ (h : Heap) (r : RecordId) (n : String) (m : RecordId), P h →
      aget n (hGet h r).rels = some (.one (some m)) → markedFor h m = true →
      P (writeRelH h r n (.one none))) :
    ∀ (d : Nat) (h : Heap) (r : RecordId) (scope : Directive),
      P h → P (pruneDepth d h r scope) := by
  intro d
  induction d with
  | zero =>
    intro h r scope hp
    exact hp
  | succ d ih =>
    have hMembers : ∀ (ms : List RecordId) (nested : Directive) (h : Heap), P h →
        P (pruneMembers (pruneDepth d) h ms nested) := by
      intro ms
      induction ms with
      | nil =>
        intro nested h hp
        exact hp
      | cons m rest ihm =>
        intro nested h hp
        rw [pruneMembers_cons]
        exact ihm nested _ (ih h m nested hp)
    have hEntry : ∀ (h : Heap) (r : RecordId) (n : String) (nested : Directive), P h →
        P (pruneEntry (pruneDepth d) h r n nested) := by
      intro h r n nested hp
      rw [pruneEntry]
      split
      next ms hag => exact hMembers _ nested _ (hwMany h r n ms hp hag)
      next m hag =>
        split
        next hmm => exact hwOne h r n m hp hag hmm
        next hmm => exact ih h m nested hp
      all_goals exact hp
    have hEntries : ∀ (es : List (String × Directive)) (h : Heap) (r : RecordId), P h →
        P (pruneEntries (pruneDepth d) h r es) := by
      intro es
      induction es with
      | nil =>
        intro h r hp
        exact hp
      | cons p rest ihe =>
        intro h r hp
        obtain ⟨n, nested⟩ := p
        rw [pruneEntries_cons]
        exact ihe _ r (hEntry h r n nested hp)
    intro h r scope hp
    cases scope with
    | node es => exact hEntries es h r hp

/-! Field-stability instances of the generic invariant lemmas. -/

theorem hGet_freshRid (h : Heap) : hGet h (freshRid h) = Record.fresh "" := by
  rw [hGet, freshRid_aget_none]
  rfl

theorem aget_setPersisted_self (h : Heap) (r : RecordId) (b : Bool) :
    (aget r (setPersisted h r b)).isSome := by
  cases b with
  | true =>
    show (aget r (hSet h r _)).isSome
    rw [hSet, aget_aset_self]
    simp
  | false =>
    show (aget r (hSet h r _)).isSome
    rw [hSet, aget_aset_self]
    simp

theorem aget_writeRelH_self (h : Heap) (r : RecordId) (n : String) (rv : RelValue) :
    (aget r (writeRelH h r n rv)).isSome := by
  show (aget r (hSet h r _)).isSome
  rw [hSet, aget_aset_self]
  simp

/-- Caller-attached ad-hoc fields and both mark flags survive one apply pass,
on every record of the heap. -/
theorem applyCore_preserves (doc : Document) (h0 : Heap) :
    ∀ (fuel : Nat) (st : DeserState) (target : RecordId) (res : Resource),
      (∀ x, (hGet st.heap x).extra = (hGet h0 x).extra ∧
        (hGet st.heap x).markedForDestruction = (hGet h0 x).markedForDestruction ∧
        (hGet st.heap x).markedForDisassociation = (hGet h0 x).markedForDisassociation) →
      ∀ x, (hGet (applyCore doc fuel st target res).1.heap x).extra = (hGet h0 x).extra ∧
        (hGet (applyCore doc fuel st target res).1.heap x).markedForDestruction
          = (hGet h0 x).markedForDestruction ∧
        (hGet (applyCore doc fuel st target res).1.heap x).markedForDisassociation
          = (hGet h0 x).markedForDisassociation := by
  refine applyCore_inv doc
    (fun st => ∀ x, (hGet st.heap x).extra = (hGet h0 x).extra ∧
      (hGet st.heap x).markedForDestruction = (hGet h0 x).markedForDestruction ∧
      (hGet st.heap x).markedForDisassociation = (hGet h0 x).markedForDisassociation)
    ?_ ?_ ?_ ?_ ?_
  · intro st res target hmiss hp x
    exact hp x
  · intro st target res hp x
    rw [hydrate]
    dsimp only
    by_cases hx : x = target
    · subst hx
      rw [hGet_hSet_self]
      have hf := assignAttrs_fields (declaredAttrs (hGet st.heap x).rtype) res.attributes
        { hGet st.heap x with id := res.id, meta := res.meta }
      rw [hf.2.2.2.2.2.2.2.1, hf.2.2.2.2.1, hf.2.2.2.2.2.1]
      exact hp x
    · rw [hGet_hSet_ne st.heap (Ne.symm hx)]
      exact hp x
  · intro st target hp x
    dsimp only
    by_cases hx : x = target
    · subst hx
      rw [hGet_setPersisted_true]
      exact hp x
    · rw [hGet_setPersisted_ne st.heap hx]
      exact hp x
  · intro st target n rv hp x
    rw [writeRel]
    dsimp only
    by_cases hx : x = target
    · subst hx
      rw [hGet_writeRelH_self]
      exact hp x
    · rw [hGet_writeRelH_ne st.heap hx]
      exact hp x
  · intro st ri hpool hp x
    rw [freshState]
    dsimp only
    by_cases hx : x = freshRid st.heap
    · subst hx
      rw [hGet_hSet_self]
      have h2 := hp (freshRid st.heap)
      rw [hGet_freshRid st.heap] at h2
      exact h2
    · rw [hGet_hSet_ne st.heap (Ne.symm hx)]
      exact hp x

/-- Ad-hoc fields and mark flags survive the pruning pass, on every record. -/
theorem pruneDepth_preserves (h0 : Heap) :
    ∀ (d : Nat) (h : Heap) (r : RecordId) (scope : Directive),
      (∀ x, (hGet h x).extra = (hGet h0 x).extra ∧
        (hGet h x).markedForDestruction = (hGet h0 x).markedForDestruction ∧
        (hGet h x).markedForDisassociation = (hGet h0 x).markedForDisassociation) →
      ∀ x, (hGet (pruneDepth d h r scope) x).extra = (hGet h0 x).extra ∧
        (hGet (pruneDepth d h r scope) x).markedForDestruction
          = (hGet h0 x).markedForDestruction ∧
        (hGet (pruneDepth d h r scope) x).markedForDisassociation
          = (hGet h0 x).markedForDisassociation := by
  refine pruneDepth_inv
    (fun h => ∀ x, (hGet h x).extra = (hGet h0 x).extra ∧
      (hGet h x).markedForDestruction = (hGet h0 x).markedForDestruction ∧
      (hGet h x).markedForDisassociation = (hGet h0 x).markedForDisassociation)
    ?_ ?_
  · intro h r n ms hp hag x
    by_cases hx : x = r
    · subst hx
      rw [hGet_writeRelH_self]
      exact hp x
    · rw [hGet_writeRelH_ne h hx]
      exact hp x
  · intro h r n m hp hag hmm x
    by_cases hx : x = r
    · subst hx
      rw [hGet_writeRelH_self]
      exact hp x
    · rw [hGet_writeRelH_ne h hx]
      exact hp x

/-- Pool bindings are never overwritten during a pass. -/
theorem applyCore_pool_stable (doc : Document) (K : String × Value) (M : RecordId) :
    ∀ (fuel : Nat) (st : DeserState) (target : RecordId) (res : Resource),
      aget K st.pool = some M →
      aget K (applyCore doc fuel st target res).1.pool = some M := by
  refine applyCore_inv doc (fun st => aget K st.pool = some M) ?_ ?_ ?_ ?_ ?_
  · intro st res target hmiss hp
    exact hp
  · intro st target res hp
    exact hp
  · intro st target hp
    exact hp
  · intro st target n rv hp
    exact hp
  · intro st ri hpool hp
    rw [freshState]
    dsimp only
    rcases hkk : decide (K = rkey ri) with _ | _
    · have hk : K ≠ rkey ri := of_decide_eq_false hkk
      rw [aget_aset_ne (Ne.symm hk)]
      exact hp
    · have hk : K = rkey ri := of_decide_eq_true hkk
      rw [hk, hpool] at hp
      exact absurd hp (by simp)

/-- Processed-map bindings are never overwritten during a pass. -/
theorem applyCore_processed_stable (doc : Document) (K : String × Value) (M : RecordId) :
    ∀ (fuel : Nat) (st : DeserState) (target : RecordId) (res : Resource),
      aget K st.processed = some M →
      aget K (applyCore doc fuel st target res).1.processed = some M := by
  refine applyCore_inv doc (fun st => aget K st.processed = some M) ?_ ?_ ?_ ?_ ?_
  · intro st res target hmiss hp
    rw [registerProcessed]
    dsimp only
    rcases hkk : decide (K = resourceKey res) with _ | _
    · have hk : K ≠ resourceKey res := of_decide_eq_false hkk
      rw [aget_aset_ne (Ne.symm hk)]
      exact hp
    · have hk : K = resourceKey res := of_decide_eq_true hkk
      rw [hk, hmiss] at hp
      exact absurd hp (by simp)
  · intro st target res hp
    exact hp
  · intro st target hp
    exact hp
  · intro st target n rv hp
    exact hp
  · intro st ri hpool hp
    exact hp

/-- Existing records keep their address and their type tag through a pass. -/
theorem applyCore_rtype_stable (doc : Document) (h0 : Heap) :
    ∀ (fuel : Nat) (st : DeserState) (target : RecordId) (res : Resource),
      (∀ x, (aget x h0).isSome → (aget x st.heap).isSome ∧
        (hGet st.heap x).rtype = (hGet h0 x).rtype) →
      ∀ x, (aget x h0).isSome → (aget x (applyCore doc fuel st target res).1.heap).isSome ∧
        (hGet (applyCore doc fuel st target res).1.heap x).rtype = (hGet h0 x).rtype := by
  refine applyCore_inv doc
    (fun st => ∀ x, (aget x h0).isSome → (aget x st.heap).isSome ∧
      (hGet st.heap x).rtype = (hGet h0 x).rtype)
    ?_ ?_ ?_ ?_ ?_
  · intro st res target hmiss hp
    exact hp
  · intro st target res hp x hx
    rw [hydrate]
    dsimp only
    by_cases hxt : x = target
    · subst hxt
      refine ⟨?_, ?_⟩
      · rw [hSet, aget_aset_self]
        simp
      · rw [hGet_hSet_self]
        have hf := assignAttrs_fields (declaredAttrs (hGet st.heap x).rtype) res.attributes
          { hGet st.heap x with id := res.id, meta := res.meta }
        rw [hf.1]
        exact (hp x hx).2
    · refine ⟨?_, ?_⟩
      · rw [hSet, aget_aset_ne (Ne.symm hxt)]
        exact (hp x hx).1
      · rw [hGet_hSet_ne st.heap (Ne.symm hxt)]
        exact (hp x hx).2
  · intro st target hp x hx
    dsimp only
    by_cases hxt : x = target
    · subst hxt
      refine ⟨aget_setPersisted_self st.heap x true, ?_⟩
      rw [hGet_setPersisted_true]
      exact (hp x hx).2
    · rw [hGet_setPersisted_ne st.heap hxt, aget_setPersisted_ne st.heap hxt]
      exact hp x hx
  · intro st target n rv hp x hx
    rw [writeRel]
    dsimp only
    by_cases hxt : x = target
    · subst hxt
      refine ⟨aget_writeRelH_self st.heap x n rv, ?_⟩
      rw [hGet_writeRelH_self]
      exact (hp x hx).2
    · rw [hGet_writeRelH_ne st.heap hxt, aget_writeRelH_ne st.heap hxt]
      exact hp x hx
  · intro st ri hpool hp x hx
    rw [freshState]
    dsimp only
    have hxf : freshRid st.heap ≠ x := freshRid_ne_of_isSome (hp x hx).1
    rw [hSet, aget_aset_ne hxf, hGet, aget_aset_ne hxf]
    exact hp x hx

/-- Every application records its resolution in the processed map: the record
returned for a resource is the one the identity key maps to afterwards. -/
theorem applyCore_processed_spec (doc : Document) (fuel : Nat) (st : DeserState)
    (target : RecordId) (res : Resource) :
    aget (resourceKey res) (applyCore doc fuel st target res).1.processed
      = some (applyCore doc fuel st target res).2 := by
  cases hproc : aget (resourceKey res) st.processed with
  | some r =>
    rw [applyCore_hit doc fuel st target r res hproc]
    exact hproc
  | none =>
    cases fuel with
    | zero =>
      rw [applyCore_zero_miss doc st target res hproc]
      rw [registerProcessed]
      dsimp only
      exact aget_aset_self _ _ _
    | succ fuel =>
      rw [applyCore_succ_miss doc fuel st target res hproc]
      dsimp only
      rw [applyBody]
      refine processRelDefs_inv doc
        (fun s => aget (resourceKey res) s.processed = some target) _
        (fun s t r2 hs => applyCore_processed_stable doc (resourceKey res) target fuel s t r2 hs)
        ?_ ?_ _ _ target res ?_
      · intro s ri hpool hs
        exact hs
      · intro s t n rv hs
        exact hs
      · rw [hydrate]
        dsimp only
        rw [registerProcessed]
        dsimp only
        exact aget_aset_self _ _ _

/-! ## One-pass characterization for relationship-free primaries -/

theorem pruneDepth_node_nil (d : Nat) (h : Heap) (r : RecordId) :
    pruneDepth d h r (.node []) = h := by
  cases d with
  | zero => rfl
  | succ d => rfl

theorem fromJsonapi_some (h : Heap) (r : RecordId) (doc : Document) (scope : Directive)
    (res : Resource) (hdoc : doc.data? = some res) :
    fromJsonapi h r doc scope = .ok { (applyCore doc (docFuel doc) ⟨h, seedPool h r, []⟩ r res).1 with heap := prune (applyCore doc (docFuel doc) ⟨h, seedPool h r, []⟩ r res).1.heap r scope } := by
  rw [fromJsonapi, hdoc]

theorem docFuel_succ (doc : Document) :
    docFuel doc = (doc.included.length + (doc.included.map resourceRefCount).sum +
      (doc.data?.elim 0 resourceRefCount) + 1) + 1 := rfl

theorem assignedRecord_fields (h : Heap) (r : RecordId) (res : Resource) :
    (assignedRecord h r res).rtype = (hGet h r).rtype ∧
    (assignedRecord h r res).id = res.id ∧
    (assignedRecord h r res).meta = res.meta ∧
    (assignedRecord h r res).rels = (hGet h r).rels ∧
    (assignedRecord h r res).persisted = (hGet h r).persisted ∧
    (assignedRecord h r res).markedForDestruction = (hGet h r).markedForDestruction ∧
    (assignedRecord h r res).markedForDisassociation = (hGet h r).markedForDisassociation ∧
    (assignedRecord h r res).extra = (hGet h r).extra := by
  have hf := assignAttrs_fields (declaredAttrs (hGet h r).rtype) res.attributes
    { hGet h r with id := res.id, meta := res.meta }
  exact ⟨hf.1, hf.2.1, hf.2.2.2.2.2.2.1, hf.2.2.1, hf.2.2.2.1, hf.2.2.2.2.1,
    hf.2.2.2.2.2.1, hf.2.2.2.2.2.2.2.1⟩

theorem pruneEntry_many (recFn : Heap → RecordId → Directive → Heap) (h : Heap)
    (r : RecordId) (n : String) (nested : Directive) (ms : List RecordId)
    (hag : aget n (hGet h r).rels = some (.many ms)) :
    pruneEntry recFn h r n nested =
      pruneMembers recFn (writeRelH h r n (.many (ms.filter (fun m => !(markedFor h m)))))
        (ms.filter (fun m => !(markedFor h m))) nested := by
  rw [pruneEntry, hag]

theorem pruneEntry_one_marked (recFn : Heap → RecordId → Directive → Heap) (h : Heap)
    (r : RecordId) (n : String) (nested : Directive) (m : RecordId)
    (hag : aget n (hGet h r).rels = some (.one (some m))) (hm : markedFor h m = true) :
    pruneEntry recFn h r n nested = writeRelH h r n (.one none) := by
  rw [pruneEntry, hag]
  show (if markedFor h m = true then writeRelH h r n (RelValue.one none) else recFn h m nested)
    = writeRelH h r n (RelValue.one none)
  rw [if_pos hm]

theorem pruneMembers_node_nil (d : Nat) : ∀ (ms : List RecordId) (h : Heap),
    pruneMembers (pruneDepth d) h ms (.node []) = h := by
  intro ms
  induction ms with
  | nil =>
    intro h
    rfl
  | cons m rest ih =>
    intro h
    rw [pruneMembers_cons, pruneDepth_node_nil]
    exact ih h

theorem prune_single_many (h : Heap) (r : RecordId) (n : String) (ms : List RecordId)
    (hag : aget n (hGet h r).rels = some (.many ms)) :
    prune h r (.node [(n, .node [])]) =
      writeRelH h r n (.many (ms.filter (fun m => !(markedFor h m)))) := by
  rw [prune, show dsize (.node [(n, Directive.node [])]) = 2 + 1 from rfl, pruneDepth_succ,
    pruneEntries_cons, pruneEntry_many (pruneDepth 2) h r n (.node []) ms hag,
    pruneMembers_node_nil, pruneEntries_nil]

theorem prune_single_one_marked (h : Heap) (r : RecordId) (n : String) (m : RecordId)
    (hag : aget n (hGet h r).rels = some (.one (some m))) (hm : markedFor h m = true) :
    prune h r (.node [(n, .node [])]) = writeRelH h r n (.one none) := by
  rw [prune, show dsize (.node [(n, Directive.node [])]) = 2 + 1 from rfl, pruneDepth_succ,
    pruneEntries_cons, pruneEntry_one_marked (pruneDepth 2) h r n (.node []) m hag hm,
    pruneEntries_nil]

theorem persistedRecord_rels (h : Heap) (r : RecordId) (res : Resource) :
    (persistedRecord h r res).rels = (hGet h r).rels := by
  rw [persistedRecord]
  exact (assignedRecord_fields h r res).2.2.2.1

theorem mem_aset [DecidableEq κ] {p : κ × α} {k : κ} {v : α} {l : List (κ × α)}
    (h : p ∈ aset k v l) : p = (k, v) ∨ p ∈ l := by
  induction l with
  | nil =>
    simp [aset] at h
    exact Or.inl h
  | cons q t ih =>
    obtain ⟨k2, w⟩ := q
    by_cases hk : k2 = k
    · rw [show aset k v ((k2, w) :: t) = (k2, v) :: t from by simp [aset, hk]] at h
      rcases List.mem_cons.mp h with h1 | h2
      · exact Or.inl (by rw [h1, hk])
      · exact Or.inr (List.mem_cons_of_mem _ h2)
    · rw [show aset k v ((k2, w) :: t) = (k2, w) :: aset k v t from by simp [aset, hk]] at h
      rcases List.mem_cons.mp h with h1 | h2
      · exact Or.inr (by rw [h1]; exact List.mem_cons_self _ _)
      · rcases ih h2 with h3 | h4
        · exact Or.inl h3
        · exact Or.inr (List.mem_cons_of_mem _ h4)

theorem resourceKey_findResource (doc : Document) (ri : ResourceIdentifier) :
    resourceKey (findResource doc ri) = rkey ri := by
  rw [findResource]
  cases hf : doc.included.find? (fun r => decide (r.rtype = ri.rtype ∧ r.id = some ri.id)) with
  | none => rfl
  | some resf =>
    have hp := List.find?_some hf
    rw [decide_eq_true_eq] at hp
    show resourceKey resf = rkey ri
    rw [resourceKey, rkey, hp.1, hp.2]
    rfl

theorem markedFor_writeRelH (h : Heap) (r : RecordId) (n : String) (rv : RelValue)
    (x : RecordId) : markedFor (writeRelH h r n rv) x = markedFor h x := by
  rw [markedFor, markedFor]
  by_cases hx : x = r
  · subst hx
    rw [hGet_writeRelH_self]
  · rw [hGet_writeRelH_ne h hx]

theorem aget_isSome_hSet {h : Heap} {r : RecordId} (hr : (aget r h).isSome = true)
    (t : RecordId) (rc : Record) : (aget r (hSet h t rc)).isSome = true := by
  rw [hSet]
  exact aget_aset_isSome_of hr

theorem aget_rels_writeRelH_of_ne {r2 r : RecordId} {n2 n : String} (h : Heap)
    (rv : RelValue) (hne : ¬(r2 = r ∧ n2 = n)) :
    aget n (hGet (writeRelH h r2 n2 rv) r).rels = aget n (hGet h r).rels := by
  by_cases hr2 : r2 = r
  · subst hr2
    have hn2 : n2 ≠ n := fun hc => hne ⟨rfl, hc⟩
    rw [hGet_writeRelH_self]
    show aget n (aset n2 rv (hGet h r2).rels) = _
    rw [aget_aset_ne hn2]
  · rw [hGet_writeRelH_ne h (fun hc => hr2 hc.symm)]

theorem aget_rels_writeRelH_skip {t r : RecordId} {n2 n : String}
    (hcase : t ≠ r ∨ n2 ≠ n) (h : Heap) (rv : RelValue) :
    aget n (hGet (writeRelH h t n2 rv) r).rels = aget n (hGet h r).rels :=
  aget_rels_writeRelH_of_ne h rv (fun hc => hcase.elim (fun h1 => h1 hc.1) (fun h2 => h2 hc.2))

theorem aget_rels_writeRelH_ne_key {k n : String} (hk : k ≠ n) (h : Heap) (t : RecordId)
    (rv : RelValue) (x : RecordId) :
    aget n (hGet (writeRelH h t k rv) x).rels = aget n (hGet h x).rels := by
  by_cases hx : x = t
  · subst hx
    rw [hGet_writeRelH_self]
    show aget n (aset k rv (hGet h x).rels) = _
    rw [aget_aset_ne hk]
  · rw [hGet_writeRelH_ne h hx]

theorem rootFrame_writeRel {res : Resource} {r : RecordId} {st : DeserState}
    (hfr : RootFrame res r st) (t : RecordId) (n : String) (rv : RelValue) :
    RootFrame res r (writeRel st t n rv) :=
  ⟨hfr.1, aget_isSome_hSet hfr.2.1 t _, hfr.2.2⟩

theorem rootFrame_freshState {res : Resource} {r : RecordId} {st : DeserState}
    (hfr : RootFrame res r st) (ri : ResourceIdentifier) :
    RootFrame res r (freshState st ri) := by
  refine ⟨?_, aget_isSome_hSet hfr.2.1 _ _, hfr.2.2⟩
  intro p hp hpr
  rcases mem_aset hp with h1 | h2
  · exfalso
    exact freshRid_ne_of_isSome hfr.2.1 (by rw [h1] at hpr; exact hpr)
  · exact hfr.1 p h2 hpr

theorem rootFrame_registerProcessed {res : Resource} {r : RecordId} {st : DeserState}
    (res2 : Resource) (t : RecordId)
    (hmiss : aget (resourceKey res2) st.processed = none)
    (hfr : RootFrame res r st) : RootFrame res r (registerProcessed st res2 t) := by
  refine ⟨hfr.1, hfr.2.1, ?_⟩
  show aget (resourceKey res) (aset (resourceKey res2) t st.processed) = some r
  have hne : resourceKey res2 ≠ resourceKey res := by
    intro hc
    rw [hc, hfr.2.2] at hmiss
    simp at hmiss
  rw [aget_aset_ne hne]
  exact hfr.2.2

theorem rootFrame_hydrate {res : Resource} {r : RecordId} {st : DeserState}
    (hfr : RootFrame res r st) (t : RecordId) (res2 : Resource) :
    RootFrame res r (hydrate st t res2) :=
  ⟨hfr.1, aget_isSome_hSet hfr.2.1 t _, hfr.2.2⟩

theorem rootFrame_setPersisted {res : Resource} {r : RecordId} {st : DeserState}
    (hfr : RootFrame res r st) (t : RecordId) :
    RootFrame res r { st with heap := setPersisted st.heap t true } :=
  ⟨hfr.1, aget_isSome_hSet hfr.2.1 t _, hfr.2.2⟩

theorem applyCore_rootframe (doc : Document) (res : Resource) (r : RecordId) :
    ∀ (fuel : Nat) (st : DeserState) (target : RecordId) (res2 : Resource),
      RootFrame res r st → RootFrame res r (applyCore doc fuel st target res2).1 :=
  applyCore_inv doc (RootFrame res r)
    (fun _ res2 target hmiss hfr => rootFrame_registerProcessed res2 target hmiss hfr)
    (fun _ target res2 hfr => rootFrame_hydrate hfr target res2)
    (fun _ target hfr => rootFrame_setPersisted hfr target)
    (fun _ target n rv hfr => rootFrame_writeRel hfr target n rv)
    (fun _ ri _ hfr => rootFrame_freshState hfr ri)

theorem attachOne_rootframe (doc : Document) (res : Resource) (r : RecordId)
    (applyFn : DeserState → RecordId → Resource → DeserState × RecordId)
    (hfFrame : ∀ (st : DeserState) (t : RecordId) (r2 : Resource),
      RootFrame res r st → RootFrame res r (applyFn st t r2).1)
    (st : DeserState) (ri : ResourceIdentifier) (hfr : RootFrame res r st) :
    RootFrame res r (attachOne doc applyFn st ri).1 :=
  attachOne_inv doc (RootFrame res r) applyFn hfFrame
    (fun _ ri _ hfr => rootFrame_freshState hfr ri) st ri hfr

theorem processOneRel_rootframe (doc : Document) (res : Resource) (r : RecordId)
    (applyFn : DeserState → RecordId → Resource → DeserState × RecordId)
    (hfFrame : ∀ (st : DeserState) (t : RecordId) (r2 : Resource),
      RootFrame res r st → RootFrame res r (applyFn st t r2).1)
    (st : DeserState) (t : RecordId) (rd : RelDef) (res2 : Resource)
    (hfr : RootFrame res r st) : RootFrame res r (processOneRel doc applyFn st t rd res2) :=
  processOneRel_inv doc (RootFrame res r) applyFn hfFrame
    (fun _ ri _ hfr => rootFrame_freshState hfr ri)
    (fun _ t n rv hfr => rootFrame_writeRel hfr t n rv) st t rd res2 hfr

theorem attachOne_root_slot (doc : Document) (res : Resource) (r : RecordId) (n : String)
    (applyFn : DeserState → RecordId → Resource → DeserState × RecordId)
    (hfSlot : ∀ (st : DeserState) (t : RecordId) (r2 : Resource), RootFrame res r st →
      (t = r → resourceKey r2 = resourceKey res) →
      aget n (hGet (applyFn st t r2).1.heap r).rels = aget n (hGet st.heap r).rels)
    (st : DeserState) (ri : ResourceIdentifier) (hfr : RootFrame res r st) :
    aget n (hGet (attachOne doc applyFn st ri).1.heap r).rels
      = aget n (hGet st.heap r).rels := by
  cases hpool : aget (rkey ri) st.pool with
  | some m =>
    rw [attachOne_pool_hit doc applyFn st ri m hpool]
    exact hfSlot st m (findResource doc ri) hfr (fun hm => by
      rw [resourceKey_findResource]
      exact hfr.1 (rkey ri, m) (aget_mem hpool) hm)
  | none =>
    cases hmf : modelFor ri.rtype with
    | none => rw [attachOne_miss_unknown doc applyFn st ri hpool hmf]
    | some md =>
      rw [attachOne_miss_known doc applyFn st ri md hpool hmf]
      have hne : freshRid st.heap ≠ r := freshRid_ne_of_isSome hfr.2.1
      have h1 := hfSlot (freshState st ri) (freshRid st.heap) (findResource doc ri)
        (rootFrame_freshState hfr ri) (fun hc => absurd hc hne)
      have h2 : aget n (hGet (freshState st ri).heap r).rels = aget n (hGet st.heap r).rels := by
        show aget n (hGet (hSet st.heap (freshRid st.heap) (Record.fresh ri.rtype)) r).rels = _
        rw [hGet_hSet_ne st.heap hne]
      exact h1.trans h2

theorem attachList_root_slot (doc : Document) (res : Resource) (r : RecordId) (n : String)
    (applyFn : DeserState → RecordId → Resource → DeserState × RecordId)
    (hfFrame : ∀ (st : DeserState) (t : RecordId) (r2 : Resource),
      RootFrame res r st → RootFrame res r (applyFn st t r2).1)
    (hfSlot : ∀ (st : DeserState) (t : RecordId) (r2 : Resource), RootFrame res r st →
      (t = r → resourceKey r2 = resourceKey res) →
      aget n (hGet (applyFn st t r2).1.heap r).rels = aget n (hGet st.heap r).rels) :
    ∀ (ris : List ResourceIdentifier) (st : DeserState), RootFrame res r st →
      aget n (hGet (attachList doc applyFn st ris).1.heap r).rels
        = aget n (hGet st.heap r).rels := by
  intro ris
  induction ris with
  | nil =>
    intro st hfr
    rw [attachList_nil]
  | cons ri rest ih =>
    intro st hfr
    rw [attachList_cons]
    show aget n (hGet (attachList doc applyFn (attachOne doc applyFn st ri).1 rest).1.heap r).rels = _
    rw [ih _ (attachOne_rootframe doc res r applyFn hfFrame st ri hfr)]
    exact attachOne_root_slot doc res r n applyFn hfSlot st ri hfr

theorem processRelData_root_slot (doc : Document) (res : Resource) (r : RecordId) (n : String)
    (applyFn : DeserState → RecordId → Resource → DeserState × RecordId)
    (hfFrame : ∀ (st : DeserState) (t : RecordId) (r2 : Resource),
      RootFrame res r st → RootFrame res r (applyFn st t r2).1)
    (hfSlot : ∀ (st : DeserState) (t : RecordId) (r2 : Resource), RootFrame res r st →
      (t = r → resourceKey r2 = resourceKey res) →
      aget n (hGet (applyFn st t r2).1.heap r).rels = aget n (hGet st.heap r).rels)
    (st : DeserState) (t : RecordId) (rd : RelDef) (dat? : Option RelData)
    (hfr : RootFrame res r st) (hcase : t ≠ r ∨ rd.name ≠ n) :
    aget n (hGet (processRelData doc applyFn st t rd dat?).heap r).rels
      = aget n (hGet st.heap r).rels := by
  cases dat? with
  | none =>
    rw [show processRelData doc applyFn st t rd none =
      (match rd.card with
        | .toMany => writeRel st t rd.name (.many [])
        | .toOne => st) from rfl]
    split
    · exact aget_rels_writeRelH_skip hcase st.heap (.many [])
    · rfl
  | some rdta =>
    cases rdta with
    | one ri? =>
      cases ri? with
      | none => exact aget_rels_writeRelH_skip hcase st.heap (.one none)
      | some ri =>
        rw [show processRelData doc applyFn st t rd (some (.one (some ri))) =
          (match attachOne doc applyFn st ri with
            | (st2, some m) => writeRel st2 t rd.name (.one (some m))
            | (st2, none) => writeRel st2 t rd.name (.one none)) from rfl]
        split
        next st2 m heq =>
          have h1 : aget n (hGet st2.heap r).rels = aget n (hGet st.heap r).rels := by
            have h2 := attachOne_root_slot doc res r n applyFn hfSlot st ri hfr
            rw [heq] at h2
            exact h2
          exact (aget_rels_writeRelH_skip hcase st2.heap (.one (some m))).trans h1
        next st2 heq =>
          have h1 : aget n (hGet st2.heap r).rels = aget n (hGet st.heap r).rels := by
            have h2 := attachOne_root_slot doc res r n applyFn hfSlot st ri hfr
            rw [heq] at h2
            exact h2
          exact (aget_rels_writeRelH_skip hcase st2.heap (.one none)).trans h1
    | many ris =>
      rw [show processRelData doc applyFn st t rd (some (.many ris)) =
        (match attachList doc applyFn st ris with
          | (st2, ms) => writeRel st2 t rd.name (.many ms)) from rfl]
      split
      next st2 ms heq =>
        have h1 : aget n (hGet st2.heap r).rels = aget n (hGet st.heap r).rels := by
          have h2 := attachList_root_slot doc res r n applyFn hfFrame hfSlot ris st hfr
          rw [heq] at h2
          exact h2
        exact (aget_rels_writeRelH_skip hcase st2.heap (.many ms)).trans h1

theorem processOneRel_root_slot (doc : Document) (res : Resource) (r : RecordId) (n : String)
    (applyFn : DeserState → RecordId → Resource → DeserState × RecordId)
    (hfFrame : ∀ (st : DeserState) (t : RecordId) (r2 : Resource),
      RootFrame res r st → RootFrame res r (applyFn st t r2).1)
    (hfSlot : ∀ (st : DeserState) (t : RecordId) (r2 : Resource), RootFrame res r st →
      (t = r → resourceKey r2 = resourceKey res) →
      aget n (hGet (applyFn st t r2).1.heap r).rels = aget n (hGet st.heap r).rels)
    (st : DeserState) (t : RecordId) (rd : RelDef) (res2 : Resource)
    (hfr : RootFrame res r st)
    (hcase : t ≠ r ∨ rd.name ≠ n ∨
      res2.relationships.find? (fun p => decide (camelize p.1 = rd.name)) = none) :
    aget n (hGet (processOneRel doc applyFn st t rd res2).heap r).rels
      = aget n (hGet st.heap r).rels := by
  rw [processOneRel]
  split
  · rfl
  · next kv hfind =>
    have hcase2 : t ≠ r ∨ rd.name ≠ n := by
      rcases hcase with h1 | h2 | h3
      · exact Or.inl h1
      · exact Or.inr h2
      · rw [h3] at hfind
        exact absurd hfind (by simp)
    exact processRelData_root_slot doc res r n applyFn hfFrame hfSlot st t rd kv.2.dat hfr hcase2

theorem processRelDefs_root_slot (doc : Document) (res : Resource) (r : RecordId) (n : String)
    (applyFn : DeserState → RecordId → Resource → DeserState × RecordId)
    (hfFrame : ∀ (st : DeserState) (t : RecordId) (r2 : Resource),
      RootFrame res r st → RootFrame res r (applyFn st t r2).1)
    (hfSlot : ∀ (st : DeserState) (t : RecordId) (r2 : Resource), RootFrame res r st →
      (t = r → resourceKey r2 = resourceKey res) →
      aget n (hGet (applyFn st t r2).1.heap r).rels = aget n (hGet st.heap r).rels)
    (t : RecordId) (res2 : Resource) :
    ∀ (rds : List RelDef) (st : DeserState), RootFrame res r st →
      (∀ rd ∈ rds, t ≠ r ∨ rd.name ≠ n ∨
        res2.relationships.find? (fun p => decide (camelize p.1 = rd.name)) = none) →
      aget n (hGet (processRelDefs doc applyFn st t rds res2).heap r).rels
        = aget n (hGet st.heap r).rels := by
  intro rds
  induction rds with
  | nil =>
    intro st hfr hcase
    rfl
  | cons rd rest ih =>
    intro st hfr hcase
    rw [processRelDefs_cons]
    rw [ih _ (processOneRel_rootframe doc res r applyFn hfFrame st t rd res2 hfr)
      (fun rd2 h2 => hcase rd2 (List.mem_cons_of_mem _ h2))]
    exact processOneRel_root_slot doc res r n applyFn hfFrame hfSlot st t rd res2 hfr
      (hcase rd (List.mem_cons_self _ _))

theorem applyCore_root_slot (doc : Document) (res : Resource) (r : RecordId) (n : String) :
    ∀ (fuel : Nat) (st : DeserState) (t : RecordId) (res2 : Resource),
      RootFrame res r st → (t = r → resourceKey res2 = resourceKey res) →
      aget n (hGet (applyCore doc fuel st t res2).1.heap r).rels
        = aget n (hGet st.heap r).rels := by
  intro fuel
  induction fuel with
  | zero =>
    intro st t res2 hfr hres2
    cases hproc : aget (resourceKey res2) st.processed with
    | some m => rw [applyCore_hit doc 0 st t m res2 hproc]
    | none =>
      rw [applyCore_zero_miss doc st t res2 hproc]
      rfl
  | succ fuel ih =>
    intro st t res2 hfr hres2
    cases hproc : aget (resourceKey res2) st.processed with
    | some m => rw [applyCore_hit doc (fuel + 1) st t m res2 hproc]
    | none =>
      have ht : t ≠ r := by
        intro hc
        rw [hres2 hc, hfr.2.2] at hproc
        simp at hproc
      rw [applyCore_succ_miss doc fuel st t res2 hproc]
      show aget n (hGet (setPersisted (applyBody doc fuel st t res2).heap t true) r).rels = _
      rw [hGet_setPersisted_ne _ (Ne.symm ht)]
      rw [applyBody]
      have hfr2 : RootFrame res r (hydrate (registerProcessed st res2 t) t res2) :=
        rootFrame_hydrate (rootFrame_registerProcessed res2 t hproc hfr) t res2
      rw [processRelDefs_root_slot doc res r n _ (applyCore_rootframe doc res r fuel) ih t res2
        (declaredRels (hGet st.heap t).rtype)
        (hydrate (registerProcessed st res2 t) t res2) hfr2 (fun _ _ => Or.inl ht)]
      show aget n (hGet (hSet st.heap t
        (assignAttrs (declaredAttrs (hGet st.heap t).rtype) res2.attributes
          { hGet st.heap t with id := res2.id, meta := res2.meta })) r).rels = _
      rw [hGet_hSet_ne st.heap ht]

theorem processOneRel_nodata_many (doc : Document)
    (applyFn : DeserState → RecordId → Resource → DeserState × RecordId)
    (st : DeserState) (target : RecordId) (rd : RelDef) (res : Resource)
    (kv : String × RelationshipObj)
    (hfind : res.relationships.find? (fun p => decide (camelize p.1 = rd.name)) = some kv)
    (hdat : kv.2.dat = none) (hcard : rd.card = .toMany) :
    processOneRel doc applyFn st target rd res = writeRel st target rd.name (.many []) := by
  rw [processOneRel, hfind]
  show processRelData doc applyFn st target rd kv.2.dat = _
  rw [hdat]
  rw [show processRelData doc applyFn st target rd none =
    (match rd.card with
      | .toMany => writeRel st target rd.name (.many [])
      | .toOne => st) from rfl]
  rw [hcard]

theorem processRelDefs_root_write (doc : Document) (res : Resource) (r : RecordId)
    (applyFn : DeserState → RecordId → Resource → DeserState × RecordId)
    (hfFrame : ∀ (st : DeserState) (t : RecordId) (r2 : Resource),
      RootFrame res r st → RootFrame res r (applyFn st t r2).1)
    (hfSlot : ∀ (n : String) (st : DeserState) (t : RecordId) (r2 : Resource),
      RootFrame res r st → (t = r → resourceKey r2 = resourceKey res) →
      aget n (hGet (applyFn st t r2).1.heap r).rels = aget n (hGet st.heap r).rels)
    (res2 : Resource) :
    ∀ (rds : List RelDef) (st : DeserState) (rd : RelDef) (kv : String × RelationshipObj),
      RootFrame res r st → (rds.map RelDef.name).Nodup → rd ∈ rds →
      res2.relationships.find? (fun p => decide (camelize p.1 = rd.name)) = some kv →
      kv.2.dat = none → rd.card = .toMany →
      aget rd.name (hGet (processRelDefs doc applyFn st r rds res2).heap r).rels
        = some (.many []) := by
  intro rds
  induction rds with
  | nil =>
    intro st rd kv _ _ hmem
    simp at hmem
  | cons rd0 rest ih =>
    intro st rd kv hfr hnodup hmem hfind hdat hcard
    rw [processRelDefs_cons]
    rcases List.mem_cons.mp hmem with h1 | h2
    · subst h1
      rw [processOneRel_nodata_many doc applyFn st r rd res2 kv hfind hdat hcard]
      have hnd := List.nodup_cons.mp (by rw [List.map_cons] at hnodup; exact hnodup)
      have hcase : ∀ rd2 ∈ rest, r ≠ r ∨ rd2.name ≠ rd.name ∨
          res2.relationships.find? (fun p => decide (camelize p.1 = rd2.name)) = none := by
        intro rd2 h2
        refine Or.inr (Or.inl ?_)
        intro hc
        exact hnd.1 (by rw [← hc]; exact List.mem_map_of_mem RelDef.name h2)
      rw [processRelDefs_root_slot doc res r rd.name applyFn hfFrame (hfSlot rd.name) r res2
        rest (writeRel st r rd.name (.many [])) (rootFrame_writeRel hfr r rd.name (.many []))
        hcase]
      rw [writeRel]
      dsimp only
      rw [hGet_writeRelH_self]
      show aget rd.name (aset rd.name (RelValue.many []) (hGet st.heap r).rels) = _
      rw [aget_aset_self]
    · exact ih _ rd kv
        (processOneRel_rootframe doc res r applyFn hfFrame st r rd0 res2 hfr)
        (by rw [List.map_cons] at hnodup; exact (List.nodup_cons.mp hnodup).2) h2 hfind hdat hcard

theorem rootFrame_start (h : Heap) (r : RecordId) (res : Resource)
    (hroot : (aget r h).isSome = true)
    (hpool : ∀ p ∈ seedPool h r, p.2 = r → p.1 = resourceKey res) :
    RootFrame res r (hydrate (registerProcessed ⟨h, seedPool h r, []⟩ res r) r res) := by
  refine rootFrame_hydrate ⟨hpool, hroot, ?_⟩ r res
  show aget (resourceKey res) (aset (resourceKey res) r []) = some r
  rw [aget_aset_self]

theorem applyCore_root_slot_skip (doc : Document) (res : Resource) (h : Heap) (r : RecordId)
    (n : String)
    (hndoc : res.relationships.find? (fun p => decide (camelize p.1 = n)) = none)
    (hroot : (aget r h).isSome = true)
    (hpool : ∀ p ∈ seedPool h r, p.2 = r → p.1 = resourceKey res) :
    aget n (hGet (applyCore doc (docFuel doc) ⟨h, seedPool h r, []⟩ r res).1.heap r).rels
      = aget n (hGet h r).rels := by
  rw [docFuel_succ, applyCore_succ_miss doc _ ⟨h, seedPool h r, []⟩ r res rfl]
  show aget n (hGet (setPersisted
    (applyBody doc _ ⟨h, seedPool h r, []⟩ r res).heap r true) r).rels = _
  rw [hGet_setPersisted_true]
  dsimp only
  rw [applyBody]
  have hcase : ∀ rd ∈ declaredRels (hGet (⟨h, seedPool h r, []⟩ : DeserState).heap r).rtype,
      r ≠ r ∨ rd.name ≠ n ∨
      res.relationships.find? (fun p => decide (camelize p.1 = rd.name)) = none := by
    intro rd _
    by_cases hn : rd.name = n
    · refine Or.inr (Or.inr ?_)
      rw [hn]
      exact hndoc
    · exact Or.inr (Or.inl hn)
  rw [processRelDefs_root_slot doc res r n _ (applyCore_rootframe doc res r _)
    (applyCore_root_slot doc res r n _) r res _ _ (rootFrame_start h r res hroot hpool) hcase]
  show aget n (hGet (hSet h r (assignedRecord h r res)) r).rels = _
  rw [hGet_hSet_self, (assignedRecord_fields h r res).2.2.2.1]

theorem markedFor_applyCore_seed (doc : Document) (h : Heap) (r : RecordId) (res : Resource) :
    ∀ x, markedFor (applyCore doc (docFuel doc) ⟨h, seedPool h r, []⟩ r res).1.heap x
      = markedFor h x := by
  intro x
  have hp := applyCore_preserves doc h (docFuel doc) ⟨h, seedPool h r, []⟩ r res
    (fun _ => ⟨rfl, rfl, rfl⟩) x
  rw [markedFor, markedFor, hp.2.1, hp.2.2]

theorem prune_empty_slot (h : Heap) (r0 r : RecordId) (n : String) (scope : Directive)
    (hag : aget n (hGet h r).rels = some (.many [])) :
    aget n (hGet (prune h r0 scope) r).rels = some (.many []) := by
  rw [prune]
  refine pruneDepth_inv (fun h2 => aget n (hGet h2 r).rels = some (.many []))
    ?_ ?_ _ h r0 scope hag
  · intro h2 r2 n2 ms2 hp hag2
    by_cases heq : r2 = r ∧ n2 = n
    · obtain ⟨hr2, hn2⟩ := heq
      subst hr2
      subst hn2
      rw [hp] at hag2
      have hms : ms2 = [] := by
        injection hag2 with ha
        injection ha with hb
        exact hb.symm
      subst hms
      rw [hGet_writeRelH_self]
      show aget n2 (aset n2 (RelValue.many []) (hGet h2 r2).rels) = some (RelValue.many [])
      rw [aget_aset_self]
    · rw [aget_rels_writeRelH_of_ne h2 _ heq]
      exact hp
  · intro h2 r2 n2 m hp hag2 _
    by_cases heq : r2 = r ∧ n2 = n
    · obtain ⟨hr2, hn2⟩ := heq
      subst hr2
      subst hn2
      rw [hp] at hag2
      exact absurd hag2 (by simp)
    · rw [aget_rels_writeRelH_of_ne h2 _ heq]
      exact hp

/-! ## Prune staging invariants (C2 groundwork) -/

theorem mentionsName_node (es : List (String × Directive)) (n : String) :
    mentionsName (.node es) n = mentionsEntries es n := rfl

theorem mentionsEntries_cons (k : String) (nested : Directive)
    (rest : List (String × Directive)) (n : String) :
    mentionsEntries ((k, nested) :: rest) n
      = (decide (k = n) || mentionsName nested n || mentionsEntries rest n) := rfl

theorem pruneMembers_inv (recFn : Heap → RecordId → Directive → Heap) (P : Heap → Prop)
    (hrec : ∀ (h : Heap) (m : RecordId) (nested : Directive), P h → P (recFn h m nested)) :
    ∀ (ms : List RecordId) (h : Heap) (nested : Directive), P h →
      P (pruneMembers recFn h ms nested) := by
  intro ms
  induction ms with
  | nil =>
    intro h nested hp
    exact hp
  | cons m rest ih =>
    intro h nested hp
    rw [pruneMembers_cons]
    exact ih _ nested (hrec h m nested hp)

theorem pruneEntry_inv (recFn : Heap → RecordId → Directive → Heap) (P : Heap → Prop)
    (hwMany : ∀ (h : Heap) (r : RecordId) (n : String) (ms : List RecordId), P h →
      aget n (hGet h r).rels = some (.many ms) →
      P (writeRelH h r n (.many (ms.filter (fun m => !(markedFor h m))))))
    (hwOne : ∀ (h : Heap) (r : RecordId) (n : String) (m : RecordId), P h →
      aget n (hGet h r).rels = some (.one (some m)) → markedFor h m = true →
      P (writeRelH h r n (.one none)))
    (hrec : ∀ (h : Heap) (m : RecordId) (nested : Directive), P h → P (recFn h m nested))
    (h : Heap) (r : RecordId) (n : String) (nested : Directive) (hp : P h) :
    P (pruneEntry recFn h r n nested) := by
  rw [pruneEntry]
  split
  next ms hag => exact pruneMembers_inv recFn P hrec _ _ nested (hwMany h r n ms hp hag)
  next m hag =>
    split
    next hmm => exact hwOne h r n m hp hag hmm
    next hmm => exact hrec h m nested hp
  all_goals exact hp

theorem pruneEntries_inv (recFn : Heap → RecordId → Directive → Heap) (P : Heap → Prop)
    (hwMany : ∀ (h : Heap) (r : RecordId) (n : String) (ms : List RecordId), P h →
      aget n (hGet h r).rels = some (.many ms) →
      P (writeRelH h r n (.many (ms.filter (fun m => !(markedFor h m))))))
    (hwOne : ∀ (h : Heap) (r : RecordId) (n : String) (m : RecordId), P h →
      aget n (hGet h r).rels = some (.one (some m)) → markedFor h m = true →
      P (writeRelH h r n (.one none)))
    (hrec : ∀ (h : Heap) (m : RecordId) (nested : Directive), P h → P (recFn h m nested)) :
    ∀ (es : List (String × Directive)) (h : Heap) (r : RecordId), P h →
      P (pruneEntries recFn h r es) := by
  intro es
  induction es with
  | nil =>
    intro h r hp
    exact hp
  | cons p rest ih =>
    intro h r hp
    obtain ⟨n, nested⟩ := p
    rw [pruneEntries_cons]
    exact ih _ r (pruneEntry_inv recFn P hwMany hwOne hrec h r n nested hp)

theorem pruneEntry_one_none (recFn : Heap → RecordId → Directive → Heap) (h : Heap)
    (r : RecordId) (n : String) (nested : Directive)
    (hag : aget n (hGet h r).rels = some (.one none)) :
    pruneEntry recFn h r n nested = h := by
  rw [pruneEntry, hag]

theorem prune_stage_many_hwMany (h₁ : Heap) (r : RecordId) (n : String)
    (kept : List RecordId) :
    ∀ (h : Heap) (r2 : RecordId) (n2 : String) (ms2 : List RecordId),
      ((∃ ms', aget n (hGet h r).rels = some (.many ms') ∧
          ms'.filter (fun m => !(markedFor h₁ m)) = kept) ∧
        ∀ x, markedFor h x = markedFor h₁ x) →
      aget n2 (hGet h r2).rels = some (.many ms2) →
      ((∃ ms', aget n (hGet (writeRelH h r2 n2
            (.many (ms2.filter (fun m => !(markedFor h m))))) r).rels = some (.many ms') ∧
          ms'.filter (fun m => !(markedFor h₁ m)) = kept) ∧
        ∀ x, markedFor (writeRelH h r2 n2
          (.many (ms2.filter (fun m => !(markedFor h m))))) x = markedFor h₁ x) := by
  intro h r2 n2 ms2 hp hag
  obtain ⟨⟨ms', hslot, hfil⟩, hmk⟩ := hp
  refine ⟨?_, fun x => by rw [markedFor_writeRelH]; exact hmk x⟩
  by_cases heq : r2 = r ∧ n2 = n
  · obtain ⟨hr2, hn2⟩ := heq
    subst hr2
    subst hn2
    rw [hslot] at hag
    have hms : ms' = ms2 := by
      injection hag with ha
      injection ha with hb
    refine ⟨ms2.filter (fun m => !(markedFor h m)), ?_, ?_⟩
    · rw [hGet_writeRelH_self]
      show aget n2 (aset n2 (RelValue.many (ms2.filter (fun m => !(markedFor h m))))
        (hGet h r2).rels) = _
      rw [aget_aset_self]
    · have hfc : ms2.filter (fun m => !(markedFor h m))
          = ms2.filter (fun m => !(markedFor h₁ m)) :=
        List.filter_congr (fun m _ => by rw [hmk m])
      rw [hfc]
      have hid : (ms2.filter (fun m => !(markedFor h₁ m))).filter
          (fun m => !(markedFor h₁ m)) = ms2.filter (fun m => !(markedFor h₁ m)) :=
        List.filter_eq_self.mpr (fun a ha => by exact (List.mem_filter.mp ha).2)
      rw [hid, ← hms]
      exact hfil
  · refine ⟨ms', ?_, hfil⟩
    rw [aget_rels_writeRelH_of_ne h _ heq]
    exact hslot

theorem prune_stage_many_hwOne (h₁ : Heap) (r : RecordId) (n : String)
    (kept : List RecordId) :
    ∀ (h : Heap) (r2 : RecordId) (n2 : String) (m : RecordId),
      ((∃ ms', aget n (hGet h r).rels = some (.many ms') ∧
          ms'.filter (fun m => !(markedFor h₁ m)) = kept) ∧
        ∀ x, markedFor h x = markedFor h₁ x) →
      aget n2 (hGet h r2).rels = some (.one (some m)) → markedFor h m = true →
      ((∃ ms', aget n (hGet (writeRelH h r2 n2 (.one none)) r).rels = some (.many ms') ∧
          ms'.filter (fun m => !(markedFor h₁ m)) = kept) ∧
        ∀ x, markedFor (writeRelH h r2 n2 (.one none)) x = markedFor h₁ x) := by
  intro h r2 n2 m hp hag _
  obtain ⟨⟨ms', hslot, hfil⟩, hmk⟩ := hp
  refine ⟨?_, fun x => by rw [markedFor_writeRelH]; exact hmk x⟩
  by_cases heq : r2 = r ∧ n2 = n
  · obtain ⟨hr2, hn2⟩ := heq
    subst hr2
    subst hn2
    rw [hslot] at hag
    exact absurd hag (by simp)
  · refine ⟨ms', ?_, hfil⟩
    rw [aget_rels_writeRelH_of_ne h _ heq]
    exact hslot

theorem prune_hold_many_hwMany (h₁ : Heap) (r : RecordId) (n : String)
    (kept : List RecordId) (hkept : kept.filter (fun m => !(markedFor h₁ m)) = kept) :
    ∀ (h : Heap) (r2 : RecordId) (n2 : String) (ms2 : List RecordId),
      (aget n (hGet h r).rels = some (.many kept) ∧
        ∀ x, markedFor h x = markedFor h₁ x) →
      aget n2 (hGet h r2).rels = some (.many ms2) →
      (aget n (hGet (writeRelH h r2 n2
          (.many (ms2.filter (fun m => !(markedFor h m))))) r).rels = some (.many kept) ∧
        ∀ x, markedFor (writeRelH h r2 n2
          (.many (ms2.filter (fun m => !(markedFor h m))))) x = markedFor h₁ x) := by
  intro h r2 n2 ms2 hp hag
  obtain ⟨hslot, hmk⟩ := hp
  refine ⟨?_, fun x => by rw [markedFor_writeRelH]; exact hmk x⟩
  by_cases heq : r2 = r ∧ n2 = n
  · obtain ⟨hr2, hn2⟩ := heq
    subst hr2
    subst hn2
    rw [hslot] at hag
    have hms : kept = ms2 := by
      injection hag with ha
      injection ha with hb
    rw [hGet_writeRelH_self]
    show aget n2 (aset n2 (RelValue.many (ms2.filter (fun m => !(markedFor h m))))
      (hGet h r2).rels) = _
    rw [aget_aset_self]
    have hfc : ms2.filter (fun m => !(markedFor h m))
        = ms2.filter (fun m => !(markedFor h₁ m)) :=
      List.filter_congr (fun m _ => by rw [hmk m])
    rw [hfc, ← hms, hkept]
  · rw [aget_rels_writeRelH_of_ne h _ heq]
    exact hslot

theorem prune_hold_many_hwOne (h₁ : Heap) (r : RecordId) (n : String)
    (kept : List RecordId) :
    ∀ (h : Heap) (r2 : RecordId) (n2 : String) (m : RecordId),
      (aget n (hGet h r).rels = some (.many kept) ∧
        ∀ x, markedFor h x = markedFor h₁ x) →
      aget n2 (hGet h r2).rels = some (.one (some m)) → markedFor h m = true →
      (aget n (hGet (writeRelH h r2 n2 (.one none)) r).rels = some (.many kept) ∧
        ∀ x, markedFor (writeRelH h r2 n2 (.one none)) x = markedFor h₁ x) := by
  intro h r2 n2 m hp hag _
  obtain ⟨hslot, hmk⟩ := hp
  refine ⟨?_, fun x => by rw [markedFor_writeRelH]; exact hmk x⟩
  by_cases heq : r2 = r ∧ n2 = n
  · obtain ⟨hr2, hn2⟩ := heq
    subst hr2
    subst hn2
    rw [hslot] at hag
    exact absurd hag (by simp)
  · rw [aget_rels_writeRelH_of_ne h _ heq]
    exact hslot

theorem prune_stage_one_hwMany (h₁ : Heap) (r : RecordId) (n : String) (m₀ : RecordId) :
    ∀ (h : Heap) (r2 : RecordId) (n2 : String) (ms2 : List RecordId),
      ((aget n (hGet h r).rels = some (.one (some m₀)) ∨
          aget n (hGet h r).rels = some (.one none)) ∧
        ∀ x, markedFor h x = markedFor h₁ x) →
      aget n2 (hGet h r2).rels = some (.many ms2) →
      ((aget n (hGet (writeRelH h r2 n2
            (.many (ms2.filter (fun m => !(markedFor h m))))) r).rels
            = some (.one (some m₀)) ∨
          aget n (hGet (writeRelH h r2 n2
            (.many (ms2.filter (fun m => !(markedFor h m))))) r).rels = some (.one none)) ∧
        ∀ x, markedFor (writeRelH h r2 n2
          (.many (ms2.filter (fun m => !(markedFor h m))))) x = markedFor h₁ x) := by
  intro h r2 n2 ms2 hp hag
  obtain ⟨hdis, hmk⟩ := hp
  refine ⟨?_, fun x => by rw [markedFor_writeRelH]; exact hmk x⟩
  by_cases heq : r2 = r ∧ n2 = n
  · obtain ⟨hr2, hn2⟩ := heq
    subst hr2
    subst hn2
    rcases hdis with h1 | h1
    · rw [h1] at hag
      exact absurd hag (by simp)
    · rw [h1] at hag
      exact absurd hag (by simp)
  · rw [aget_rels_writeRelH_of_ne h _ heq]
    exact hdis

theorem prune_stage_one_hwOne (h₁ : Heap) (r : RecordId) (n : String) (m₀ : RecordId) :
    ∀ (h : Heap) (r2 : RecordId) (n2 : String) (m : RecordId),
      ((aget n (hGet h r).rels = some (.one (some m₀)) ∨
          aget n (hGet h r).rels = some (.one none)) ∧
        ∀ x, markedFor h x = markedFor h₁ x) →
      aget n2 (hGet h r2).rels = some (.one (some m)) → markedFor h m = true →
      ((aget n (hGet (writeRelH h r2 n2 (.one none)) r).rels = some (.one (some m₀)) ∨
          aget n (hGet (writeRelH h r2 n2 (.one none)) r).rels = some (.one none)) ∧
        ∀ x, markedFor (writeRelH h r2 n2 (.one none)) x = markedFor h₁ x) := by
  intro h r2 n2 m hp hag _
  obtain ⟨hdis, hmk⟩ := hp
  refine ⟨?_, fun x => by rw [markedFor_writeRelH]; exact hmk x⟩
  by_cases heq : r2 = r ∧ n2 = n
  · obtain ⟨hr2, hn2⟩ := heq
    subst hr2
    subst hn2
    refine Or.inr ?_
    rw [hGet_writeRelH_self]
    show aget n2 (aset n2 (RelValue.one none) (hGet h r2).rels) = _
    rw [aget_aset_self]
  · rw [aget_rels_writeRelH_of_ne h _ heq]
    exact hdis

theorem prune_hold_one_hwMany (h₁ : Heap) (r : RecordId) (n : String) :
    ∀ (h : Heap) (r2 : RecordId) (n2 : String) (ms2 : List RecordId),
      (aget n (hGet h r).rels = some (.one none) ∧
        ∀ x, markedFor h x = markedFor h₁ x) →
      aget n2 (hGet h r2).rels = some (.many ms2) →
      (aget n (hGet (writeRelH h r2 n2
          (.many (ms2.filter (fun m => !(markedFor h m))))) r).rels = some (.one none) ∧
        ∀ x, markedFor (writeRelH h r2 n2
          (.many (ms2.filter (fun m => !(markedFor h m))))) x = markedFor h₁ x) := by
  intro h r2 n2 ms2 hp hag
  obtain ⟨hslot, hmk⟩ := hp
  refine ⟨?_, fun x => by rw [markedFor_writeRelH]; exact hmk x⟩
  by_cases heq : r2 = r ∧ n2 = n
  · obtain ⟨hr2, hn2⟩ := heq
    subst hr2
    subst hn2
    rw [hslot] at hag
    exact absurd hag (by simp)
  · rw [aget_rels_writeRelH_of_ne h _ heq]
    exact hslot

theorem prune_hold_one_hwOne (h₁ : Heap) (r : RecordId) (n : String) :
    ∀ (h : Heap) (r2 : RecordId) (n2 : String) (m : RecordId),
      (aget n (hGet h r).rels = some (.one none) ∧
        ∀ x, markedFor h x = markedFor h₁ x) →
      aget n2 (hGet h r2).rels = some (.one (some m)) → markedFor h m = true →
      (aget n (hGet (writeRelH h r2 n2 (.one none)) r).rels = some (.one none) ∧
        ∀ x, markedFor (writeRelH h r2 n2 (.one none)) x = markedFor h₁ x) := by
  intro h r2 n2 m hp hag _
  obtain ⟨hslot, hmk⟩ := hp
  refine ⟨?_, fun x => by rw [markedFor_writeRelH]; exact hmk x⟩
  by_cases heq : r2 = r ∧ n2 = n
  · obtain ⟨hr2, hn2⟩ := heq
    subst hr2
    subst hn2
    rw [hslot] at hag
    exact absurd hag (by simp)
  · rw [aget_rels_writeRelH_of_ne h _ heq]
    exact hslot

theorem pruneEntries_key_many (h₁ : Heap) (r : RecordId) (n : String) (kept : List RecordId)
    (hkept : kept.filter (fun m => !(markedFor h₁ m)) = kept) (d : Nat) :
    ∀ (es : List (String × Directive)) (h : Heap), n ∈ es.map Prod.fst →
      ((∃ ms', aget n (hGet h r).rels = some (.many ms') ∧
          ms'.filter (fun m => !(markedFor h₁ m)) = kept) ∧
        ∀ x, markedFor h x = markedFor h₁ x) →
      aget n (hGet (pruneEntries (pruneDepth d) h r es) r).rels = some (.many kept) ∧
        ∀ x, markedFor (pruneEntries (pruneDepth d) h r es) x = markedFor h₁ x := by
  intro es
  induction es with
  | nil =>
    intro h hmem hp
    simp at hmem
  | cons p rest ih =>
    intro h hmem hp
    obtain ⟨k, nested⟩ := p
    rw [pruneEntries_cons]
    by_cases hk : k = n
    · subst hk
      obtain ⟨⟨ms', hslot, hfil⟩, hmk⟩ := hp
      have hq : aget k (hGet (pruneEntry (pruneDepth d) h r k nested) r).rels
            = some (.many kept) ∧
          ∀ x, markedFor (pruneEntry (pruneDepth d) h r k nested) x = markedFor h₁ x := by
        rw [pruneEntry_many (pruneDepth d) h r k nested ms' hslot]
        refine pruneMembers_inv (pruneDepth d)
          (fun h2 => aget k (hGet h2 r).rels = some (.many kept) ∧
            ∀ x, markedFor h2 x = markedFor h₁ x)
          (fun h2 m nd hp2 => pruneDepth_inv
            (fun h3 => aget k (hGet h3 r).rels = some (.many kept) ∧
              ∀ x, markedFor h3 x = markedFor h₁ x)
            (prune_hold_many_hwMany h₁ r k kept hkept)
            (prune_hold_many_hwOne h₁ r k kept) d h2 m nd hp2)
          _ _ nested ⟨?_, ?_⟩
        · rw [hGet_writeRelH_self]
          show aget k (aset k (RelValue.many (ms'.filter (fun m => !(markedFor h m))))
            (hGet h r).rels) = _
          rw [aget_aset_self]
          have hfc : ms'.filter (fun m => !(markedFor h m))
              = ms'.filter (fun m => !(markedFor h₁ m)) :=
            List.filter_congr (fun m _ => by rw [hmk m])
          rw [hfc, hfil]
        · intro x
          rw [markedFor_writeRelH]
          exact hmk x
      exact pruneEntries_inv (pruneDepth d)
        (fun h2 => aget k (hGet h2 r).rels = some (.many kept) ∧
          ∀ x, markedFor h2 x = markedFor h₁ x)
        (prune_hold_many_hwMany h₁ r k kept hkept)
        (prune_hold_many_hwOne h₁ r k kept)
        (fun h2 m nd hp2 => pruneDepth_inv
          (fun h3 => aget k (hGet h3 r).rels = some (.many kept) ∧
            ∀ x, markedFor h3 x = markedFor h₁ x)
          (prune_hold_many_hwMany h₁ r k kept hkept)
          (prune_hold_many_hwOne h₁ r k kept) d h2 m nd hp2)
        rest _ r hq
    · have hmem2 : n ∈ rest.map Prod.fst := by
        rw [List.map_cons] at hmem
        rcases List.mem_cons.mp hmem with h1 | h2
        · exact absurd h1.symm hk
        · exact h2
      exact ih _ hmem2 (pruneEntry_inv (pruneDepth d)
        (fun h2 => (∃ ms', aget n (hGet h2 r).rels = some (.many ms') ∧
            ms'.filter (fun m => !(markedFor h₁ m)) = kept) ∧
          ∀ x, markedFor h2 x = markedFor h₁ x)
        (prune_stage_many_hwMany h₁ r n kept)
        (prune_stage_many_hwOne h₁ r n kept)
        (fun h2 m nd hp2 => pruneDepth_inv
          (fun h3 => (∃ ms', aget n (hGet h3 r).rels = some (.many ms') ∧
              ms'.filter (fun m => !(markedFor h₁ m)) = kept) ∧
            ∀ x, markedFor h3 x = markedFor h₁ x)
          (prune_stage_many_hwMany h₁ r n kept)
          (prune_stage_many_hwOne h₁ r n kept) d h2 m nd hp2)
        h r k nested hp)

theorem pruneEntries_key_one (h₁ : Heap) (r : RecordId) (n : String) (m₀ : RecordId)
    (hm₀ : markedFor h₁ m₀ = true) (d : Nat) :
    ∀ (es : List (String × Directive)) (h : Heap), n ∈ es.map Prod.fst →
      ((aget n (hGet h r).rels = some (.one (some m₀)) ∨
          aget n (hGet h r).rels = some (.one none)) ∧
        ∀ x, markedFor h x = markedFor h₁ x) →
      aget n (hGet (pruneEntries (pruneDepth d) h r es) r).rels = some (.one none) ∧
        ∀ x, markedFor (pruneEntries (pruneDepth d) h r es) x = markedFor h₁ x := by
  intro es
  induction es with
  | nil =>
    intro h hmem hp
    simp at hmem
  | cons p rest ih =>
    intro h hmem hp
    obtain ⟨k, nested⟩ := p
    rw [pruneEntries_cons]
    by_cases hk : k = n
    · subst hk
      obtain ⟨hdis, hmk⟩ := hp
      have hq : aget k (hGet (pruneEntry (pruneDepth d) h r k nested) r).rels
            = some (.one none) ∧
          ∀ x, markedFor (pruneEntry (pruneDepth d) h r k nested) x = markedFor h₁ x := by
        rcases hdis with h1 | h1
        · rw [pruneEntry_one_marked (pruneDepth d) h r k nested m₀ h1
            (by rw [hmk m₀]; exact hm₀)]
          refine ⟨?_, fun x => by rw [markedFor_writeRelH]; exact hmk x⟩
          rw [hGet_writeRelH_self]
          show aget k (aset k (RelValue.one none) (hGet h r).rels) = _
          rw [aget_aset_self]
        · rw [pruneEntry_one_none (pruneDepth d) h r k nested h1]
          exact ⟨h1, hmk⟩
      exact pruneEntries_inv (pruneDepth d)
        (fun h2 => aget k (hGet h2 r).rels = some (.one none) ∧
          ∀ x, markedFor h2 x = markedFor h₁ x)
        (prune_hold_one_hwMany h₁ r k) (prune_hold_one_hwOne h₁ r k)
        (fun h2 m nd hp2 => pruneDepth_inv
          (fun h3 => aget k (hGet h3 r).rels = some (.one none) ∧
            ∀ x, markedFor h3 x = markedFor h₁ x)
          (prune_hold_one_hwMany h₁ r k) (prune_hold_one_hwOne h₁ r k) d h2 m nd hp2)
        rest _ r hq
    · have hmem2 : n ∈ rest.map Prod.fst := by
        rw [List.map_cons] at hmem
        rcases List.mem_cons.mp hmem with h1 | h2
        · exact absurd h1.symm hk
        · exact h2
      exact ih _ hmem2 (pruneEntry_inv (pruneDepth d)
        (fun h2 => (aget n (hGet h2 r).rels = some (.one (some m₀)) ∨
            aget n (hGet h2 r).rels = some (.one none)) ∧
          ∀ x, markedFor h2 x = markedFor h₁ x)
        (prune_stage_one_hwMany h₁ r n m₀) (prune_stage_one_hwOne h₁ r n m₀)
        (fun h2 m nd hp2 => pruneDepth_inv
          (fun h3 => (aget n (hGet h3 r).rels = some (.one (some m₀)) ∨
              aget n (hGet h3 r).rels = some (.one none)) ∧
            ∀ x, markedFor h3 x = markedFor h₁ x)
          (prune_stage_one_hwMany h₁ r n m₀) (prune_stage_one_hwOne h₁ r n m₀) d h2 m nd hp2)
        h r k nested hp)

theorem prune_key_many (h₁ : Heap) (r : RecordId) (n : String)
    (es : List (String × Directive)) (ms : List RecordId)
    (hmem : n ∈ es.map Prod.fst)
    (hag : aget n (hGet h₁ r).rels = some (.many ms)) :
    aget n (hGet (prune h₁ r (.node es)) r).rels
      = some (.many (ms.filter (fun m => !(markedFor h₁ m)))) := by
  rw [prune, show dsize (.node es) = dsizeEntries es + 1 from rfl, pruneDepth_succ]
  exact (pruneEntries_key_many h₁ r n (ms.filter (fun m => !(markedFor h₁ m)))
    (List.filter_eq_self.mpr (fun a ha => by exact (List.mem_filter.mp ha).2)) (dsizeEntries es) es h₁ hmem
    ⟨⟨ms, hag, rfl⟩, fun x => rfl⟩).1

theorem prune_key_one (h₁ : Heap) (r : RecordId) (n : String)
    (es : List (String × Directive)) (m₀ : RecordId)
    (hmem : n ∈ es.map Prod.fst)
    (hag : aget n (hGet h₁ r).rels = some (.one (some m₀)))
    (hm₀ : markedFor h₁ m₀ = true) :
    aget n (hGet (prune h₁ r (.node es)) r).rels = some (.one none) := by
  rw [prune, show dsize (.node es) = dsizeEntries es + 1 from rfl, pruneDepth_succ]
  exact (pruneEntries_key_one h₁ r n m₀ hm₀ (dsizeEntries es) es h₁ hmem
    ⟨Or.inl hag, fun x => rfl⟩).1

theorem pruneDepth_unmentioned (n : String) :
    ∀ (d : Nat) (h : Heap) (r : RecordId) (scope : Directive), mentionsName scope n = false →
      ∀ x, aget n (hGet (pruneDepth d h r scope) x).rels = aget n (hGet h x).rels := by
  intro d
  induction d with
  | zero =>
    intro h r scope hment x
    rfl
  | succ d ih =>
    have hMembers : ∀ (ms : List RecordId) (nested : Directive) (h : Heap),
        mentionsName nested n = false →
        ∀ x, aget n (hGet (pruneMembers (pruneDepth d) h ms nested) x).rels
          = aget n (hGet h x).rels := by
      intro ms
      induction ms with
      | nil =>
        intro nested h hment x
        rfl
      | cons m rest ihm =>
        intro nested h hment x
        rw [pruneMembers_cons, ihm nested _ hment x, ih h m nested hment x]
    have hEntry : ∀ (h : Heap) (r : RecordId) (k : String) (nested : Directive),
        k ≠ n → mentionsName nested n = false →
        ∀ x, aget n (hGet (pruneEntry (pruneDepth d) h r k nested) x).rels
          = aget n (hGet h x).rels := by
      intro h r k nested hk hment x
      rw [pruneEntry]
      split
      next ms hag =>
        rw [hMembers _ nested _ hment x]
        exact aget_rels_writeRelH_ne_key hk h r _ x
      next m hag =>
        split
        next hmm => exact aget_rels_writeRelH_ne_key hk h r _ x
        next hmm => exact ih h m nested hment x
      all_goals rfl
    have hEntries : ∀ (es : List (String × Directive)) (h : Heap) (r : RecordId),
        mentionsEntries es n = false →
        ∀ x, aget n (hGet (pruneEntries (pruneDepth d) h r es) x).rels
          = aget n (hGet h x).rels := by
      intro es
      induction es with
      | nil =>
        intro h r hment x
        rfl
      | cons p rest ihe =>
        intro h r hment x
        obtain ⟨k, nested⟩ := p
        rw [mentionsEntries_cons] at hment
        simp only [Bool.or_eq_false_iff, decide_eq_false_iff_not] at hment
        rw [pruneEntries_cons, ihe _ r hment.2 x]
        exact hEntry h r k nested hment.1.1 hment.1.2 x
    intro h r scope hment
    cases scope with
    | node es =>
      intro x
      rw [pruneDepth_succ]
      exact hEntries es h r (by rw [mentionsName_node] at hment; exact hment) x

theorem prune_unmentioned (h : Heap) (r : RecordId) (n : String) (scope : Directive)
    (hment : mentionsName scope n = false) (x : RecordId) :
    aget n (hGet (prune h r scope) x).rels = aget n (hGet h x).rels := by
  rw [prune]
  exact pruneDepth_unmentioned n (dsize scope) h r scope hment x

/-! ## Scope-gated pruning (C2) -/

set_option maxRecDepth 1000000 in
/-- C2 counterexample: removal is not gated on the scope alone.  With the
empty destruction scope — `books` is not a key — the destruction-marked member
of `books` is nevertheless gone after apply, because the document itself
rewrites the collection; so "removed only if the name is keyed in the scope"
fails. -/
theorem prune_not_scope_gated_under_rewrite :
    (hGet markedBookHeap 1).markedForDestruction = true ∧
      aget "books" (hGet markedBookHeap 0).rels = some (RelValue.many [1]) ∧
      aget "books" (hGet (applyOnce markedBookHeap 0 emptyBooksDoc (.node [])).heap 0).rels
        = some (RelValue.many []) := by
  decide

/-- C2 (amended): for documents that leave the relationship untouched (no
wire entry matching the name, supplied record on the heap and pooled only
under the primary's own identity), destroy/disassociate pruning of the
supplied record is scope-gated: when the relationship name is keyed in the
destruction scope — beside arbitrary other entries — a marked to-many member
is removed (filtered out) and a marked to-one target is replaced with null;
and for any scope that does not mention the name at any depth, the slot is
unchanged. -/
theorem prune_scope_gated (h : Heap) (r : RecordId) (doc : Document) (res : Resource)
    (n : String) (hdoc : doc.data? = some res)
    (hndoc : res.relationships.find? (fun p => decide (camelize p.1 = n)) = none)
    (hroot : (aget r h).isSome = true)
    (hpool : ∀ p ∈ seedPool h r, p.2 = r → p.1 = resourceKey res) :
    (∀ (es : List (String × Directive)) (ms : List RecordId), n ∈ es.map Prod.fst →
      aget n (hGet h r).rels = some (.many ms) →
      ∃ st, fromJsonapi h r doc (.node es) = .ok st ∧
        aget n (hGet st.heap r).rels
          = some (.many (ms.filter (fun m => !(markedFor h m))))) ∧
    (∀ (es : List (String × Directive)) (m : RecordId), n ∈ es.map Prod.fst →
      aget n (hGet h r).rels = some (.one (some m)) → markedFor h m = true →
      ∃ st, fromJsonapi h r doc (.node es) = .ok st ∧
        aget n (hGet st.heap r).rels = some (.one none)) ∧
    (∀ (scope : Directive) (rv : RelValue), mentionsName scope n = false →
      aget n (hGet h r).rels = some rv →
      ∃ st, fromJsonapi h r doc scope = .ok st ∧
        aget n (hGet st.heap r).rels = some rv) := by
  have hpre := applyCore_root_slot_skip doc res h r n hndoc hroot hpool
  refine ⟨?_, ?_, ?_⟩
  · intro es ms hmem hag
    refine ⟨_, fromJsonapi_some h r doc (.node es) res hdoc, ?_⟩
    show aget n (hGet (prune
      (applyCore doc (docFuel doc) ⟨h, seedPool h r, []⟩ r res).1.heap r (.node es)) r).rels = _
    rw [prune_key_many _ r n es ms hmem (hpre.trans hag)]
    have hfc : ms.filter (fun m =>
          !(markedFor (applyCore doc (docFuel doc) ⟨h, seedPool h r, []⟩ r res).1.heap m))
        = ms.filter (fun m => !(markedFor h m)) :=
      List.filter_congr (fun m _ => by rw [markedFor_applyCore_seed doc h r res m])
    rw [hfc]
  · intro es m hmem hag hm
    refine ⟨_, fromJsonapi_some h r doc (.node es) res hdoc, ?_⟩
    show aget n (hGet (prune
      (applyCore doc (docFuel doc) ⟨h, seedPool h r, []⟩ r res).1.heap r (.node es)) r).rels = _
    rw [prune_key_one _ r n es m hmem (hpre.trans hag)
      (by rw [markedFor_applyCore_seed doc h r res m]; exact hm)]
  · intro scope rv hment hag
    refine ⟨_, fromJsonapi_some h r doc scope res hdoc, ?_⟩
    show aget n (hGet (prune
      (applyCore doc (docFuel doc) ⟨h, seedPool h r, []⟩ r res).1.heap r scope) r).rels = _
    rw [prune_unmentioned _ r n scope hment r]
    exact hpre.trans hag

/-- Witness for the amended C2 theorem at concrete inputs: a two-entry scope
keying `books` beside `genre` removes the marked member, and a `genre`-only
scope not mentioning `books` leaves the collection unchanged. -/
theorem prune_scope_gated_witness :
    (∃ st, fromJsonapi markedBookHeap 0 bareAuthorDoc
        (.node [("genre", .node []), ("books", .node [])]) = .ok st ∧
      aget "books" (hGet st.heap 0).rels
        = some (RelValue.many ([1].filter (fun m => !(markedFor markedBookHeap m))))) ∧
    (∃ st, fromJsonapi markedBookHeap 0 bareAuthorDoc (.node [("genre", .node [])]) = .ok st ∧
      aget "books" (hGet st.heap 0).rels = some (RelValue.many [1])) :=
  ⟨(prune_scope_gated markedBookHeap 0 bareAuthorDoc _ "books" rfl rfl (by decide)
      (by decide)).1 [("genre", .node []), ("books", .node [])] [1] (by decide) (by decide),
   (prune_scope_gated markedBookHeap 0 bareAuthorDoc _ "books" rfl rfl (by decide)
      (by decide)).2.2 (.node [("genre", .node [])]) (RelValue.many [1]) (by decide)
      (by decide)⟩

/-! ## Schema conformance through the pass (C7 groundwork) -/

theorem wf_hGet {h : Heap} (hw : WfHeap h) (x : RecordId) : WfRecord (hGet h x) := by
  cases hag : aget x h with
  | none =>
    rw [hGet, hag]
    exact ⟨fun k hk => by simp [Record.fresh] at hk, fun k hk => by simp [Record.fresh] at hk⟩
  | some rc =>
    rw [hGet, hag]
    exact hw (x, rc) (aget_mem hag)

theorem WfHeap_hSet {h : Heap} {x : RecordId} {rc : Record} (hw : WfHeap h)
    (hrc : WfRecord rc) : WfHeap (hSet h x rc) := by
  intro p hp
  rcases mem_aset hp with h1 | h2
  · rw [h1]
    exact hrc
  · exact hw p h2

theorem WfRecord_fresh (t : String) : WfRecord (Record.fresh t) :=
  ⟨fun k hk => by simp [Record.fresh] at hk, fun k hk => by simp [Record.fresh] at hk⟩

theorem WfHeap_setPersisted {h : Heap} (hw : WfHeap h) (r : RecordId) (b : Bool) :
    WfHeap (setPersisted h r b) := by
  cases b with
  | true => exact WfHeap_hSet hw (wf_hGet hw r)
  | false => exact WfHeap_hSet hw (wf_hGet hw r)

theorem WfHeap_hydrate {st : DeserState} (hw : WfHeap st.heap) (target : RecordId)
    (res : Resource) : WfHeap (hydrate st target res).heap := by
  refine WfHeap_hSet hw ⟨?_, ?_⟩
  · intro k hk
    have hks := assignAttrs_keys hk
    have hrt := (assignedRecord_fields st.heap target res).1
    rcases hks with h1 | h2
    · have h3 := (wf_hGet hw target).1 k h1
      rw [show (assignAttrs (declaredAttrs (hGet st.heap target).rtype) res.attributes { hGet st.heap target with id := res.id, meta := res.meta }).rtype = (hGet st.heap target).rtype from hrt]
      exact h3
    · rw [show (assignAttrs (declaredAttrs (hGet st.heap target).rtype) res.attributes { hGet st.heap target with id := res.id, meta := res.meta }).rtype = (hGet st.heap target).rtype from hrt]
      exact h2
  · intro k hk
    have hrels := (assignedRecord_fields st.heap target res).2.2.2.1
    have hrt := (assignedRecord_fields st.heap target res).1
    rw [show (assignAttrs (declaredAttrs (hGet st.heap target).rtype) res.attributes { hGet st.heap target with id := res.id, meta := res.meta }).rtype = (hGet st.heap target).rtype from hrt]
    refine (wf_hGet hw target).2 k ?_
    rw [show (assignAttrs (declaredAttrs (hGet st.heap target).rtype) res.attributes { hGet st.heap target with id := res.id, meta := res.meta }).rels = (hGet st.heap target).rels from hrels] at hk
    exact hk

theorem WfHeap_writeRel_declared {st : DeserState} (hw : WfHeap st.heap)
    {target : RecordId} {n : String}
    (hn : n ∈ (declaredRels (hGet st.heap target).rtype).map RelDef.name) (rv : RelValue) :
    WfHeap (writeRel st target n rv).heap := by
  refine WfHeap_hSet hw ⟨?_, ?_⟩
  · intro k hk
    exact (wf_hGet hw target).1 k hk
  · intro k hk
    rcases mem_keys_of_mem_keys_aset hk with h1 | h2
    · rw [h1]
      exact hn
    · exact (wf_hGet hw target).2 k h2

theorem freshState_domrt (h0 : Heap) (st : DeserState) (ri : ResourceIdentifier)
    (hp : DomRt h0 st) : DomRt h0 (freshState st ri) := by
  intro x hx
  rw [freshState]
  dsimp only
  have hxf : freshRid st.heap ≠ x := freshRid_ne_of_isSome (hp x hx).1
  rw [hSet, aget_aset_ne hxf, hGet, aget_aset_ne hxf]
  exact hp x hx

theorem writeRel_domrt (h0 : Heap) (st : DeserState) (target : RecordId) (n : String)
    (rv : RelValue) (hp : DomRt h0 st) : DomRt h0 (writeRel st target n rv) := by
  intro x hx
  rw [writeRel]
  dsimp only
  by_cases hxt : x = target
  · subst hxt
    refine ⟨aget_writeRelH_self st.heap x n rv, ?_⟩
    rw [hGet_writeRelH_self]
    exact (hp x hx).2
  · rw [hGet_writeRelH_ne st.heap hxt, aget_writeRelH_ne st.heap hxt]
    exact hp x hx

theorem DomRt_refl (st : DeserState) : DomRt st.heap st :=
  fun _ hx => ⟨hx, rfl⟩

theorem attachOne_domrt (doc : Document) (h0 : Heap) (fuel : Nat) (st : DeserState)
    (ri : ResourceIdentifier) (hp : DomRt h0 st) :
    DomRt h0 (attachOne doc (fun s t r2 => applyCore doc fuel s t r2) st ri).1 :=
  attachOne_inv doc (DomRt h0) _
    (fun s t r2 hs => applyCore_rtype_stable doc h0 fuel s t r2 hs)
    (fun s ri2 _ hs => freshState_domrt h0 s ri2 hs) st ri hp

theorem attachList_domrt (doc : Document) (h0 : Heap) (fuel : Nat)
    (ris : List ResourceIdentifier) (st : DeserState) (hp : DomRt h0 st) :
    DomRt h0 (attachList doc (fun s t r2 => applyCore doc fuel s t r2) st ris).1 :=
  attachList_inv doc (DomRt h0) _
    (fun s t r2 hs => applyCore_rtype_stable doc h0 fuel s t r2 hs)
    (fun s ri2 _ hs => freshState_domrt h0 s ri2 hs) ris st hp

theorem processOneRel_domrt (doc : Document) (h0 : Heap) (fuel : Nat) (st : DeserState)
    (target : RecordId) (rd : RelDef) (res : Resource) (hp : DomRt h0 st) :
    DomRt h0 (processOneRel doc (fun s t r2 => applyCore doc fuel s t r2) st target rd res) :=
  processOneRel_inv doc (DomRt h0) _
    (fun s t r2 hs => applyCore_rtype_stable doc h0 fuel s t r2 hs)
    (fun s ri2 _ hs => freshState_domrt h0 s ri2 hs)
    (fun s t2 n rv hs => writeRel_domrt h0 s t2 n rv hs) st target rd res hp

theorem declared_name_isSome {st : DeserState} {target : RecordId} {n : String}
    (hname : n ∈ (declaredRels (hGet st.heap target).rtype).map RelDef.name) :
    (aget target st.heap).isSome := by
  cases hag : aget target st.heap with
  | some rc => simp
  | none =>
    exfalso
    rw [hGet, hag] at hname
    have hempty : declaredRels ((none : Option Record).getD (Record.fresh "")).rtype = [] := rfl
    rw [hempty] at hname
    simp at hname

theorem applyCore_wf (doc : Document) : ∀ (fuel : Nat) (st : DeserState) (target : RecordId)
    (res : Resource), WfHeap st.heap → WfHeap (applyCore doc fuel st target res).1.heap := by
  intro fuel
  induction fuel with
  | zero =>
    intro st target res hw
    cases hproc : aget (resourceKey res) st.processed with
    | some r =>
      rw [applyCore_hit doc 0 st target r res hproc]
      exact hw
    | none =>
      rw [applyCore_zero_miss doc st target res hproc]
      exact hw
  | succ fuel ih =>
    have hAttach : ∀ (st : DeserState) (ri : ResourceIdentifier), WfHeap st.heap →
        WfHeap (attachOne doc (fun s t r2 => applyCore doc fuel s t r2) st ri).1.heap :=
      fun st ri hw => attachOne_inv doc (fun s => WfHeap s.heap) _
        (fun s t r2 hs => ih s t r2 hs)
        (fun s ri2 _ hs => WfHeap_hSet hs (WfRecord_fresh ri2.rtype)) st ri hw
    have hAttachL : ∀ (ris : List ResourceIdentifier) (st : DeserState), WfHeap st.heap →
        WfHeap (attachList doc (fun s t r2 => applyCore doc fuel s t r2) st ris).1.heap :=
      fun ris st hw => attachList_inv doc (fun s => WfHeap s.heap) _
        (fun s t r2 hs => ih s t r2 hs)
        (fun s ri2 _ hs => WfHeap_hSet hs (WfRecord_fresh ri2.rtype)) ris st hw
    have hRelData : ∀ (st : DeserState) (target : RecordId) (rd : RelDef)
        (dat? : Option RelData), WfHeap st.heap →
        rd.name ∈ (declaredRels (hGet st.heap target).rtype).map RelDef.name →
        WfHeap (processRelData doc (fun s t r2 => applyCore doc fuel s t r2) st target rd dat?).heap := by
      intro st target rd dat? hw hname
      cases dat? with
      | none =>
        rw [show processRelData doc (fun s t r2 => applyCore doc fuel s t r2) st target rd none =
          (match rd.card with
            | .toMany => writeRel st target rd.name (.many [])
            | .toOne => st) from rfl]
        split
        · exact WfHeap_writeRel_declared hw hname _
        · exact hw
      | some rdta =>
        cases rdta with
        | one ri? =>
          cases ri? with
          | none => exact WfHeap_writeRel_declared hw hname _
          | some ri =>
            rw [show processRelData doc (fun s t r2 => applyCore doc fuel s t r2) st target rd
              (some (.one (some ri))) =
              (match attachOne doc (fun s t r2 => applyCore doc fuel s t r2) st ri with
                | (st2, some m) => writeRel st2 target rd.name (.one (some m))
                | (st2, none) => writeRel st2 target rd.name (.one none)) from rfl]
            have hst2 := hAttach st ri hw
            have hrt := attachOne_domrt doc st.heap fuel st ri (DomRt_refl st)
            split
            next st2 m heq =>
              rw [heq] at hst2 hrt
              refine WfHeap_writeRel_declared hst2 ?_ _
              rw [(hrt target (declared_name_isSome hname)).2]
              exact hname
            next st2 heq =>
              rw [heq] at hst2 hrt
              refine WfHeap_writeRel_declared hst2 ?_ _
              rw [(hrt target (declared_name_isSome hname)).2]
              exact hname
        | many ris =>
          rw [show processRelData doc (fun s t r2 => applyCore doc fuel s t r2) st target rd
            (some (.many ris)) =
            (match attachList doc (fun s t r2 => applyCore doc fuel s t r2) st ris with
              | (st2, ms) => writeRel st2 target rd.name (.many ms)) from rfl]
          have hst2 := hAttachL ris st hw
          have hrt := attachList_domrt doc st.heap fuel ris st (DomRt_refl st)
          split
          next st2 ms heq =>
            rw [heq] at hst2 hrt
            refine WfHeap_writeRel_declared hst2 ?_ _
            rw [(hrt target (declared_name_isSome hname)).2]
            exact hname
    have hOneRel : ∀ (st : DeserState) (target : RecordId) (rd : RelDef) (res2 : Resource),
        WfHeap st.heap →
        rd.name ∈ (declaredRels (hGet st.heap target).rtype).map RelDef.name →
        WfHeap (processOneRel doc (fun s t r2 => applyCore doc fuel s t r2) st target rd res2).heap := by
      intro st target rd res2 hw hname
      rw [processOneRel]
      split
      · exact hw
      · exact hRelData st target rd _ hw hname
    have hRelDefs : ∀ (rds : List RelDef) (st : DeserState) (target : RecordId)
        (res2 : Resource), WfHeap st.heap →
        (∀ rd ∈ rds, rd.name ∈ (declaredRels (hGet st.heap target).rtype).map RelDef.name) →
        WfHeap (processRelDefs doc (fun s t r2 => applyCore doc fuel s t r2) st target rds res2).heap := by
      intro rds
      induction rds with
      | nil =>
        intro st target res2 hw _
        exact hw
      | cons rd rest ihr =>
        intro st target res2 hw hnames
        rw [processRelDefs_cons]
        have hname := hnames rd (List.mem_cons_self _ _)
        have hw2 := hOneRel st target rd res2 hw hname
        have hrt := processOneRel_domrt doc st.heap fuel st target rd res2 (DomRt_refl st)
        have hsome := declared_name_isSome hname
        refine ihr _ target res2 hw2 ?_
        intro rd2 hrd2
        rw [(hrt target hsome).2]
        exact hnames rd2 (List.mem_cons_of_mem _ hrd2)
    intro st target res hw
    cases hproc : aget (resourceKey res) st.processed with
    | some r =>
      rw [applyCore_hit doc (fuel + 1) st target r res hproc]
      exact hw
    | none =>
      rw [applyCore_succ_miss doc fuel st target res hproc]
      show WfHeap (setPersisted (applyBody doc fuel st target res).heap target true)
      refine WfHeap_setPersisted ?_ target true
      rw [applyBody]
      have hw1 : WfHeap (hydrate (registerProcessed st res target) target res).heap :=
        WfHeap_hydrate hw target res
      refine hRelDefs _ _ target res hw1 ?_
      intro rd hrd
      have hrtH : (hGet (hydrate (registerProcessed st res target) target res).heap target).rtype
          = (hGet st.heap target).rtype := by
        rw [hydrate]
        dsimp only
        rw [hGet_hSet_self]
        exact (assignedRecord_fields (registerProcessed st res target).heap target res).1
      rw [hrtH]
      exact List.mem_map_of_mem RelDef.name hrd

theorem pruneDepth_wf : ∀ (d : Nat) (h : Heap) (r : RecordId) (scope : Directive),
    WfHeap h → WfHeap (pruneDepth d h r scope) := by
  refine pruneDepth_inv WfHeap ?_ ?_
  · intro h r n ms hw hag
    refine WfHeap_hSet hw ⟨?_, ?_⟩
    · intro k hk
      exact (wf_hGet hw r).1 k hk
    · intro k hk
      rcases mem_keys_of_mem_keys_aset hk with h1 | h2
      · refine (wf_hGet hw r).2 k ?_
        rw [h1]
        exact List.mem_map_of_mem Prod.fst (aget_mem hag)
      · exact (wf_hGet hw r).2 k h2
  · intro h r n m hw hag hm
    refine WfHeap_hSet hw ⟨?_, ?_⟩
    · intro k hk
      exact (wf_hGet hw r).1 k hk
    · intro k hk
      rcases mem_keys_of_mem_keys_aset hk with h1 | h2
      · refine (wf_hGet hw r).2 k ?_
        rw [h1]
        exact List.mem_map_of_mem Prod.fst (aget_mem hag)
      · exact (wf_hGet hw r).2 k h2

/-! ## Data-less relationship objects (C7 groundwork) -/

theorem processOneRel_nodata_or (doc : Document)
    (applyFn : DeserState → RecordId → Resource → DeserState × RecordId)
    (st : DeserState) (target : RecordId) (rd : RelDef) (res : Resource)
    (hall : ∀ kv ∈ res.relationships, kv.2.dat = none) :
    processOneRel doc applyFn st target rd res = st ∨
      processOneRel doc applyFn st target rd res = writeRel st target rd.name (.many []) := by
  rw [processOneRel]
  split
  · exact Or.inl rfl
  · next kv hfind =>
    have hdat := hall kv (List.mem_of_find?_eq_some hfind)
    rw [hdat]
    rw [show processRelData doc applyFn st target rd none =
      (match rd.card with
        | .toMany => writeRel st target rd.name (.many [])
        | .toOne => st) from rfl]
    split
    · exact Or.inr rfl
    · exact Or.inl rfl

theorem processOneRel_nodata_slot (doc : Document)
    (applyFn : DeserState → RecordId → Resource → DeserState × RecordId)
    (st : DeserState) (target : RecordId) (rd : RelDef) (res : Resource) (n : String)
    (hall : ∀ kv ∈ res.relationships, kv.2.dat = none) (hne : n ≠ rd.name) :
    aget n (hGet (processOneRel doc applyFn st target rd res).heap target).rels
      = aget n (hGet st.heap target).rels := by
  rcases processOneRel_nodata_or doc applyFn st target rd res hall with h1 | h2
  · rw [h1]
  · rw [h2, writeRel]
    dsimp only
    rw [hGet_writeRelH_self]
    show aget n (aset rd.name (RelValue.many []) (hGet st.heap target).rels) = _
    rw [aget_aset_ne (Ne.symm hne)]

theorem processRelDefs_nodata_slot (doc : Document)
    (applyFn : DeserState → RecordId → Resource → DeserState × RecordId)
    (target : RecordId) (res : Resource) (n : String)
    (hall : ∀ kv ∈ res.relationships, kv.2.dat = none) :
    ∀ (rds : List RelDef) (st : DeserState), (∀ rd ∈ rds, n ≠ rd.name) →
      aget n (hGet (processRelDefs doc applyFn st target rds res).heap target).rels
        = aget n (hGet st.heap target).rels := by
  intro rds
  induction rds with
  | nil =>
    intro st _
    rfl
  | cons rd rest ih =>
    intro st hne
    rw [processRelDefs_cons]
    rw [ih _ (fun rd2 h2 => hne rd2 (List.mem_cons_of_mem _ h2))]
    exact processOneRel_nodata_slot doc applyFn st target rd res n hall
      (hne rd (List.mem_cons_self _ _))

theorem processRelDefs_nodata_write (doc : Document)
    (applyFn : DeserState → RecordId → Resource → DeserState × RecordId)
    (target : RecordId) (res : Resource)
    (hall : ∀ kv ∈ res.relationships, kv.2.dat = none) :
    ∀ (rds : List RelDef) (st : DeserState) (rd : RelDef) (kv : String × RelationshipObj),
      (rds.map RelDef.name).Nodup → rd ∈ rds →
      res.relationships.find? (fun p => decide (camelize p.1 = rd.name)) = some kv →
      rd.card = .toMany →
      aget rd.name (hGet (processRelDefs doc applyFn st target rds res).heap target).rels
        = some (.many []) := by
  intro rds
  induction rds with
  | nil =>
    intro st rd kv _ hmem
    simp at hmem
  | cons rd0 rest ih =>
    intro st rd kv hnodup hmem hfind hcard
    rw [processRelDefs_cons]
    rcases List.mem_cons.mp hmem with h1 | h2
    · subst h1
      have hdat := hall kv (List.mem_of_find?_eq_some hfind)
      rw [processOneRel_nodata_many doc applyFn st target rd res kv hfind hdat hcard]
      have hnd := List.nodup_cons.mp (by rw [List.map_cons] at hnodup; exact hnodup)
      have hne : ∀ rd2 ∈ rest, rd.name ≠ rd2.name := by
        intro rd2 h2 hc
        exact hnd.1 (by rw [hc]; exact List.mem_map_of_mem RelDef.name h2)
      rw [processRelDefs_nodata_slot doc applyFn target res rd.name hall rest _ hne]
      rw [writeRel]
      dsimp only
      rw [hGet_writeRelH_self]
      show aget rd.name (aset rd.name (RelValue.many []) (hGet st.heap target).rels) = _
      rw [aget_aset_self]
    · exact ih _ rd kv
        (by rw [List.map_cons] at hnodup; exact (List.nodup_cons.mp hnodup).2) h2 hfind hcard

/-! ## Graceful degradation (C7) -/

/-- C7: graceful degradation in apply.  (1) a document with top-level `data`
never errors, and only a missing `data` yields `MalformedDocument`; (2) schema
conformance is preserved: starting from a heap in which every record carries
only declared attribute and relationship names, the heap after apply still
does — undeclared wire attributes and relationships are dropped, never copied
onto any record; (3) a declared to-many relationship whose wire relationship
object lacks a `data` key resolves to an empty collection rather than
erroring — also in mixed documents whose other relationship objects do carry
data, and under every destruction scope (stated for a registry type with
distinct relationship names, a supplied record present on the heap, and a
record pool keying it only under the primary's own identity). -/
theorem apply_graceful_degradation (h : Heap) (r : RecordId) (doc : Document)
    (scope : Directive) :
    (∀ res, doc.data? = some res → ∃ st, fromJsonapi h r doc scope = .ok st) ∧
    (doc.data? = none → fromJsonapi h r doc scope = .error .malformedDocument) ∧
    (∀ st, WfHeap h → fromJsonapi h r doc scope = .ok st → WfHeap st.heap) ∧
    (∀ res rd kv (scope2 : Directive), doc.data? = some res →
      (aget r h).isSome = true →
      (∀ p ∈ seedPool h r, p.2 = r → p.1 = resourceKey res) →
      ((declaredRels (hGet h r).rtype).map RelDef.name).Nodup →
      rd ∈ declaredRels (hGet h r).rtype →
      res.relationships.find? (fun p => decide (camelize p.1 = rd.name)) = some kv →
      kv.2.dat = none → rd.card = .toMany →
      ∃ st, fromJsonapi h r doc scope2 = .ok st ∧
        aget rd.name (hGet st.heap r).rels = some (.many [])) := by
  refine ⟨?_, ?_, ?_, ?_⟩
  · intro res hdoc
    exact ⟨_, fromJsonapi_some h r doc scope res hdoc⟩
  · intro hnone
    rw [fromJsonapi, hnone]
  · intro st hw hok
    cases hdoc : doc.data? with
    | none =>
      rw [fromJsonapi, hdoc] at hok
      exact absurd hok (by simp)
    | some res =>
      rw [fromJsonapi_some h r doc scope res hdoc] at hok
      have hst := (Except.ok.injEq _ _).mp hok
      rw [← hst]
      show WfHeap (prune (applyCore doc (docFuel doc) ⟨h, seedPool h r, []⟩ r res).1.heap r scope)
      rw [prune]
      exact pruneDepth_wf _ _ r scope (applyCore_wf doc (docFuel doc) ⟨h, seedPool h r, []⟩ r res hw)
  · intro res rd kv scope2 hdoc hroot hpool hnodup hmem hfind hdat hcard
    refine ⟨_, fromJsonapi_some h r doc scope2 res hdoc, ?_⟩
    show aget rd.name (hGet (prune
      (applyCore doc (docFuel doc) ⟨h, seedPool h r, []⟩ r res).1.heap r scope2) r).rels = _
    refine prune_empty_slot _ r r rd.name scope2 ?_
    rw [docFuel_succ, applyCore_succ_miss doc _ ⟨h, seedPool h r, []⟩ r res rfl]
    show aget rd.name (hGet (setPersisted
      (applyBody doc _ ⟨h, seedPool h r, []⟩ r res).heap r true) r).rels = _
    rw [hGet_setPersisted_true]
    dsimp only
    rw [applyBody]
    exact processRelDefs_root_write doc res r _ (applyCore_rootframe doc res r _)
      (fun n2 => applyCore_root_slot doc res r n2 _) res _ _ rd kv
      (rootFrame_start h r res hroot hpool) hnodup hmem hfind hdat hcard

/-- Witness for the C7 theorem at concrete inputs: a mixed document whose
`tags` relationship object lacks `data` while its `books` relationship object
carries data, applied under the non-empty `books` scope; and well-formedness
preservation. -/
theorem apply_graceful_degradation_witness :
    (∃ st, fromJsonapi mixedHeap 0 mixedDoc booksScope = .ok st ∧
      aget "tags" (hGet st.heap 0).rels = some (RelValue.many [])) ∧
    WfHeap (applyOnce markedBookHeap 0 nodataBooksDoc (.node [])).heap :=
  ⟨(apply_graceful_degradation mixedHeap 0 mixedDoc booksScope).2.2.2
      mixedPrimary ⟨"tags", .toMany, "tags"⟩ ("tags", ⟨none⟩) booksScope rfl (by decide)
      (by decide) (by decide) (by decide) (by decide) rfl rfl,
   (apply_graceful_degradation markedBookHeap 0 nodataBooksDoc (.node [])).2.2.1
      (applyOnce markedBookHeap 0 nodataBooksDoc (.node [])) (by decide) (by rfl)⟩

/-! ## Identity map (C1) -/

theorem fromJsonapi_preserves {h : Heap} {r : RecordId} {doc : Document} {scope : Directive}
    {st : DeserState} (hok : fromJsonapi h r doc scope = .ok st) :
    ∀ x, (hGet st.heap x).extra = (hGet h x).extra ∧
      (hGet st.heap x).markedForDestruction = (hGet h x).markedForDestruction ∧
      (hGet st.heap x).markedForDisassociation = (hGet h x).markedForDisassociation := by
  cases hdoc : doc.data? with
  | none =>
    rw [fromJsonapi, hdoc] at hok
    exact absurd hok (by simp)
  | some res =>
    rw [fromJsonapi_some h r doc scope res hdoc] at hok
    have hst := (Except.ok.injEq _ _).mp hok
    rw [← hst]
    intro x
    show (hGet (prune (applyCore doc (docFuel doc) ⟨h, seedPool h r, []⟩ r res).1.heap r scope) x).extra = _ ∧ _ ∧ _
    rw [prune]
    exact pruneDepth_preserves h _ _ r scope
      (applyCore_preserves doc h _ _ r res (fun y => ⟨rfl, rfl, rfl⟩)) x

set_option maxRecDepth 100000 in
/-- C1: identity-map semantics of one deserialization pass.  (1) Every
application records its resolution: the record returned for a resource is the
one its `(type, id)` identity maps to in the processed map afterwards.
(2) Within a pass, a reference to an identity that has already been applied
resolves to that exact same record instance, with no further state change.
(3) A caller-supplied pooled record for an identity not yet applied is the
instance the reference attaches to, and it is registered as that identity's
instance.  (4) Caller-attached ad-hoc fields of every record survive the whole
pass unchanged. -/
theorem apply_identity_map (doc : Document) (fuel : Nat) :
    (∀ (st : DeserState) (target : RecordId) (res : Resource),
      aget (resourceKey res) (applyCore doc fuel st target res).1.processed
        = some (applyCore doc fuel st target res).2) ∧
    (∀ (st : DeserState) (ri : ResourceIdentifier) (m : RecordId),
      aget (rkey ri) st.processed = some m → (aget (rkey ri) st.pool).isSome →
      attachOne doc (fun s t r2 => applyCore doc fuel s t r2) st ri = (st, some m)) ∧
    (∀ (st : DeserState) (ri : ResourceIdentifier) (m : RecordId),
      aget (rkey ri) st.pool = some m → aget (rkey ri) st.processed = none →
      (attachOne doc (fun s t r2 => applyCore doc fuel s t r2) st ri).2 = some m ∧
      aget (rkey ri) (attachOne doc (fun s t r2 => applyCore doc fuel s t r2) st ri).1.processed
        = some m) ∧
    (∀ (h : Heap) (r : RecordId) (doc2 : Document) (scope : Directive) (st : DeserState),
      fromJsonapi h r doc2 scope = .ok st →
      ∀ x, (hGet st.heap x).extra = (hGet h x).extra) := by
  refine ⟨?_, ?_, ?_, ?_⟩
  · intro st target res
    exact applyCore_processed_spec doc fuel st target res
  · intro st ri m hproc hpool
    rcases hpl : aget (rkey ri) st.pool with _ | m0
    · rw [hpl] at hpool
      simp at hpool
    · rw [attachOne_pool_hit doc _ st ri m0 hpl]
      have hhit : aget (resourceKey (findResource doc ri)) st.processed = some m := by
        rw [resourceKey_findResource]
        exact hproc
      rw [applyCore_hit doc fuel st m0 m (findResource doc ri) hhit]
  · intro st ri m hpool hproc
    rw [attachOne_pool_hit doc _ st ri m hpool]
    have hmiss : aget (resourceKey (findResource doc ri)) st.processed = none := by
      rw [resourceKey_findResource]
      exact hproc
    have hret : (applyCore doc fuel st m (findResource doc ri)).2 = m := by
      cases fuel with
      | zero => rw [applyCore_zero_miss doc st m (findResource doc ri) hmiss]
      | succ fuel2 => rw [applyCore_succ_miss doc fuel2 st m (findResource doc ri) hmiss]
    have hspec := applyCore_processed_spec doc fuel st m (findResource doc ri)
    rw [resourceKey_findResource, hret] at hspec
    exact ⟨by rw [hret], hspec⟩
  · intro h r doc2 scope st hok x
    exact (fromJsonapi_preserves hok x).1

set_option maxRecDepth 100000 in
/-- Witness for the C1 theorem at concrete inputs. -/
theorem apply_identity_map_witness :
    (aget (resourceKey rewritePrimary)
        (applyCore rewriteDoc 3 ⟨markedBookHeap, seedPool markedBookHeap 0, []⟩
          0 rewritePrimary).1.processed
      = some (applyCore rewriteDoc 3 ⟨markedBookHeap, seedPool markedBookHeap 0, []⟩
          0 rewritePrimary).2) ∧
    (attachOne rewriteDoc (fun s t r2 => applyCore rewriteDoc 3 s t r2)
        ⟨markedBookHeap, [(("books", Value.vStr "1"), 9)], [(("books", Value.vStr "1"), 5)]⟩
        ⟨"books", Value.vStr "1"⟩
      = (⟨markedBookHeap, [(("books", Value.vStr "1"), 9)], [(("books", Value.vStr "1"), 5)]⟩,
         some 5)) ∧
    ((attachOne rewriteDoc (fun s t r2 => applyCore rewriteDoc 3 s t r2)
        ⟨markedBookHeap, [(("books", Value.vStr "1"), 1)], []⟩ ⟨"books", Value.vStr "1"⟩).2
      = some 1 ∧
     aget ("books", Value.vStr "1")
        (attachOne rewriteDoc (fun s t r2 => applyCore rewriteDoc 3 s t r2)
          ⟨markedBookHeap, [(("books", Value.vStr "1"), 1)], []⟩
          ⟨"books", Value.vStr "1"⟩).1.processed = some 1) ∧
    ((hGet (applyOnce markedBookHeap 0 bareAuthorDoc (.node [])).heap 1).extra
      = (hGet markedBookHeap 1).extra) :=
  ⟨(apply_identity_map rewriteDoc 3).1 ⟨markedBookHeap, seedPool markedBookHeap 0, []⟩
      0 rewritePrimary,
   (apply_identity_map rewriteDoc 3).2.1
      ⟨markedBookHeap, [(("books", Value.vStr "1"), 9)], [(("books", Value.vStr "1"), 5)]⟩
      ⟨"books", Value.vStr "1"⟩ 5 (by decide) (by decide),
   (apply_identity_map rewriteDoc 3).2.2.1
      ⟨markedBookHeap, [(("books", Value.vStr "1"), 1)], []⟩
      ⟨"books", Value.vStr "1"⟩ 1 (by decide) (by decide),
   (apply_identity_map rewriteDoc 3).2.2.2 markedBookHeap 0 bareAuthorDoc (.node [])
      (applyOnce markedBookHeap 0 bareAuthorDoc (.node [])) (by rfl) 1⟩

/-! ## buildPayload selective omission (C3) -/

theorem aget_append_of_none [DecidableEq κ] {k : κ} {l1 : List (κ × α)} (l2 : List (κ × α))
    (h : aget k l1 = none) : aget k (l1 ++ l2) = aget k l2 := by
  induction l1 with
  | nil => simp
  | cons p t ih =>
    obtain ⟨k2, w⟩ := p
    by_cases hk : k2 = k
    · rw [aget, if_pos hk] at h
      exact absurd h (by simp)
    · rw [aget, if_neg hk] at h
      rw [List.cons_append, aget, if_neg hk]
      exact ih h

theorem serializeEntry_none {h : Heap} {r : RecordId} {n : String} (fn : RecordId →
      SerState → List (String × Directive) →
      SerState × List (String × WriteRelData) × List WriteResource)
    (st : SerState) (nested : Directive) (haget : aget n (hGet h r).rels = none) :
    serializeEntry h fn r st n nested = (st, [], []) := by
  rw [serializeEntry, haget]

theorem serializeEntry_one_none {h : Heap} {r : RecordId} {n : String} (fn : RecordId →
      SerState → List (String × Directive) →
      SerState × List (String × WriteRelData) × List WriteResource)
    (st : SerState) (nested : Directive) (haget : aget n (hGet h r).rels = some (.one none)) :
    serializeEntry h fn r st n nested = (st, [], []) := by
  rw [serializeEntry, haget]

theorem serializeEntry_one_some {h : Heap} {r : RecordId} {n : String} {m : RecordId}
    (fn : RecordId → SerState → List (String × Directive) →
      SerState × List (String × WriteRelData) × List WriteResource)
    (st : SerState) (nested : Directive)
    (haget : aget n (hGet h r).rels = some (.one (some m))) :
    serializeEntry h fn r st n nested =
      (if isDirty h m nested then
        match processRelated h fn st m nested with
        | (st2, ref, inc) => (st2, [(underscore n, WriteRelData.one ref)], inc)
       else (st, [], [])) := by
  rw [serializeEntry, haget]

theorem serializeEntry_many {h : Heap} {r : RecordId} {n : String} {ms : List RecordId}
    (fn : RecordId → SerState → List (String × Directive) →
      SerState × List (String × WriteRelData) × List WriteResource)
    (st : SerState) (nested : Directive)
    (haget : aget n (hGet h r).rels = some (.many ms)) :
    serializeEntry h fn r st n nested =
      (if ms.filter (fun m => isDirty h m nested) = [] then (st, [], [])
       else
         match processMembers h fn st (ms.filter (fun m => isDirty h m nested)) nested with
         | (st2, refs, inc) => (st2, [(underscore n, WriteRelData.many refs)], inc)) := by
  rw [serializeEntry, haget]

theorem serializeEntry_clean {h : Heap} {r : RecordId} {n : String} {nested : Directive}
    {ms : List RecordId}
    (fn : RecordId → SerState → List (String × Directive) →
      SerState × List (String × WriteRelData) × List WriteResource)
    (st : SerState)
    (haget : aget n (hGet h r).rels = some (.many ms))
    (hclean : ∀ m ∈ ms, isDirty h m nested = false) :
    serializeEntry h fn r st n nested = (st, [], []) := by
  rw [serializeEntry_many fn st nested haget]
  rw [if_pos]
  rw [List.filter_eq_nil_iff]
  intro m hm
  rw [hclean m hm]
  simp

theorem serializeEntry_shape (h : Heap)
    (fn : RecordId → SerState → List (String × Directive) →
      SerState × List (String × WriteRelData) × List WriteResource)
    (r : RecordId) (st : SerState) (n : String) (nested : Directive) :
    (serializeEntry h fn r st n nested).2.1 = [] ∨
    ∃ rd, (serializeEntry h fn r st n nested).2.1 = [(underscore n, rd)] := by
  cases haget2 : aget n (hGet h r).rels with
  | none => rw [serializeEntry_none fn st nested haget2]; exact Or.inl rfl
  | some rv =>
    cases rv with
    | one m? =>
      cases m? with
      | none => rw [serializeEntry_one_none fn st nested haget2]; exact Or.inl rfl
      | some m =>
        rw [serializeEntry_one_some fn st nested haget2]
        by_cases hd : isDirty h m nested = true
        · rw [if_pos hd]
          rcases hpr : processRelated h fn st m nested with ⟨st2, ref, inc⟩
          exact Or.inr ⟨.one ref, rfl⟩
        · rw [if_neg hd]
          exact Or.inl rfl
    | many ms =>
      rw [serializeEntry_many fn st nested haget2]
      by_cases hf : ms.filter (fun m => isDirty h m nested) = []
      · rw [if_pos hf]
        exact Or.inl rfl
      · rw [if_neg hf]
        rcases hpm : processMembers h fn st (ms.filter (fun m => isDirty h m nested)) nested with
          ⟨st2, refs, inc⟩
        exact Or.inr ⟨.many refs, rfl⟩

theorem serializeEntries_cons (h : Heap)
    (fn : RecordId → SerState → List (String × Directive) →
      SerState × List (String × WriteRelData) × List WriteResource)
    (r : RecordId) (st : SerState) (n : String)
    (nested : Directive) (rest : List (String × Directive)) :
    serializeEntries h fn r st ((n, nested) :: rest) =
      ((serializeEntries h fn r (serializeEntry h fn r st n nested).1 rest).1,
       (serializeEntry h fn r st n nested).2.1 ++
         (serializeEntries h fn r (serializeEntry h fn r st n nested).1 rest).2.1,
       (serializeEntry h fn r st n nested).2.2 ++
         (serializeEntries h fn r (serializeEntry h fn r st n nested).1 rest).2.2) := by
  rw [serializeEntries]

theorem serializeEntries_clean_aget_none {h : Heap} {r : RecordId} {name : String}
    (fn : RecordId → SerState → List (String × Directive) →
      SerState × List (String × WriteRelData) × List WriteResource) :
    ∀ (es : List (String × Directive)) (st : SerState),
    (∀ p ∈ es, underscore p.1 = underscore name →
      ∃ ms2, aget p.1 (hGet h r).rels = some (.many ms2) ∧ ∀ m ∈ ms2, isDirty h m p.2 = false) →
    aget (underscore name) (serializeEntries h fn r st es).2.1 = none := by
  intro es
  induction es with
  | nil =>
    intro st hall
    rw [serializeEntries]
    rfl
  | cons p rest ih =>
    intro st hall
    obtain ⟨n, nested⟩ := p
    rw [serializeEntries_cons]
    have hrest2 : aget (underscore name)
        (serializeEntries h fn r (serializeEntry h fn r st n nested).1 rest).2.1 = none :=
      ih _ (fun p hp hu => hall p (List.mem_cons_of_mem _ hp) hu)
    show aget (underscore name) ((serializeEntry h fn r st n nested).2.1 ++
      (serializeEntries h fn r (serializeEntry h fn r st n nested).1 rest).2.1) = none
    by_cases hu : underscore n = underscore name
    · obtain ⟨ms2, haget2, hclean2⟩ := hall (n, nested) (List.mem_cons_self _ _) hu
      rw [serializeEntry_clean fn st haget2 hclean2] at hrest2 ⊢
      exact hrest2
    · rcases serializeEntry_shape h fn r st n nested with hsh | ⟨rd, hsh⟩
      · rw [hsh, List.nil_append]
        exact hrest2
      · rw [hsh]
        rw [aget_append_of_none]
        · exact hrest2
        · rw [aget, if_neg hu]
          rfl

theorem serializeDepth_clean_aget_none {h : Heap} {r : RecordId} {name : String} :
    ∀ (d : Nat) (es : List (String × Directive)) (st : SerState),
    (∀ p ∈ es, underscore p.1 = underscore name →
      ∃ ms2, aget p.1 (hGet h r).rels = some (.many ms2) ∧ ∀ m ∈ ms2, isDirty h m p.2 = false) →
    aget (underscore name) (serializeDepth h d r st es).2.1 = none := by
  intro d es st hall
  cases d with
  | zero => rfl
  | succ d2 => exact serializeEntries_clean_aget_none _ es st hall

/-- C3: selective omission — for a to-many relationship selected by the
include directive, if every member is non-dirty under the branch's nested
scope (and no other selected relationship emits the same wire key), the
relationship key is entirely absent from the emitted `data.relationships`. -/
theorem buildPayload_omits_clean_toMany :
    ∀ (h : Heap) (r : RecordId) (directive : Directive) (name : String) (nested : Directive)
      (ms : List RecordId),
      (name, nested) ∈ directive.entries →
      aget name (hGet h r).rels = some (.many ms) →
      (∀ m ∈ ms, isDirty h m nested = false) →
      (∀ p ∈ directive.entries, underscore p.1 = underscore name →
        ∃ ms2, aget p.1 (hGet h r).rels = some (.many ms2) ∧
          ∀ m ∈ ms2, isDirty h m p.2 = false) →
      aget (underscore name) (buildPayload h r directive).data.relationships = none := by
  intro h r directive name nested ms hmem haget hclean hall
  rw [buildPayload]
  rcases hsd : serializeDepth h (dsize directive) r ⟨[r], [], 0⟩ directive.entries with
    ⟨st3, rels, inc⟩
  have := serializeDepth_clean_aget_none (dsize directive) directive.entries ⟨[r], [], 0⟩ hall
  rw [hsd] at this
  exact this

/-- Witness for `buildPayload_omits_clean_toMany`: a sole untouched persisted
member leaves `books` absent from the payload relationships. -/
theorem buildPayload_omits_clean_toMany_witness :
    aget (underscore "books") (buildPayload cleanBookHeap 0 booksScope).data.relationships = none :=
  buildPayload_omits_clean_toMany cleanBookHeap 0 booksScope "books" (.node []) [1]
    (List.mem_cons_self _ _) (by decide) (by decide)
    (fun p hp hu => by
      rcases List.mem_cons.mp hp with h1 | h2
      · subst h1
        exact ⟨[1], by decide, by decide⟩
      · simp at h2)

/-! ## Nested-create payload (C6) -/

set_option maxRecDepth 10000 in
/-- C6 counterexample: in the nested-create scenario the `included` entries
carry no `method` tag at all — the `create` method tags sit on the
relationship references, not on the included entries, so the claim that each
included entry is tagged `method: create` is false on this input. -/
theorem nested_create_included_not_method_tagged :
    ((buildPayload createHeap 0 createDirective).included.map WriteResource.method) =
      [none, none, none] := by
  decide

set_option maxRecDepth 10000 in
/-- C6 (amended): the nested-create save produces exactly the expected
payload — root `data.relationships` holds `books` and `special_books`, each
referencing a freshly minted correlation identifier with method `create`; the
`included` array has exactly three entries (book, genre, book) in pre-order,
each carrying only its own locally-set attributes, with the method tags on
the relationship references rather than on the included entries. -/
theorem nested_create_payload :
    buildPayload createHeap 0 createDirective = expectedCreatePayload := by
  decide

/-- Witness for `changes_spec` at concrete records. -/
theorem changes_spec_witness :
    (("firstName", (Value.vNull, Value.vStr "foo")) ∈
        changes { Record.fresh "authors" with attrs := [("firstName", Value.vStr "foo")] } ↔
      ("firstName", Value.vStr "foo") ∈ [("firstName", Value.vStr "foo")] ∧
        Value.vStr "foo" ≠ Value.vNull ∧ Value.vNull = Value.vNull) ∧
    changes (hGet (setPersisted
        [(0, { Record.fresh "authors" with attrs := [("firstName", Value.vStr "foo")] })] 0 true) 0) = [] :=
  ⟨changes_spec.1 _ "firstName" Value.vNull (Value.vStr "foo") rfl,
   changes_spec.2.2 _ 0 (by decide)⟩

end Jsorm
